import Mathlib

/-!
# LoadChecker: a null-check instrumentation pass

A verification development for `lib/LoadChecker.cpp`.  The pass walks every
function, basic block and instruction of a module and, in front of every load,
inserts a comparison of the loaded address with the null pointer and a call to
a guard function that prints a diagnostic and exits when the comparison holds.

The host IR (module, function, block, instruction, value, type) and the
builder calls the pass uses are embedded as plain data and pure functions;
in-place mutation of the module is explicit state passing.
-/

namespace LoadChecker

/-! ## Host IR data model -/

/-- A source location attached to an instruction (line and column). -/
structure DebugLoc where
  line : Nat
  col : Nat
  deriving DecidableEq, Repr

/-- First-class types of the host IR, as far as the pass looks at them. -/
inductive Ty where
  | void
  | int (bits : Nat)
  | ptr (pointee : Ty) (addrSpace : Nat)
  | array (len : Nat) (elem : Ty)
  | other (tag : Nat)
  deriving DecidableEq, Repr

/-- Operands.  `arg` and `inst` are run-time values (a formal parameter, the
result of the instruction with the given identity); every other constructor is
a constant of the host IR. -/
inductive Value where
  | arg (ty : Ty) (idx : Nat)
  | inst (ty : Ty) (id : Nat)
  | global (ty : Ty) (name : String)
  | nullPtr (ty : Ty)
  | constInt (bits : Nat) (val : Nat)
  | cast (v : Value) (ty : Ty)
  | icmpEq (lhs rhs : Value)
  | const (ty : Ty) (tag : Nat)
  deriving DecidableEq, Repr

/-- The type of an operand (`Value::getType`). -/
def Value.type : Value → Ty
  | .arg ty _ => ty
  | .inst ty _ => ty
  | .global ty _ => ty
  | .nullPtr ty => ty
  | .constInt bits _ => .int bits
  | .cast _ ty => ty
  | .icmpEq _ _ => .int 1
  | .const ty _ => ty

/-- Whether an operand is a constant of the host IR (`isa<Constant>`). -/
def Value.isConstant : Value → Bool
  | .arg _ _ => false
  | .inst _ _ => false
  | .global _ _ => true
  | .nullPtr _ => true
  | .constInt _ _ => true
  | .cast v _ => v.isConstant
  | .icmpEq l r => l.isConstant && r.isConstant
  | .const _ _ => true

/-- The pointer type behind a type, if it is one (`dyn_cast<PointerType>`). -/
def Ty.asPointer : Ty → Option Ty
  | .ptr p a => some (.ptr p a)
  | _ => none

/-- Instruction kinds.  A call names the global value it calls; instructions
the pass neither inspects nor builds are `other`. -/
inductive InstrKind where
  | load (addr : Value)
  | icmpEq (lhs rhs : Value)
  | call (callee : String) (args : List Value)
  | condBr (cond : Value) (ifTrue ifFalse : String)
  | br (dest : String)
  | ret (val : Option Value)
  | other (opcode : Nat) (operands : List Value) (terminator : Bool)
  deriving DecidableEq, Repr

/-- An instruction: its identity (what a pointer to it is in the host), the
type of its result, its kind and its optional debug location. -/
structure Instr where
  id : Nat
  ty : Ty
  kind : InstrKind
  dbg : Option DebugLoc
  deriving DecidableEq, Repr

/-- A basic block: a label and an instruction sequence. -/
structure BasicBlock where
  name : String
  instrs : List Instr
  deriving DecidableEq, Repr

/-- The attributes the pass sets, and a tag for all others. -/
inductive Attr where
  | noUnwind
  | noCapture
  | readOnly
  | noReturn
  | other (tag : Nat)
  deriving DecidableEq, Repr

/-- A function signature. -/
structure FunctionType where
  ret : Ty
  params : List Ty
  isVarArg : Bool
  deriving DecidableEq, Repr

/-- A function of the module; a declaration is a function without blocks. -/
structure Function where
  name : String
  type : FunctionType
  fnAttrs : List Attr
  paramAttrs : List (Nat × Attr)
  blocks : List BasicBlock
  deriving DecidableEq, Repr

/-- Initializers of global variables: a NUL-terminated byte string
(`ConstantDataArray::getString`), or some other constant. -/
inductive Constant where
  | cstring (s : String)
  | other (tag : Nat)
  deriving DecidableEq, Repr

/-- A global variable. -/
structure GlobalVariable where
  name : String
  valueType : Ty
  initializer : Option Constant
  deriving DecidableEq, Repr

/-- A module: its function list, its global list, the identity the next
created instruction receives, and the counter from which the module's symbol
table numbers the names it has to make unique
(`ValueSymbolTable::LastUnique`). -/
structure Module where
  functions : List Function
  globals : List GlobalVariable
  nextId : Nat
  lastUnique : Nat
  deriving DecidableEq, Repr

/-- What a name of the module symbol table denotes. -/
inductive NamedValue where
  | function (F : Function)
  | globalVariable (G : GlobalVariable)
  deriving DecidableEq, Repr

/-- Why the embedded pass produces no module. -/
inductive Fault where
  | outOfFuel
  | undefinedBehaviour
  deriving DecidableEq, Repr

/-! ## Host operations the pass calls

The module symbol table is shared by functions and global variables. -/

/-- Lookup of a name in the module symbol table (`Module::getNamedValue`). -/
def Module.getNamedValue (M : Module) (name : String) : Option NamedValue :=
  match M.functions.find? (fun F => F.name == name) with
  | some F => some (.function F)
  | none =>
    match M.globals.find? (fun G => G.name == name) with
    | some G => some (.globalVariable G)
    | none => none

/-- Lookup of a function by name (`Module::getFunction`): the named value, if
it is a function. -/
def Module.getFunction (M : Module) (name : String) : Option Function :=
  match M.getNamedValue name with
  | some (.function F) => some F
  | _ => none

/-- The host call `Module::getOrInsertFunction`: when the name denotes nothing,
a declaration of the given type is appended to the function list; otherwise the
module is left as it is and the callee is the existing named value. -/
def Module.getOrInsertFunction (M : Module) (name : String) (ty : FunctionType) : Module :=
  match M.getNamedValue name with
  | some _ => M
  | none => { M with functions := M.functions ++ [⟨name, ty, [], [], []⟩] }

/-- The callee of `getOrInsertFunction name ty` seen through
`dyn_cast<Function>`: the function of that name when its type is `ty`; a
global variable, or a function of another type (reached through a pointer
cast), is not a function. -/
def Module.calleeAsFunction (M : Module) (name : String) (ty : FunctionType) : Option Function :=
  match M.getNamedValue name with
  | some (.function F) => if F.type = ty then some F else none
  | _ => none

/-- In-place update of the function(s) of a given name. -/
def Module.updateFunction (M : Module) (name : String) (f : Function → Function) : Module :=
  { M with functions := M.functions.map (fun F => if F.name = name then f F else F) }

/-- Adding an attribute to an attribute set. -/
def addAttr {α : Type} [DecidableEq α] (a : α) (as : List α) : List α :=
  if a ∈ as then as else as ++ [a]

/-- The loop of `ValueSymbolTable::makeUniqueName` for a global value whose name
`base` is taken: the counter is incremented and a dot and its decimal value are
appended to `base`, until the name is free (the dot is left out for NVPTX
targets only, which are not modelled).  Returns the name and the counter.
`fuel` is the number of names that may be found taken; with as many as there
are symbols the loop has ended before it is used up. -/
def uniqueNameFrom (taken : String → Bool) (base : String) : Nat → Nat → String × Nat
  | 0, c => (base ++ "." ++ toString (c + 1), c + 1)
  | fuel + 1, c =>
    if taken (base ++ "." ++ toString (c + 1)) then uniqueNameFrom taken base fuel (c + 1)
    else (base ++ "." ++ toString (c + 1), c + 1)

/-- The name the symbol table gives a new global value whose name is taken. -/
def Module.makeUniqueName (M : Module) (base : String) : String × Nat :=
  uniqueNameFrom (fun n => (M.getNamedValue n).isSome) base
    (M.functions.length + M.globals.length) M.lastUnique

/-- The host call `Module::getOrInsertGlobal`, which returns the variable (here:
the module and the variable's name).  A fresh variable without initializer is
appended when the name denotes nothing; an existing variable of the requested
type is reused.  An existing variable of another type comes back as a pointer
cast, which `dyn_cast<GlobalVariable>` turns into a null pointer that the pass
dereferences.  When the name denotes a function, the lookup
(`dyn_cast_or_null<GlobalVariable>`) finds no variable and a new one is
created, which the symbol table renames since the name is taken. -/
def Module.getOrInsertGlobal (M : Module) (name : String) (ty : Ty) :
    Except Fault (Module × String) :=
  match M.getNamedValue name with
  | none => .ok ({ M with globals := M.globals ++ [⟨name, ty, none⟩] }, name)
  | some (.globalVariable G) =>
    if G.valueType = ty then .ok (M, name) else .error .undefinedBehaviour
  | some (.function _) =>
    .ok ({ M with globals := M.globals ++ [⟨(M.makeUniqueName name).1, ty, none⟩],
                  lastUnique := (M.makeUniqueName name).2 },
         (M.makeUniqueName name).1)

/-- The host call `GlobalVariable::setInitializer` on the variable of a name. -/
def Module.setInitializer (M : Module) (name : String) (c : Constant) : Module :=
  { M with globals := M.globals.map (fun G => if G.name = name then { G with initializer := some c } else G) }

/-- Replacing the block list of the function at a position of the function
list, leaving its name, type and attributes alone. -/
def setBlocksAt : Nat → List BasicBlock → List Function → List Function
  | _, _, [] => []
  | 0, bs, F :: Fs => { F with blocks := bs } :: Fs
  | i + 1, bs, F :: Fs => F :: setBlocksAt i bs Fs

/-- Writing the rebuilt blocks of the function being traversed back into the
module. -/
def Module.setBlocks (M : Module) (i : Nat) (bs : List BasicBlock) : Module :=
  { M with functions := setBlocksAt i bs M.functions }

/-- The builder call `CreateICmpEQ` of `IRBuilder<>`, whose folder is the
default constant folder: a comparison of two constants is folded into a
constant and no instruction is inserted; otherwise an `icmp eq` instruction
with a fresh identity is inserted.  Returns the comparison value, the inserted
instructions and the next fresh identity. -/
def createICmpEQ (nextId : Nat) (dbg : Option DebugLoc) (lhs rhs : Value) :
    Value × List Instr × Nat :=
  if lhs.isConstant && rhs.isConstant then
    (.icmpEq lhs rhs, [], nextId)
  else
    (.inst (.int 1) nextId, [⟨nextId, .int 1, .icmpEq lhs rhs, dbg⟩], nextId + 1)

/-! ## The pass -/

/-- The byte-pointer type (`PointerType::getUnqual(Type::getInt8Ty)`). -/
def i8Ptr : Ty := .ptr (.int 8) 0

/-- Name of the guard function of a load (lines 42-49). -/
def funcName (debugLoc : Option DebugLoc) : String :=
  match debugLoc with
  | none => "nullChecker"
  | some d => "nullChecker" ++ "_" ++ toString d.line ++ "_" ++ toString d.col

/-- Text of the diagnostic of a load (lines 73-80). -/
def errorMsg (debugLoc : Option DebugLoc) : String :=
  match debugLoc with
  | none => "Trying to load a NULL pointer" ++ ". Exiting early.\n"
  | some d =>
    "Trying to load a NULL pointer" ++ " at line " ++ toString d.line ++ ", col "
      ++ toString d.col ++ ". Exiting early.\n"

/-- Name of the diagnostic global of a load (lines 82-88). -/
def gblVarName (debugLoc : Option DebugLoc) : String :=
  match debugLoc with
  | none => "ErrorMsg"
  | some d => "ErrorMsg" ++ "_" ++ toString d.line ++ "_" ++ toString d.col

/-- Type of a guard function (lines 51-53): `void (i1)`. -/
def nullCheckerTy (cmp : Value) : FunctionType := ⟨.void, [cmp.type], false⟩

/-- Type of the print routine (lines 64-66): `i32 (i8*, ...)`. -/
def printfTy : FunctionType := ⟨.int 32, [i8Ptr], true⟩

/-- Type of the exit routine (lines 92-94): `void (i32)`. -/
def exitTy : FunctionType := ⟨.void, [.int 32], false⟩

/-- Type of the diagnostic constant: the bytes of the text and a NUL. -/
def errorMsgTy (debugLoc : Option DebugLoc) : Ty :=
  .array ((errorMsg debugLoc).length + 1) (.int 8)

/-- The three blocks of a guard function (lines 58-62 and 97-105), built with
instruction identities `n`, ..., `n + 4` in creation order; `errorMsgGbl` is
the name of the variable that `getOrInsertGlobal` returned on line 89.  The
pointer cast of the diagnostic global is a cast of a constant, which the
builder folds into a constant expression. -/
def guardBlocks (n : Nat) (debugLoc : Option DebugLoc) (errorMsgGbl : String) :
    List BasicBlock :=
  let errorMsgGblPtr : Value :=
    .cast (.global (.ptr (errorMsgTy debugLoc) 0) errorMsgGbl) i8Ptr
  [ ⟨"enter", [⟨n, .void, .condBr (.arg (.int 1) 0) "is_null" "ret", none⟩]⟩,
    ⟨"is_null",
      [ ⟨n + 1, .int 32, .call "printf" [errorMsgGblPtr], none⟩,
        ⟨n + 2, .void, .call "exit" [.constInt 32 1], none⟩,
        ⟨n + 3, .void, .br "ret", none⟩ ]⟩,
    ⟨"ret", [⟨n + 4, .void, .ret none, none⟩]⟩ ]

/-- Lines 58-62 and 97-105: the three blocks are attached to the guard function,
their five instructions taking the next five identities. -/
def attachGuardBlocks (M : Module) (debugLoc : Option DebugLoc) (errorMsgGbl : String) :
    Module :=
  { M.updateFunction (funcName debugLoc)
      (fun F => { F with blocks := F.blocks ++ guardBlocks M.nextId debugLoc errorMsgGbl }) with
    nextId := M.nextId + 5 }

/-- Lines 69-71: `printf` is marked as not throwing and its first parameter as
not captured and read-only. -/
def printfAttrs (F : Function) : Function :=
  { F with fnAttrs := addAttr Attr.noUnwind F.fnAttrs,
           paramAttrs := addAttr (0, Attr.readOnly) (addAttr (0, Attr.noCapture) F.paramAttrs) }

/-- Lines 56-105: the body of `if(!funcExists)`, run on the module in which
`getOrInsertFunction funcName` has just been called.  The declarations and the
global are created in source order: `printf`, the diagnostic global, `exit`;
the initializer is set on the variable that `getOrInsertGlobal` returned, and
that variable is the operand of the cast.  The three blocks with their five
instructions are attached to the guard function in one step, once their
operands exist; no other instruction is created in between, so the identities
are those of the creation order. -/
def buildGuard (M : Module) (cmp : Value) (debugLoc : Option DebugLoc) : Except Fault Module :=
  match M.calleeAsFunction (funcName debugLoc) (nullCheckerTy cmp) with
  | none => .error .undefinedBehaviour
  | some _ =>
    let M := M.getOrInsertFunction "printf" printfTy
    match M.calleeAsFunction "printf" printfTy with
    | none => .error .undefinedBehaviour
    | some _ =>
      let M := M.updateFunction "printf" printfAttrs
      match M.getOrInsertGlobal (gblVarName debugLoc) (errorMsgTy debugLoc) with
      | .error e => .error e
      | .ok (M, errorMsgGbl) =>
        let M := M.setInitializer errorMsgGbl (.cstring (errorMsg debugLoc))
        let M := M.getOrInsertFunction "exit" exitTy
        .ok (attachGuardBlocks M debugLoc errorMsgGbl)

/-- Lines 35-108: the body of the traversal for one load instruction.  Returns
the mutated module and the instructions inserted in front of the load. -/
def instrumentLoad (M : Module) (loadInst : Instr) (addr : Value) :
    Except Fault (Module × List Instr) :=
  match addr.type.asPointer with
  | none => .error .undefinedBehaviour
  | some pty =>
    let (cmp, cmpInstrs, nextId) := createICmpEQ M.nextId loadInst.dbg addr (.nullPtr pty)
    let M := { M with nextId := nextId }
    let funcExists := (M.getFunction (funcName loadInst.dbg)).isSome
    let M := M.getOrInsertFunction (funcName loadInst.dbg) (nullCheckerTy cmp)
    match (if funcExists then Except.ok M else buildGuard M cmp loadInst.dbg) with
    | .error e => .error e
    | .ok M =>
      .ok ({ M with nextId := M.nextId + 1 },
           cmpInstrs ++ [⟨M.nextId, .void, .call (funcName loadInst.dbg) [cmp], loadInst.dbg⟩])

/-- Lines 33-34: the traversal of the instructions of one block.  Inserting in
front of the current instruction does not disturb the iteration: the next
instruction visited is the one after the load. -/
def instrumentInstrs (M : Module) : List Instr → Except Fault (Module × List Instr)
  | [] => .ok (M, [])
  | I :: rest =>
    match I.kind with
    | .load addr =>
      match instrumentLoad M I addr with
      | .error e => .error e
      | .ok (M1, pre) =>
        match instrumentInstrs M1 rest with
        | .error e => .error e
        | .ok (M2, rest') => .ok (M2, pre ++ I :: rest')
    | _ =>
      match instrumentInstrs M rest with
      | .error e => .error e
      | .ok (M2, rest') => .ok (M2, I :: rest')

/-- Line 32: the traversal of the blocks of one function. -/
def instrumentBlocks (M : Module) : List BasicBlock → Except Fault (Module × List BasicBlock)
  | [] => .ok (M, [])
  | BB :: rest =>
    match instrumentInstrs M BB.instrs with
    | .error e => .error e
    | .ok (M1, instrs') =>
      match instrumentBlocks M1 rest with
      | .error e => .error e
      | .ok (M2, rest') => .ok (M2, { BB with instrs := instrs' } :: rest')

/-- Line 31: the traversal of the function list from position `i` on.  The
list is read again at every step, so functions appended during the traversal
are visited as well; `fuel` bounds the number of functions visited. -/
def runLoop : Nat → Nat → Module → Except Fault Module
  | 0, _, _ => .error .outOfFuel
  | fuel + 1, i, M =>
    match M.functions.get? i with
    | none => .ok M
    | some F =>
      match instrumentBlocks M F.blocks with
      | .error e => .error e
      | .ok (M1, blocks') => runLoop fuel (i + 1) (M1.setBlocks i blocks')

/-- The method `LoadChecker::runOnModule` (lines 26-115): the mutated module and
the returned flag.  The local `instrumented` is initialised to `false` on line
27 and is the value returned on line 114; no statement in between assigns it. -/
def runOnModule (fuel : Nat) (M : Module) : Except Fault (Module × Bool) :=
  let instrumented := false
  match runLoop fuel 0 M with
  | .error e => .error e
  | .ok M' => .ok (M', instrumented)

/-- What a pass reports to the pass manager. -/
inductive PreservedAnalyses where
  | none
  | all
  deriving DecidableEq, Repr

/-- The method `LoadChecker::run` (lines 117-123). -/
def run (fuel : Nat) (M : Module) : Except Fault (Module × PreservedAnalyses) :=
  match runOnModule fuel M with
  | .error e => .error e
  | .ok (M', instrumented) =>
    .ok (M', if instrumented then PreservedAnalyses.none else PreservedAnalyses.all)

end LoadChecker

namespace LoadChecker

/-! ## Relations used to state what the pass does -/

/-- Whether an instruction is a load (`dyn_cast<LoadInst>`). -/
def Instr.isLoad (I : Instr) : Bool :=
  match I.kind with
  | .load _ => true
  | _ => false

/-- A function without load instructions. -/
def Function.noLoads (F : Function) : Prop :=
  ∀ B ∈ F.blocks, ∀ I ∈ B.instrs, I.isLoad = false

/-- The guard function as the pass builds it for a location, with instruction
identities from `n` on and the diagnostic variable `g`. -/
def guardFn (cmp : Value) (n : Nat) (k : Option DebugLoc) (g : String) : Function :=
  ⟨funcName k, nullCheckerTy cmp, [], [], guardBlocks n k g⟩

/-- The module with the new guard function of a location in it, its blocks
attached. -/
def withGuard (M : Module) (cmp : Value) (k : Option DebugLoc) (g : String) : Module :=
  { M with functions := M.functions ++ [guardFn cmp M.nextId k g], nextId := M.nextId + 5 }

/-- The module after lines 63-71. -/
def withPrintf (M : Module) : Module :=
  (M.getOrInsertFunction "printf" printfTy).updateFunction "printf" printfAttrs

/-- The comparison built for a load in a module state (line 40). -/
def cmpOf (M : Module) (L : Instr) (addr : Value) (pty : Ty) : Value × List Instr × Nat :=
  createICmpEQ M.nextId L.dbg addr (.nullPtr pty)

/-- The guard call inserted in front of a load (line 108). -/
def guardCall (L : Instr) (id : Nat) (cmp : Value) : Instr :=
  ⟨id, .void, .call (funcName L.dbg) [cmp], L.dbg⟩

/-- Module states the traversal can pass through: one module reaches another
by instrumenting loads and by writing blocks back into a function; what is
written back into a function without loads are the blocks it has. -/
inductive Reach : Module → Module → Prop where
  | refl (M : Module) : Reach M M
  | load {M M1 M' : Module} {L : Instr} {addr : Value} {pre : List Instr} :
      instrumentLoad M L addr = .ok (M1, pre) → Reach M1 M' → Reach M M'
  | setBlocks {M M' : Module} {i : Nat} {bs : List BasicBlock} :
      (∀ F, M.functions.get? i = some F → F.noLoads → bs = F.blocks) →
      Reach (M.setBlocks i bs) M' → Reach M M'

/-- Two functions that agree on name, type and body (attributes may differ). -/
def SameFn (F F' : Function) : Prop :=
  F'.name = F.name ∧ F'.type = F.type ∧ F'.blocks = F.blocks

/-- The functions the pass appends to a module: a guard function with its
three blocks, or the declaration of `printf` or of `exit`. -/
def NewFn (F : Function) : Prop :=
  (∃ k n g, F.name = funcName k ∧ F.type = ⟨.void, [.int 1], false⟩ ∧
    F.blocks = guardBlocks n k g) ∨
  (F.name = "printf" ∧ F.type = printfTy ∧ F.blocks = []) ∨
  (F.name = "exit" ∧ F.type = exitTy ∧ F.blocks = [])

/-- A function list after some steps of the pass: the functions it had, with
name, type and body as they were, followed by functions the pass appended. -/
def Grows (fs fs' : List Function) : Prop :=
  ∃ old' new, fs' = old' ++ new ∧ List.Forall₂ SameFn fs old' ∧ ∀ F ∈ new, NewFn F

/-- The instruction sequence of a block before and after the traversal, from the
module `M0` the pass started on to the module `Mfin` it ended with: every
instruction is kept in place, and each load `L` has in front of it the
instructions `pre` that `instrumentLoad` returned for it in some module state
`M1` of the traversal. -/
inductive Expanded (M0 Mfin : Module) : List Instr → List Instr → Prop where
  | nil : Expanded M0 Mfin [] []
  | keep {I : Instr} {is os : List Instr} :
      I.isLoad = false → Expanded M0 Mfin is os → Expanded M0 Mfin (I :: is) (I :: os)
  | guard {L : Instr} {addr : Value} {M1 M2 : Module} {pre is os : List Instr} :
      L.kind = .load addr → Reach M0 M1 → instrumentLoad M1 L addr = .ok (M2, pre) →
      Reach M2 Mfin → Expanded M0 Mfin is os → Expanded M0 Mfin (L :: is) (pre ++ L :: os)

/-- A block before and after the traversal. -/
def InstrumentedBlock (M0 Mfin : Module) (B B' : BasicBlock) : Prop :=
  B'.name = B.name ∧ Expanded M0 Mfin B.instrs B'.instrs

/-- A function before and after the traversal. -/
def InstrumentedFn (M0 Mfin : Module) (F F' : Function) : Prop :=
  F'.name = F.name ∧ F'.type = F.type ∧
    List.Forall₂ (InstrumentedBlock M0 Mfin) F.blocks F'.blocks

/-- Symbol names are unique in a module: no two functions, no two global
variables and no function and global variable share a name. -/
def NamesUnique (M : Module) : Prop :=
  (M.functions.map (fun F => F.name) ++ M.globals.map (fun G => G.name)).Nodup

instance (M : Module) : Decidable (NamesUnique M) :=
  inferInstanceAs (Decidable (List.Nodup _))

end LoadChecker

namespace LoadChecker

/-! ## Shapes the claims speak about -/

/-- Positions `p`, `p + 1`, `p + 2` of a block hold a comparison instruction of
the address with the null pointer of the address's type, a call of the guard
function whose only argument is the result of that comparison, and the load. -/
def GuardedByCmp (out : List Instr) (p : Nat) (L : Instr) (addr : Value) : Prop :=
  ∃ cmp call, out.get? p = some cmp ∧ out.get? (p + 1) = some call ∧ out.get? (p + 2) = some L ∧
    cmp.kind = .icmpEq addr (.nullPtr addr.type) ∧
    call.kind = .call (funcName L.dbg) [.inst cmp.ty cmp.id]

/-- Positions `p`, `p + 1` of a block hold a call of the guard function whose
only argument is the constant comparison of the address with the null pointer
of the address's type, and the load. -/
def GuardedByConst (out : List Instr) (p : Nat) (L : Instr) (addr : Value) : Prop :=
  ∃ call, out.get? p = some call ∧ out.get? (p + 1) = some L ∧
    call.kind = .call (funcName L.dbg) [.icmpEq addr (.nullPtr addr.type)]

/-- The block at a position of a module. -/
def Module.blockAt (M : Module) (i j : Nat) : Option BasicBlock :=
  match M.functions.get? i with
  | none => none
  | some F => F.blocks.get? j

/-- Whether an instruction is a comparison. -/
def Instr.isICmp (I : Instr) : Bool :=
  match I.kind with
  | .icmpEq _ _ => true
  | _ => false

/-- Whether an instruction is a call. -/
def Instr.isCall (I : Instr) : Bool :=
  match I.kind with
  | .call _ _ => true
  | _ => false

/-- Whether an instruction is a load through an address that is not a constant. -/
def Instr.isLoadOfValue (I : Instr) : Bool :=
  match I.kind with
  | .load addr => !addr.isConstant
  | _ => false

/-- The instructions of a block created after the module had reached the
instruction identity `n`. -/
def insertedSince (n : Nat) (is : List Instr) : List Instr :=
  is.filter (fun I => decide (n ≤ I.id))

/-- The instructions of a block that existed before the module reached the
instruction identity `n`. -/
def presentBefore (n : Nat) (is : List Instr) : List Instr :=
  is.filter (fun I => decide (I.id < n))

/-- The name of the diagnostic variable of the location key `k` in a run of the
pass on `M0`: the plain name `ErrorMsg...`, unless a function of `M0` has that
name; then the symbol table has made the name unique with a dot and a
number. -/
def DiagName (M0 : Module) (k : Option DebugLoc) (g : String) : Prop :=
  (gblVarName k ∉ M0.functions.map (fun F => F.name) → g = gblVarName k) ∧
  (gblVarName k ∈ M0.functions.map (fun F => F.name) →
    ∃ u : Nat, g = gblVarName k ++ "." ++ toString u)

/-- A module state of a run of the pass on `M0`: the functions of `M0` are
still there by name, every other function has a name the pass gives, and every
guard function the pass has added since `M0` has the three blocks of its
location key, which print a variable `g` that is in the module, has the type of
the diagnostic text and is initialised with the text of that key. -/
def GuardLinked (M0 M : Module) : Prop :=
  (∀ n ∈ M0.functions.map (fun F => F.name), n ∈ M.functions.map (fun F => F.name)) ∧
  (∀ n ∈ M.functions.map (fun F => F.name), n ∈ M0.functions.map (fun F => F.name) ∨
    (∃ k, n = funcName k) ∨ n = "printf" ∨ n = "exit") ∧
  ∀ k, funcName k ∉ M0.functions.map (fun F => F.name) →
    ∀ Fg ∈ M.functions, Fg.name = funcName k →
      ∃ n g, Fg.blocks = guardBlocks n k g ∧ DiagName M0 k g ∧
        (∃ G ∈ M.globals, G.name = g ∧ G.valueType = errorMsgTy k ∧
          G.initializer = some (.cstring (errorMsg k))) ∧
        ∀ G ∈ M.globals, G.name = g → G.initializer = some (.cstring (errorMsg k))

/-- A module without any load instruction. -/
def Module.noLoads (M : Module) : Prop :=
  ∀ F ∈ M.functions, ∀ B ∈ F.blocks, ∀ I ∈ B.instrs, I.isLoad = false

/-! ## Sample modules -/

/-- The type `i32*`. -/
def i32Ptr : Ty := .ptr (.int 32) 0

/-- A module with one function that loads through its parameter, at line 3,
column 7. -/
def sampleArg : Module :=
  ⟨[⟨"f", ⟨.int 32, [i32Ptr], false⟩, [], [],
      [⟨"entry", [⟨0, .int 32, .load (.arg i32Ptr 0), some ⟨3, 7⟩⟩,
                  ⟨1, .void, .ret (some (.inst (.int 32) 0)), none⟩]⟩]⟩],
    [], 2, 0⟩

/-- A module with one function that loads the global variable `g`, without
debug location. -/
def sampleGlobal : Module :=
  ⟨[⟨"f", ⟨.int 32, [], false⟩, [], [],
      [⟨"entry", [⟨0, .int 32, .load (.global i32Ptr "g"), none⟩,
                  ⟨1, .void, .ret (some (.inst (.int 32) 0)), none⟩]⟩]⟩],
    [⟨"g", .int 32, some (.other 0)⟩], 2, 0⟩

/-- A module with one function that loads through its two parameters, at line
3, column 7 and at line 4, column 2. -/
def sampleTwo : Module :=
  ⟨[⟨"f", ⟨.void, [i32Ptr, i32Ptr], false⟩, [], [],
      [⟨"entry", [⟨0, .int 32, .load (.arg i32Ptr 0), some ⟨3, 7⟩⟩,
                  ⟨1, .int 32, .load (.arg i32Ptr 1), some ⟨4, 2⟩⟩,
                  ⟨2, .void, .ret none, none⟩]⟩]⟩],
    [], 3, 0⟩

/-- A module with one function that loads through its two parameters, both
loads at line 3, column 7. -/
def sampleSame : Module :=
  ⟨[⟨"f", ⟨.void, [i32Ptr, i32Ptr], false⟩, [], [],
      [⟨"entry", [⟨0, .int 32, .load (.arg i32Ptr 0), some ⟨3, 7⟩⟩,
                  ⟨1, .int 32, .load (.arg i32Ptr 1), some ⟨3, 7⟩⟩,
                  ⟨2, .void, .ret none, none⟩]⟩]⟩],
    [], 3, 0⟩

/-- A module that already has a function named `nullChecker`, and a function
that loads through its parameter without debug location. -/
def samplePre : Module :=
  ⟨[⟨"nullChecker", ⟨.void, [.int 1], false⟩, [], [],
      [⟨"entry", [⟨0, .void, .ret none, none⟩]⟩]⟩,
    ⟨"f", ⟨.int 32, [i32Ptr], false⟩, [], [],
      [⟨"entry", [⟨1, .int 32, .load (.arg i32Ptr 0), none⟩,
                  ⟨2, .void, .ret (some (.inst (.int 32) 1)), none⟩]⟩]⟩],
    [], 3, 0⟩

/-- A module in which the name `ErrorMsg` is that of a function (a declaration),
and a function that loads through its parameter without debug location. -/
def sampleClash : Module :=
  ⟨[⟨"ErrorMsg", ⟨.void, [], false⟩, [], [], []⟩,
    ⟨"f", ⟨.int 32, [i32Ptr], false⟩, [], [],
      [⟨"entry", [⟨0, .int 32, .load (.arg i32Ptr 0), none⟩,
                  ⟨1, .void, .ret (some (.inst (.int 32) 0)), none⟩]⟩]⟩],
    [], 2, 0⟩

/-- A module whose only function is named `nullChecker` and loads the global
variable `g`, without debug location. -/
def sampleGuardLoad : Module :=
  ⟨[⟨"nullChecker", ⟨.void, [.int 1], false⟩, [], [],
      [⟨"entry", [⟨0, .int 32, .load (.global i32Ptr "g"), none⟩,
                  ⟨1, .void, .ret none, none⟩]⟩]⟩],
    [⟨"g", .int 32, some (.other 0)⟩], 2, 0⟩

/-- A module without loads: one function that returns at once. -/
def sampleNoLoad : Module :=
  ⟨[⟨"f", ⟨.void, [], false⟩, [], [], [⟨"entry", [⟨0, .void, .ret none, none⟩]⟩]⟩], [], 1, 0⟩

/-- The instrumented `sampleGlobal`'s only block. -/
def sampleGlobalBlock : BasicBlock :=
  ⟨"entry", [⟨7, .void, .call "nullChecker" [.icmpEq (.global i32Ptr "g") (.nullPtr i32Ptr)], none⟩,
             ⟨0, .int 32, .load (.global i32Ptr "g"), none⟩,
             ⟨1, .void, .ret (some (.inst (.int 32) 0)), none⟩]⟩

end LoadChecker

namespace LoadChecker

/-! ## Execution of a module

A small-step interpreter of the host IR, to state what the inserted guard does
when the instrumented program runs.  What the pass does not look at is a
parameter (`Host`): the values memory holds, the effect of instructions of
other kinds, and the behaviour of external functions. -/

/-- Run-time values: integers, the null pointer, the address of a global value,
any other address, and the undefined value. -/
inductive Val where
  | int (n : Nat)
  | null
  | addrOf (name : String)
  | ptr (a : Nat)
  | undefined
  deriving DecidableEq, Repr

/-- What an execution lets the outside see: a call of an external function with
its arguments, and a load (the instruction, the address and the value read). -/
inductive Event where
  | external (name : String) (args : List Val)
  | load (id : Nat) (addr : Val) (val : Val)
  deriving DecidableEq, Repr

/-- Whether the program runs, has returned from its entry function, was stopped
by an external function that does not return, was trapped by a load through
the null pointer, or is stuck on ill-formed code. -/
inductive Status where
  | running
  | returned
  | stopped
  | trapped
  | stuck
  deriving DecidableEq, Repr

/-- The environment of an execution, over a memory of type `σ`: the value a load
reads, the effect of an instruction of another kind, the successor label a
terminator of another kind picks (none: the program stops there), what an
external function returns (none: it does not return), and the value of a
constant of another kind. -/
structure Host (σ : Type) where
  loadMem : σ → Val → Ty → Val
  exec : Nat → List Val → σ → Val × σ
  branch : Nat → List Val → σ → Option String
  external : String → List Val → σ → Option (Val × σ)
  constVal : Ty → Nat → Val

/-- An activation: the positions of the function in the module and of the block
in the function, the position of the next instruction in the block, the
arguments, and the values of the instruction results computed so far. -/
structure Frame where
  fn : Nat
  block : Nat
  pc : Nat
  args : List Val
  env : Nat → Val

/-- A state of an execution. -/
structure Config (σ : Type) where
  stack : List Frame
  mem : σ
  trace : List Event
  status : Status

/-- The result of an equality comparison: the one-bit integer 1 or 0. -/
def cmpEq (a b : Val) : Val :=
  if a = b then .int 1 else .int 0

/-- The value of an operand in an activation. -/
def eval {σ : Type} (H : Host σ) (fr : Frame) : Value → Val
  | .arg _ i => fr.args.getD i .undefined
  | .inst _ id => fr.env id
  | .global _ name => .addrOf name
  | .nullPtr _ => .null
  | .constInt _ v => .int v
  | .cast v _ => eval H fr v
  | .icmpEq a b => cmpEq (eval H fr a) (eval H fr b)
  | .const ty tag => H.constVal ty tag

/-- The value a return instruction hands to the caller. -/
def retValue {σ : Type} (H : Host σ) (fr : Frame) : Option Value → Val
  | some x => eval H fr x
  | none => .undefined

/-- Position of the first element of a list that satisfies a test. -/
def findIndex {α : Type} (p : α → Bool) : List α → Option Nat
  | [] => none
  | a :: l => if p a then some 0 else (findIndex p l).map (· + 1)

/-- The instruction at a position of a module. -/
def Module.instrAt (M : Module) (fn block pc : Nat) : Option Instr :=
  match M.blockAt fn block with
  | none => none
  | some B => B.instrs.get? pc

/-- The position of the block with a given label in a function of the module. -/
def Module.blockIndex (M : Module) (fn : Nat) (label : String) : Option Nat :=
  match M.functions.get? fn with
  | none => none
  | some F => findIndex (fun B => B.name == label) F.blocks

/-- The position of the function a call of `callee` enters: the function of that
name, when it has a body.  A call of a declaration, or of a name that is no
function, is a call of an external function. -/
def Module.definedFunction (M : Module) (callee : String) : Option Nat :=
  match findIndex (fun F => F.name == callee) M.functions with
  | none => none
  | some g =>
    match M.functions.get? g with
    | none => none
    | some F => if F.blocks.isEmpty then none else some g

/-- The string constant a value points to: the initializer of the global
variable it is the address of. -/
def Module.textAt (M : Module) (v : Val) : Option String :=
  match v with
  | .addrOf name =>
    match M.globals.find? (fun G => G.name == name) with
    | some G =>
      match G.initializer with
      | some (.cstring s) => some s
      | _ => none
    | none => none
  | _ => none

/-- An activation after the current instruction has produced a value. -/
def Frame.setResult (fr : Frame) (id : Nat) (v : Val) : Frame :=
  { fr with env := fun i => if i = id then v else fr.env i, pc := fr.pc + 1 }

/-- The activation in which a function is entered: at the first instruction of
its first block, no result computed yet. -/
def Frame.entry (fn : Nat) (args : List Val) : Frame :=
  ⟨fn, 0, 0, args, fun _ => .undefined⟩

/-- Transfer of control to the block with a given label of the current function. -/
def jump {σ : Type} (M : Module) (c : Config σ) (fr : Frame) (rest : List Frame)
    (label : String) : Config σ :=
  match M.blockIndex fr.fn label with
  | some b => { c with stack := { fr with block := b, pc := 0 } :: rest }
  | none => { c with status := .stuck }

/-- One step of the execution of a module. -/
def step {σ : Type} (H : Host σ) (M : Module) (c : Config σ) : Config σ :=
  match c.status with
  | .running =>
    match c.stack with
    | [] => { c with status := .stuck }
    | fr :: rest =>
      match M.instrAt fr.fn fr.block fr.pc with
      | none => { c with status := .stuck }
      | some I =>
        match I.kind with
        | .load addr =>
          if eval H fr addr = .null then { c with status := .trapped }
          else
            { c with
              stack := fr.setResult I.id (H.loadMem c.mem (eval H fr addr) I.ty) :: rest,
              trace := c.trace ++
                [.load I.id (eval H fr addr) (H.loadMem c.mem (eval H fr addr) I.ty)] }
        | .icmpEq l r =>
          { c with stack := fr.setResult I.id (cmpEq (eval H fr l) (eval H fr r)) :: rest }
        | .call callee args =>
          match M.definedFunction callee with
          | some g =>
            { c with stack := Frame.entry g (args.map (eval H fr)) :: fr :: rest }
          | none =>
            match H.external callee (args.map (eval H fr)) c.mem with
            | none =>
              { c with
                trace := c.trace ++ [.external callee (args.map (eval H fr))],
                status := .stopped }
            | some (v, mem') =>
              { c with
                stack := fr.setResult I.id v :: rest,
                mem := mem',
                trace := c.trace ++ [.external callee (args.map (eval H fr))] }
        | .condBr cond t f => jump M c fr rest (if eval H fr cond = .int 1 then t else f)
        | .br d => jump M c fr rest d
        | .ret val =>
          match rest with
          | [] => { c with stack := [], status := .returned }
          | caller :: rest' =>
            match M.instrAt caller.fn caller.block caller.pc with
            | none => { c with status := .stuck }
            | some J =>
              { c with stack := caller.setResult J.id (retValue H fr val) :: rest' }
        | .other op ops term =>
          if term then
            match H.branch op (ops.map (eval H fr)) c.mem with
            | some label => jump M c fr rest label
            | none => { c with status := .stopped }
          else
            { c with
              stack := fr.setResult I.id (H.exec op (ops.map (eval H fr)) c.mem).1 :: rest,
              mem := (H.exec op (ops.map (eval H fr)) c.mem).2 }
  | _ => c

/-- A number of steps of the execution of a module. -/
def exec {σ : Type} (H : Host σ) (M : Module) : Nat → Config σ → Config σ
  | 0, c => c
  | n + 1, c => exec H M n (step H M c)

/-- The state in which a function of the module is entered with given
arguments and memory. -/
def enter {σ : Type} (fn : Nat) (args : List Val) (mem : σ) : Config σ :=
  ⟨[Frame.entry fn args], mem, [], .running⟩

/-- The guard in front of the load `L`, which starts at position `p` of block
`j` of function `i`, stops every execution that reaches it with a null address:
given that `exit` does not return (and `printf` does), the program calls
`printf` on the diagnostic variable `g`, calls `exit` with 1, and is stopped
from then on, its trace extended by these two calls only. -/
def GuardStops (M : Module) (i j p : Nat) (addr : Value) (g : String) : Prop :=
  ∀ {σ : Type} (H : Host σ) (fr : Frame) (rest : List Frame) (mem : σ) (trace : List Event),
    fr.fn = i → fr.block = j → fr.pc = p → eval H fr addr = .null →
    (∀ args mem, H.external "exit" args mem = none) →
    (∀ args mem, H.external "printf" args mem ≠ none) →
    ∃ n c', (∀ m, n ≤ m → exec H M m ⟨fr :: rest, mem, trace, .running⟩ = c') ∧
      c'.status = .stopped ∧
      c'.trace = trace ++ [.external "printf" [.addrOf g], .external "exit" [.int 1]]

/-- A host over a memory without content: every load reads 42, an instruction
of another kind produces 0, `exit` does not return and every other external
function returns 0. -/
def sampleHost : Host Unit :=
  { loadMem := fun _ _ _ => .int 42
    exec := fun _ _ _ => (.int 0, ())
    branch := fun _ _ _ => none
    external := fun name _ _ => if name == "exit" then none else some (.int 0, ())
    constVal := fun _ _ => .int 0 }

end LoadChecker

namespace LoadChecker

/-! ## Relating an execution of a module to one of its instrumented form -/

/-- Whether an operand reads instruction results below an identity only. -/
def Value.idsBelow (n : Nat) : Value → Bool
  | .inst _ id => decide (id < n)
  | .cast v _ => v.idsBelow n
  | .icmpEq l r => l.idsBelow n && r.idsBelow n
  | _ => true

/-- The operands of an instruction. -/
def Instr.operands (I : Instr) : List Value :=
  match I.kind with
  | .load addr => [addr]
  | .icmpEq l r => [l, r]
  | .call _ args => args
  | .condBr cond _ _ => [cond]
  | .br _ => []
  | .ret (some v) => [v]
  | .ret none => []
  | .other _ ops _ => ops

/-- The name a call instruction calls, if it is one. -/
def Instr.callee (I : Instr) : Option String :=
  match I.kind with
  | .call callee _ => some callee
  | _ => none

/-- Number of instructions the pass puts in front of an instruction. -/
def guardLen (I : Instr) : Nat :=
  match I.kind with
  | .load addr => if addr.isConstant then 1 else 2
  | _ => 0

/-- Position, in an instrumented block, of what stands for position `k` of the
original block: the instruction itself, or the start of its guard. -/
def posIn (is : List Instr) (k : Nat) : Nat :=
  k + ((is.take k).map guardLen).sum

/-- An activation of the original module and the activation of the instrumented
module that stands for it: same function, block and arguments, the position
moved by the guards inserted before it, and the same values of all instruction
results of the original module. -/
def FrameSim (M : Module) (fr fr' : Frame) : Prop :=
  fr'.fn = fr.fn ∧ fr'.block = fr.block ∧ fr'.args = fr.args ∧
    (∀ id, id < M.nextId → fr'.env id = fr.env id) ∧
    fr.fn < M.functions.length ∧
    ∀ B, M.blockAt fr.fn fr.block = some B → fr'.pc = posIn B.instrs fr.pc

/-- An activation waiting for a call to return stands at a call instruction. -/
def AtCall (M : Module) (fr : Frame) : Prop :=
  ∃ J callee args, M.instrAt fr.fn fr.block fr.pc = some J ∧ J.kind = .call callee args

/-- Call stacks that stand for each other. -/
def StackSim (M : Module) : List Frame → List Frame → Prop
  | [], [] => True
  | fr :: rest, fr' :: rest' =>
    FrameSim M fr fr' ∧ List.Forall₂ (fun a a' => FrameSim M a a' ∧ AtCall M a) rest rest'
  | _, _ => False

/-- A state of the original module and the state of the instrumented module
that stands for it: same status, memory and trace, and call stacks that stand
for each other. -/
def Sim {σ : Type} (M : Module) (c c' : Config σ) : Prop :=
  c'.status = c.status ∧ c'.mem = c.mem ∧ c'.trace = c.trace ∧ StackSim M c.stack c'.stack

end LoadChecker

namespace LoadChecker

/-! ## Running the pass on its own output -/

/-- The instructions one run of the pass puts in front of the load `L` of
address `addr`, with identities from `lo` up to (not including) `hi`: a call of
the guard function of the load's location, on a comparison instruction that
stands right before it, or, when the address is a constant, on the folded
comparison. -/
def GuardSeq (L : Instr) (addr : Value) (lo hi : Nat) (pre : List Instr) : Prop :=
  ∃ pty g, addr.type.asPointer = some pty ∧ lo ≤ g ∧ g < hi ∧
    ((addr.isConstant = true ∧ pre = [guardCall L g (.icmpEq addr (.nullPtr pty))]) ∨
     (addr.isConstant = false ∧ ∃ c, lo ≤ c ∧ c < hi ∧ c ≠ g ∧
        pre = [⟨c, .int 1, .icmpEq addr (.nullPtr pty), L.dbg⟩,
               guardCall L g (.inst (.int 1) c)]))

/-- Every load of the module has a function of its guard's name in the
module. -/
def Module.AllGuarded (M : Module) : Prop :=
  ∀ F ∈ M.functions, ∀ B ∈ F.blocks, ∀ I ∈ B.instrs, I.isLoad = true →
    funcName I.dbg ∈ M.functions.map (fun F => F.name)

/-- Two functions with the same name, type and attributes (the bodies may
differ). -/
def SameDecl (F F' : Function) : Prop :=
  F'.name = F.name ∧ F'.type = F.type ∧ F'.fnAttrs = F.fnAttrs ∧ F'.paramAttrs = F.paramAttrs

end LoadChecker

namespace LoadChecker

/-! ## Well-formed blocks -/

/-- Whether an instruction is a terminator: a branch, a return, or an
instruction of another kind that is marked as one. -/
def Instr.isTerminator (I : Instr) : Bool :=
  match I.kind with
  | .condBr _ _ _ => true
  | .br _ => true
  | .ret _ => true
  | .other _ _ terminator => terminator
  | _ => false

/-- An instruction sequence is that of a well-formed block when its last
instruction is a terminator and no instruction before the last is one. -/
def wellFormedInstrs : List Instr → Bool
  | [] => false
  | [I] => I.isTerminator
  | I :: J :: rest => !I.isTerminator && wellFormedInstrs (J :: rest)

/-- Every block of every function of the module is well formed. -/
def Module.BlocksWellFormed (M : Module) : Prop :=
  ∀ F ∈ M.functions, ∀ B ∈ F.blocks, wellFormedInstrs B.instrs = true

end LoadChecker

namespace LoadChecker

/-! ## The declarations of `printf` and `exit` -/

/-- The attributes of the declarations the pass creates, in a module state
reached from `M0`: when `M0` has no function `printf`, a function `printf` is
marked as not throwing and its first parameter as not captured and read-only,
and nothing else; when `M0` has no function `exit`, a function `exit` has no
attribute at all. -/
def DeclAttrs (M0 M : Module) : Prop :=
  (∀ F ∈ M.functions, F.name = "printf" → "printf" ∉ M0.functions.map (fun F => F.name) →
    F.fnAttrs = [.noUnwind] ∧ F.paramAttrs = [(0, .noCapture), (0, .readOnly)]) ∧
  (∀ F ∈ M.functions, F.name = "exit" → "exit" ∉ M0.functions.map (fun F => F.name) →
    F.fnAttrs = [] ∧ F.paramAttrs = [])

end LoadChecker

namespace LoadChecker

/-! ## Modules without guard names -/

/-- Whether the characters of `p` are the first characters of `s`. -/
def startsWith (p s : String) : Bool := p.data.isPrefixOf s.data

/-- No function of the module is named `nullChecker` or has a name that starts
with `nullChecker_`. -/
def Module.NoGuardNames (M : Module) : Prop :=
  ∀ F ∈ M.functions, F.name ≠ "nullChecker" ∧ startsWith "nullChecker_" F.name = false

end LoadChecker

namespace LoadChecker

/-! ## Counting loads and calls, and the fuel the traversal needs -/

/-- Number of load instructions of a block. -/
def BasicBlock.loadCount (B : BasicBlock) : Nat := B.instrs.countP Instr.isLoad

/-- Number of load instructions of a function. -/
def Function.loadCount (F : Function) : Nat := (F.blocks.map BasicBlock.loadCount).sum

/-- Number of load instructions of a list of functions. -/
def loadCount (fs : List Function) : Nat := (fs.map Function.loadCount).sum

/-- Number of call instructions of a function. -/
def Function.callCount (F : Function) : Nat :=
  (F.blocks.map (fun B => B.instrs.countP Instr.isCall)).sum

/-- Number of call instructions of a list of functions. -/
def callCount (fs : List Function) : Nat := (fs.map Function.callCount).sum

/-- A number of loop tests that is enough for the traversal of a module: one
per function of the module, three per load (its guard function and the two
declarations, at most), and the final test. -/
def Module.fuelBound (M : Module) : Nat := M.functions.length + 3 * loadCount M.functions + 1

end LoadChecker

namespace LoadChecker

/-! ## Decimal numerals and the names built from them -/

theorem digitChar_ne_underscore {d : Nat} (h : d < 10) : Nat.digitChar d ≠ '_' := by
  interval_cases d <;> decide

theorem digitChar_val {d : Nat} (h : d < 10) : (Nat.digitChar d).toNat - 48 = d := by
  interval_cases d <;> rfl

/-- Value of a decimal digit string. -/
theorem toDigitsCore_spec :
    ∀ (fuel n : Nat) (ds : List Char), n < fuel →
      ∃ pre, Nat.toDigitsCore 10 fuel n ds = pre ++ ds ∧ (∀ c ∈ pre, c ≠ '_') ∧
        pre.foldl (fun a c => 10 * a + (c.toNat - 48)) 0 = n
  | 0, n, ds, h => by omega
  | fuel + 1, n, ds, h => by
    unfold Nat.toDigitsCore
    simp only []
    have hmod : n % 10 < 10 := Nat.mod_lt _ (by decide)
    by_cases h0 : n / 10 = 0
    · simp only [h0, if_true]
      refine ⟨[Nat.digitChar (n % 10)], rfl, ?_, ?_⟩
      · intro c hc
        simp only [List.mem_singleton] at hc
        rw [hc]; exact digitChar_ne_underscore hmod
      · simp only [List.foldl, digitChar_val hmod]
        omega
    · simp only [h0, if_false]
      have hlt : n / 10 < fuel := by omega
      obtain ⟨pre, hpre, hne, hval⟩ := toDigitsCore_spec fuel (n / 10) (Nat.digitChar (n % 10) :: ds) hlt
      refine ⟨pre ++ [Nat.digitChar (n % 10)], by rw [hpre]; simp, ?_, ?_⟩
      · intro c hc
        rcases List.mem_append.1 hc with hc | hc
        · exact hne c hc
        · simp only [List.mem_singleton] at hc
          rw [hc]; exact digitChar_ne_underscore hmod
      · rw [List.foldl_append, hval]
        simp only [List.foldl, digitChar_val hmod]
        omega

theorem toDigits_no_underscore (n : Nat) : ∀ c ∈ Nat.toDigits 10 n, c ≠ '_' := by
  obtain ⟨pre, hpre, hne, _⟩ := toDigitsCore_spec (n + 1) n [] (Nat.lt_succ_self n)
  unfold Nat.toDigits
  rw [hpre, List.append_nil]
  exact hne

theorem toDigits_injective {n m : Nat} (h : Nat.toDigits 10 n = Nat.toDigits 10 m) : n = m := by
  obtain ⟨pre, hpre, _, hval⟩ := toDigitsCore_spec (n + 1) n [] (Nat.lt_succ_self n)
  obtain ⟨pre', hpre', _, hval'⟩ := toDigitsCore_spec (m + 1) m [] (Nat.lt_succ_self m)
  unfold Nat.toDigits at h
  rw [hpre, hpre', List.append_nil, List.append_nil] at h
  rw [← hval, ← hval', h]

theorem toString_nat_data (n : Nat) : (toString n).data = Nat.toDigits 10 n := rfl

theorem split_at_underscore :
    ∀ {a a' b b' : List Char}, (∀ c ∈ a, c ≠ '_') → (∀ c ∈ a', c ≠ '_') →
      a ++ '_' :: b = a' ++ '_' :: b' → a = a' ∧ b = b'
  | [], [], b, b', _, _, h => by simpa using h
  | [], c :: a', b, b', _, h2, h => by
    simp only [List.nil_append, List.cons_append, List.cons.injEq] at h
    exact absurd h.1.symm (h2 c (List.mem_cons_self _ _))
  | c :: a, [], b, b', h1, _, h => by
    simp only [List.nil_append, List.cons_append, List.cons.injEq] at h
    exact absurd h.1 (h1 c (List.mem_cons_self _ _))
  | c :: a, c' :: a', b, b', h1, h2, h => by
    simp only [List.cons_append, List.cons.injEq] at h
    obtain ⟨e1, e2⟩ := split_at_underscore (fun x hx => h1 x (List.mem_cons_of_mem _ hx))
      (fun x hx => h2 x (List.mem_cons_of_mem _ hx)) h.2
    exact ⟨by rw [h.1, e1], e2⟩

/-- The suffix naming a location: empty without one, `_<line>_<col>` with one. -/
theorem locSuffix_injective {l c l' c' : Nat}
    (h : '_' :: (Nat.toDigits 10 l ++ '_' :: Nat.toDigits 10 c)
        = '_' :: (Nat.toDigits 10 l' ++ '_' :: Nat.toDigits 10 c')) : l = l' ∧ c = c' := by
  simp only [List.cons.injEq, true_and] at h
  obtain ⟨e1, e2⟩ := split_at_underscore (toDigits_no_underscore l) (toDigits_no_underscore l') h
  exact ⟨toDigits_injective e1, toDigits_injective e2⟩

theorem funcName_data (k : Option DebugLoc) :
    (funcName k).data = "nullChecker".data ++
      (match k with
       | none => []
       | some d => '_' :: (Nat.toDigits 10 d.line ++ '_' :: Nat.toDigits 10 d.col)) := by
  cases k with
  | none => simp [funcName]
  | some d =>
    simp only [funcName, String.data_append, toString_nat_data]
    simp [List.append_assoc]

theorem gblVarName_data (k : Option DebugLoc) :
    (gblVarName k).data = "ErrorMsg".data ++
      (match k with
       | none => []
       | some d => '_' :: (Nat.toDigits 10 d.line ++ '_' :: Nat.toDigits 10 d.col)) := by
  cases k with
  | none => simp [gblVarName]
  | some d =>
    simp only [gblVarName, String.data_append, toString_nat_data]
    simp [List.append_assoc]

theorem suffix_injective {k k' : Option DebugLoc}
    (h : (match k with
       | none => []
       | some d => '_' :: (Nat.toDigits 10 d.line ++ '_' :: Nat.toDigits 10 d.col))
      = (match k' with
       | none => ([] : List Char)
       | some d => '_' :: (Nat.toDigits 10 d.line ++ '_' :: Nat.toDigits 10 d.col))) : k = k' := by
  cases k with
  | none =>
    cases k' with
    | none => rfl
    | some d' => simp at h
  | some d =>
    cases k' with
    | none => simp at h
    | some d' =>
      obtain ⟨e1, e2⟩ := locSuffix_injective h
      cases d; cases d'
      simp only [] at e1 e2
      rw [e1, e2]

theorem funcName_injective {k k' : Option DebugLoc} (h : funcName k = funcName k') : k = k' := by
  have h' := congrArg String.data h
  rw [funcName_data, funcName_data] at h'
  exact suffix_injective (List.append_cancel_left h')

theorem gblVarName_injective {k k' : Option DebugLoc} (h : gblVarName k = gblVarName k') :
    k = k' := by
  have h' := congrArg String.data h
  rw [gblVarName_data, gblVarName_data] at h'
  exact suffix_injective (List.append_cancel_left h')

theorem funcName_ne_printf (k : Option DebugLoc) : funcName k ≠ "printf" := by
  intro h
  have h' := congrArg String.data h
  rw [funcName_data] at h'
  simp at h'

theorem funcName_ne_exit (k : Option DebugLoc) : funcName k ≠ "exit" := by
  intro h
  have h' := congrArg String.data h
  rw [funcName_data] at h'
  simp at h'

theorem digitChar_ne_dot {d : Nat} (h : d < 10) : Nat.digitChar d ≠ '.' := by
  interval_cases d <;> decide

theorem toDigitsCore_no_dot :
    ∀ (fuel n : Nat) (ds : List Char), (∀ c ∈ ds, c ≠ '.') →
      ∀ c ∈ Nat.toDigitsCore 10 fuel n ds, c ≠ '.'
  | 0, n, ds, h => by simpa [Nat.toDigitsCore] using h
  | fuel + 1, n, ds, h => by
    unfold Nat.toDigitsCore
    simp only []
    have hmod : n % 10 < 10 := Nat.mod_lt _ (by decide)
    have hds : ∀ c ∈ Nat.digitChar (n % 10) :: ds, c ≠ '.' := by
      intro c hc
      rcases List.mem_cons.1 hc with rfl | hc
      · exact digitChar_ne_dot hmod
      · exact h c hc
    split
    · exact hds
    · exact toDigitsCore_no_dot fuel (n / 10) _ hds

theorem toDigits_no_dot (n : Nat) : ∀ c ∈ Nat.toDigits 10 n, c ≠ '.' :=
  toDigitsCore_no_dot _ _ [] (fun c hc => by cases hc)

theorem gblVarName_no_dot (k : Option DebugLoc) : ∀ c ∈ (gblVarName k).data, c ≠ '.' := by
  rw [gblVarName_data]
  intro c hc
  rcases List.mem_append.1 hc with hc | hc
  · have hall : ∀ x ∈ "ErrorMsg".data, x ≠ '.' := by decide
    exact hall c hc
  · cases k with
    | none => cases hc
    | some d =>
      simp only [List.mem_cons, List.mem_append] at hc
      rcases hc with rfl | hc | rfl | hc
      · decide
      · exact toDigits_no_dot _ c hc
      · decide
      · exact toDigits_no_dot _ c hc

theorem gblVarName_ne_funcName (k k' : Option DebugLoc) : gblVarName k ≠ funcName k' := by
  intro h
  have h' := congrArg String.data h
  rw [gblVarName_data, funcName_data] at h'
  simp at h'

theorem gblVarName_ne_printf (k : Option DebugLoc) : gblVarName k ≠ "printf" := by
  intro h
  have h' := congrArg String.data h
  rw [gblVarName_data] at h'
  simp at h'

theorem gblVarName_ne_exit (k : Option DebugLoc) : gblVarName k ≠ "exit" := by
  intro h
  have h' := congrArg String.data h
  rw [gblVarName_data] at h'
  simp at h'

/-- Two lists without dot that agree after appending nothing or a dot and more
are equal. -/
theorem split_at_dot :
    ∀ {a a' r r' : List Char}, (∀ c ∈ a, c ≠ '.') → (∀ c ∈ a', c ≠ '.') →
      (r = [] ∨ ∃ x, r = '.' :: x) → (r' = [] ∨ ∃ x, r' = '.' :: x) →
      a ++ r = a' ++ r' → a = a'
  | [], [], _, _, _, _, _, _, _ => rfl
  | [], c :: a', r, r', _, h2, hr, _, h => by
    exfalso
    rcases hr with rfl | ⟨x, rfl⟩
    · simp at h
    · simp only [List.nil_append, List.cons_append, List.cons.injEq] at h
      exact h2 c (List.mem_cons_self _ _) h.1.symm
  | c :: a, [], r, r', h1, _, _, hr', h => by
    exfalso
    rcases hr' with rfl | ⟨x, rfl⟩
    · simp at h
    · simp only [List.nil_append, List.cons_append, List.cons.injEq] at h
      exact h1 c (List.mem_cons_self _ _) h.1
  | c :: a, c' :: a', r, r', h1, h2, hr, hr', h => by
    simp only [List.cons_append, List.cons.injEq] at h
    rw [h.1, split_at_dot (fun x hx => h1 x (List.mem_cons_of_mem _ hx))
      (fun x hx => h2 x (List.mem_cons_of_mem _ hx)) hr hr' h.2]

/-- The names of the diagnostic variables of two different keys differ, made
unique or not. -/
theorem diagName_ne {k k' : Option DebugLoc} (hk : k ≠ k') {g g' : String}
    (hg : g = gblVarName k ∨ ∃ u : Nat, g = gblVarName k ++ "." ++ toString u)
    (hg' : g' = gblVarName k' ∨ ∃ u : Nat, g' = gblVarName k' ++ "." ++ toString u) :
    g ≠ g' := by
  intro e
  apply hk
  apply gblVarName_injective
  apply String.ext
  have hr : ∃ r, g.data = (gblVarName k).data ++ r ∧ (r = [] ∨ ∃ x, r = '.' :: x) := by
    rcases hg with rfl | ⟨u, rfl⟩
    · exact ⟨[], by simp, Or.inl rfl⟩
    · exact ⟨'.' :: (toString u).data, by simp [String.data_append], Or.inr ⟨_, rfl⟩⟩
  have hr' : ∃ r, g'.data = (gblVarName k').data ++ r ∧ (r = [] ∨ ∃ x, r = '.' :: x) := by
    rcases hg' with rfl | ⟨u, rfl⟩
    · exact ⟨[], by simp, Or.inl rfl⟩
    · exact ⟨'.' :: (toString u).data, by simp [String.data_append], Or.inr ⟨_, rfl⟩⟩
  obtain ⟨r, e1, h1⟩ := hr
  obtain ⟨r', e2, h2⟩ := hr'
  rw [e] at e1
  exact split_at_dot (gblVarName_no_dot k) (gblVarName_no_dot k') h1 h2 (e1.symm.trans e2)

end LoadChecker

namespace LoadChecker

/-! ## Lemmas on the host operations -/

theorem getNamedValue_function {M : Module} {name : String} {F : Function}
    (h : M.getNamedValue name = some (.function F)) :
    M.functions.find? (fun F => F.name == name) = some F := by
  unfold Module.getNamedValue at h
  split at h
  · simp_all
  · split at h <;> simp at h

theorem getFunction_eq_find (M : Module) (name : String) :
    M.getFunction name = M.functions.find? (fun F => F.name == name) := by
  unfold Module.getFunction Module.getNamedValue
  cases hf : M.functions.find? (fun F => F.name == name) with
  | some F => simp
  | none =>
    cases hg : M.globals.find? (fun G => G.name == name) <;> simp

theorem getFunction_isSome_iff (M : Module) (name : String) :
    (M.getFunction name).isSome = true ↔ ∃ F ∈ M.functions, F.name = name := by
  rw [getFunction_eq_find]
  simp [List.find?_isSome]

theorem getFunction_isNone_iff (M : Module) (name : String) :
    (M.getFunction name).isSome = false ↔ ∀ F ∈ M.functions, F.name ≠ name := by
  rw [getFunction_eq_find]
  simp

theorem getNamedValue_none_iff (M : Module) (name : String) :
    M.getNamedValue name = none ↔
      (∀ F ∈ M.functions, F.name ≠ name) ∧ (∀ G ∈ M.globals, G.name ≠ name) := by
  unfold Module.getNamedValue
  cases hf : M.functions.find? (fun F => F.name == name) with
  | some F =>
    have h1 := List.find?_some hf
    have hm := List.mem_of_find?_eq_some hf
    simp only [beq_iff_eq] at h1
    constructor
    · intro h; cases h
    · rintro ⟨h, _⟩; exact absurd h1 (h F hm)
  | none =>
    cases hg : M.globals.find? (fun G => G.name == name) with
    | some G =>
      have h1 := List.find?_some hg
      have hm := List.mem_of_find?_eq_some hg
      simp only [beq_iff_eq] at h1
      constructor
      · intro h; cases h
      · rintro ⟨_, h⟩; exact absurd h1 (h G hm)
    | none =>
      simp at hf hg
      simp
      exact ⟨hf, hg⟩


theorem getOrInsertFunction_none {M : Module} {name : String} (ty : FunctionType)
    (hnone : M.getNamedValue name = none) :
    M.getOrInsertFunction name ty
      = { M with functions := M.functions ++ [⟨name, ty, [], [], []⟩] } := by
  simp [Module.getOrInsertFunction, hnone]

theorem getOrInsertFunction_some {M : Module} {name : String} (ty : FunctionType)
    (h : M.getNamedValue name ≠ none) : M.getOrInsertFunction name ty = M := by
  unfold Module.getOrInsertFunction
  split
  · rfl
  · contradiction

theorem calleeAsFunction_insert {M : Module} {name : String} (ty : FunctionType)
    (hnone : M.getNamedValue name = none) :
    (M.getOrInsertFunction name ty).calleeAsFunction name ty = some ⟨name, ty, [], [], []⟩ := by
  have hf := ((getNamedValue_none_iff M _).1 hnone).1
  have : List.find? (fun F => F.name == name) M.functions = none := by
    simp; exact hf
  rw [getOrInsertFunction_none ty hnone]
  simp [Module.calleeAsFunction, Module.getNamedValue, List.find?_append, this]

theorem getOrInsertFunction_nextId (M : Module) (name : String) (ty : FunctionType) :
    (M.getOrInsertFunction name ty).nextId = M.nextId := by
  unfold Module.getOrInsertFunction
  split <;> rfl

theorem getOrInsertGlobal_nextId {M Mr : Module} {name g : String} {ty : Ty}
    (h : M.getOrInsertGlobal name ty = .ok (Mr, g)) : Mr.nextId = M.nextId := by
  unfold Module.getOrInsertGlobal at h
  split at h
  · injection h with h; injection h with h; rw [← h]
  · split at h
    · injection h with h; injection h with h; rw [h]
    · cases h
  · injection h with h; injection h with h; rw [← h]

/-! ### Attaching the guard's blocks commutes with the other steps -/

theorem find_map_name (f : Function → Function) (hf : ∀ F, (f F).name = F.name)
    (name : String) :
    ∀ l : List Function, (l.map f).find? (fun F => F.name == name)
      = (l.find? (fun F => F.name == name)).map f
  | [] => rfl
  | F :: l => by
    simp only [List.map_cons, List.find?_cons, hf]
    cases F.name == name
    · exact find_map_name f hf name l
    · rfl

theorem attach_find (M : Module) (k : Option DebugLoc) (g name : String) :
    (attachGuardBlocks M k g).functions.find? (fun F => F.name == name)
      = (M.functions.find? (fun F => F.name == name)).map
          (fun F => if F.name = funcName k then
            { F with blocks := F.blocks ++ guardBlocks M.nextId k g } else F) := by
  simp only [attachGuardBlocks, Module.updateFunction]
  apply find_map_name
  intro F
  split <;> rfl

theorem attach_getNamedValue_none (M : Module) (k : Option DebugLoc) (g name : String) :
    (attachGuardBlocks M k g).getNamedValue name = none ↔ M.getNamedValue name = none := by
  rw [getNamedValue_none_iff, getNamedValue_none_iff]
  constructor
  · rintro ⟨h1, h2⟩
    refine ⟨?_, h2⟩
    intro F hF hn
    refine h1 (if F.name = funcName k then
      { F with blocks := F.blocks ++ guardBlocks M.nextId k g } else F) ?_ ?_
    · simp only [attachGuardBlocks, Module.updateFunction, List.mem_map]
      exact ⟨F, hF, rfl⟩
    · split <;> exact hn
  · rintro ⟨h1, h2⟩
    refine ⟨?_, h2⟩
    intro F' hF' hn
    simp only [attachGuardBlocks, Module.updateFunction, List.mem_map] at hF'
    obtain ⟨F, hF, rfl⟩ := hF'
    refine h1 F hF ?_
    split at hn <;> exact hn

theorem attach_getNamedValue_isSome (M : Module) (k : Option DebugLoc) (g name : String) :
    ((attachGuardBlocks M k g).getNamedValue name).isSome = (M.getNamedValue name).isSome := by
  cases h1 : M.getNamedValue name with
  | none => rw [(attach_getNamedValue_none M k g name).2 h1]
  | some v =>
    cases h2 : (attachGuardBlocks M k g).getNamedValue name with
    | none => rw [(attach_getNamedValue_none M k g name).1 h2] at h1; cases h1
    | some w => rfl

theorem attach_getNamedValue_function {M : Module} {name : String} {F : Function}
    (k : Option DebugLoc) (g : String) (h : M.getNamedValue name = some (.function F)) :
    (attachGuardBlocks M k g).getNamedValue name
      = some (.function (if F.name = funcName k then
          { F with blocks := F.blocks ++ guardBlocks M.nextId k g } else F)) := by
  have hf := getNamedValue_function h
  unfold Module.getNamedValue
  rw [attach_find, hf]
  rfl

theorem attach_getNamedValue_global {M : Module} {name : String} {G : GlobalVariable}
    (k : Option DebugLoc) (g : String) (h : M.getNamedValue name = some (.globalVariable G)) :
    (attachGuardBlocks M k g).getNamedValue name = some (.globalVariable G) := by
  unfold Module.getNamedValue at h ⊢
  rw [attach_find]
  cases hf : M.functions.find? (fun F => F.name == name) with
  | some F => simp [hf] at h
  | none =>
    simp only [hf] at h
    simp only [Option.map_none']
    exact h

theorem attach_getOrInsertFunction (M : Module) (k : Option DebugLoc) (g : String)
    {name : String} (ty : FunctionType) (hne : name ≠ funcName k) :
    attachGuardBlocks (M.getOrInsertFunction name ty) k g
      = (attachGuardBlocks M k g).getOrInsertFunction name ty := by
  cases hv : M.getNamedValue name with
  | none =>
    rw [getOrInsertFunction_none ty hv,
      getOrInsertFunction_none ty ((attach_getNamedValue_none M k g name).2 hv)]
    simp [attachGuardBlocks, Module.updateFunction, hne]
  | some v =>
    have h1 : M.getNamedValue name ≠ none := by rw [hv]; simp
    have h2 : (attachGuardBlocks M k g).getNamedValue name ≠ none :=
      fun e => h1 ((attach_getNamedValue_none M k g name).1 e)
    rw [getOrInsertFunction_some ty h1, getOrInsertFunction_some ty h2]

theorem attach_updatePrintf (M : Module) (k : Option DebugLoc) (g : String) :
    attachGuardBlocks (M.updateFunction "printf" printfAttrs) k g
      = (attachGuardBlocks M k g).updateFunction "printf" printfAttrs := by
  simp only [attachGuardBlocks, Module.updateFunction, List.map_map, Module.mk.injEq, and_true,
    true_and]
  apply List.map_congr_left
  intro F _
  simp only [Function.comp]
  have hp := funcName_ne_printf k
  have hp' : "printf" ≠ funcName k := fun e => hp e.symm
  by_cases h2 : F.name = funcName k
  · simp [h2, hp]
  · by_cases h1 : F.name = "printf"
    · simp [h1, hp', printfAttrs]
    · simp [h1, h2]

theorem attach_withPrintf (M : Module) (k : Option DebugLoc) (g : String) :
    attachGuardBlocks (withPrintf M) k g = withPrintf (attachGuardBlocks M k g) := by
  unfold withPrintf
  rw [attach_updatePrintf, attach_getOrInsertFunction M k g printfTy (Ne.symm (funcName_ne_printf k))]

theorem attach_calleeAsFunction_none (M : Module) (k : Option DebugLoc) (g name : String)
    (ty : FunctionType) :
    (attachGuardBlocks M k g).calleeAsFunction name ty = none ↔
      M.calleeAsFunction name ty = none := by
  unfold Module.calleeAsFunction
  cases hv : M.getNamedValue name with
  | none => rw [(attach_getNamedValue_none M k g name).2 hv]
  | some v =>
    cases v with
    | function F =>
      rw [attach_getNamedValue_function k g hv]
      by_cases hn : F.name = funcName k <;> by_cases ht : F.type = ty <;> simp [hn, ht]
    | globalVariable G => rw [attach_getNamedValue_global k g hv]

theorem uniqueNameFrom_congr {t1 t2 : String → Bool} (h : ∀ n, t1 n = t2 n) (base : String) :
    ∀ fuel c, uniqueNameFrom t1 base fuel c = uniqueNameFrom t2 base fuel c
  | 0, _ => rfl
  | fuel + 1, c => by
    simp only [uniqueNameFrom, h, uniqueNameFrom_congr h base fuel (c + 1)]

theorem attach_makeUniqueName (M : Module) (k : Option DebugLoc) (g base : String) :
    (attachGuardBlocks M k g).makeUniqueName base = M.makeUniqueName base := by
  unfold Module.makeUniqueName
  rw [uniqueNameFrom_congr (fun n => attach_getNamedValue_isSome M k g n)]
  simp [attachGuardBlocks, Module.updateFunction]

theorem attach_getOrInsertGlobal {M Mr : Module} {name r : String} {ty : Ty}
    (k : Option DebugLoc) (g : String) (h : M.getOrInsertGlobal name ty = .ok (Mr, r)) :
    (attachGuardBlocks M k g).getOrInsertGlobal name ty = .ok (attachGuardBlocks Mr k g, r) := by
  have hn := getOrInsertGlobal_nextId h
  unfold Module.getOrInsertGlobal at h ⊢
  cases hv : M.getNamedValue name with
  | none =>
    rw [(attach_getNamedValue_none M k g name).2 hv]
    simp only [hv] at h
    injection h with h
    injection h with h1 h2
    subst h1; subst h2
    rfl
  | some v =>
    cases v with
    | function F =>
      rw [attach_getNamedValue_function k g hv]
      simp only [hv] at h
      injection h with h
      injection h with h1 h2
      subst h1; subst h2
      simp only [attach_makeUniqueName]
      rfl
    | globalVariable G =>
      rw [attach_getNamedValue_global k g hv]
      simp only [hv] at h
      by_cases ht : G.valueType = ty
      · simp only [ht, if_true] at h ⊢
        injection h with h
        injection h with h1 h2
        subst h1; subst h2
        rfl
      · simp [ht] at h

theorem attachGuardBlocks_insert {M : Module} {k : Option DebugLoc} (cmp : Value) (g : String)
    (hnone : M.getNamedValue (funcName k) = none) :
    attachGuardBlocks (M.getOrInsertFunction (funcName k) (nullCheckerTy cmp)) k g
      = withGuard M cmp k g := by
  have hf := ((getNamedValue_none_iff M _).1 hnone).1
  have hmap : M.functions.map (fun F => if F.name = funcName k then
      ({ F with blocks := F.blocks ++ guardBlocks M.nextId k g } : Function) else F)
        = M.functions := by
    conv => rhs; rw [← List.map_id M.functions]
    apply List.map_congr_left
    intro F hF
    simp [hf F hF]
  rw [getOrInsertFunction_none _ hnone]
  simp [attachGuardBlocks, Module.updateFunction, withGuard, guardFn, hmap]

/-- The guard built in a module that has no value of the guard's name: the
module with the guard function, then `printf`, the diagnostic variable `g` with
its initializer, and `exit`. -/
theorem buildGuard_insert {M Mg : Module} {cmp : Value} {k : Option DebugLoc}
    (hnone : M.getNamedValue (funcName k) = none)
    (h : buildGuard (M.getOrInsertFunction (funcName k) (nullCheckerTy cmp)) cmp k = .ok Mg) :
    ∃ Mr g, (withPrintf (withGuard M cmp k g)).getOrInsertGlobal (gblVarName k) (errorMsgTy k)
        = .ok (Mr, g) ∧
      ((withGuard M cmp k g).getOrInsertFunction "printf" printfTy).calleeAsFunction
          "printf" printfTy ≠ none ∧
      Mg = (Mr.setInitializer g (.cstring (errorMsg k))).getOrInsertFunction "exit" exitTy := by
  unfold buildGuard at h
  rw [calleeAsFunction_insert _ hnone] at h
  simp only [] at h
  cases hcal : ((M.getOrInsertFunction (funcName k) (nullCheckerTy cmp)).getOrInsertFunction
      "printf" printfTy).calleeAsFunction "printf" printfTy with
  | none => simp [hcal] at h
  | some Fp =>
    simp only [hcal] at h
    cases hg : (((M.getOrInsertFunction (funcName k) (nullCheckerTy cmp)).getOrInsertFunction
        "printf" printfTy).updateFunction "printf" printfAttrs).getOrInsertGlobal
          (gblVarName k) (errorMsgTy k) with
    | error e => simp [hg] at h
    | ok r =>
      obtain ⟨Mr0, g⟩ := r
      simp only [hg] at h
      injection h with h
      subst h
      have hW := attachGuardBlocks_insert cmp g hnone
      refine ⟨attachGuardBlocks Mr0 k g, g, ?_, ?_, ?_⟩
      · rw [← hW, ← attach_withPrintf]
        exact attach_getOrInsertGlobal k g hg
      · rw [← hW, ← attach_getOrInsertFunction _ k g printfTy (Ne.symm (funcName_ne_printf k))]
        intro e
        rw [attach_calleeAsFunction_none] at e
        rw [e] at hcal
        cases hcal
      · rw [attach_getOrInsertFunction _ k g exitTy (Ne.symm (funcName_ne_exit k))]
        rfl

theorem instrumentLoad_cases {M M' : Module} {L : Instr} {addr : Value} {pre : List Instr}
    (h : instrumentLoad M L addr = .ok (M', pre)) :
    ∃ pty Mg, addr.type.asPointer = some pty ∧
      M' = { Mg with nextId := Mg.nextId + 1 } ∧
      pre = (cmpOf M L addr pty).2.1 ++ [guardCall L Mg.nextId (cmpOf M L addr pty).1] ∧
      (((∃ F ∈ M.functions, F.name = funcName L.dbg) ∧
          Mg = { M with nextId := (cmpOf M L addr pty).2.2 }) ∨
       (M.getNamedValue (funcName L.dbg) = none ∧
          ∃ Mr g, (withPrintf (withGuard { M with nextId := (cmpOf M L addr pty).2.2 }
                    (cmpOf M L addr pty).1 L.dbg g)).getOrInsertGlobal
                  (gblVarName L.dbg) (errorMsgTy L.dbg) = .ok (Mr, g) ∧
            ((withGuard { M with nextId := (cmpOf M L addr pty).2.2 }
                    (cmpOf M L addr pty).1 L.dbg g).getOrInsertFunction "printf"
                  printfTy).calleeAsFunction "printf" printfTy ≠ none ∧
            Mg = (Mr.setInitializer g (.cstring (errorMsg L.dbg))).getOrInsertFunction
              "exit" exitTy)) := by
  unfold instrumentLoad at h
  cases hp : addr.type.asPointer with
  | none => simp [hp] at h
  | some pty =>
    simp only [hp] at h
    generalize hc : createICmpEQ M.nextId L.dbg addr (.nullPtr pty) = c at h
    obtain ⟨cmp, cmpInstrs, n1⟩ := c
    simp only [] at h
    have hcm : cmpOf M L addr pty = (cmp, cmpInstrs, n1) := hc
    refine ⟨pty, ?_⟩
    rw [hcm]
    simp only []
    by_cases hex : (({ M with nextId := n1 } : Module).getFunction (funcName L.dbg)).isSome = true
    · simp only [hex, if_true] at h
      have hF := (getFunction_isSome_iff _ _).1 hex
      have hne : ({ M with nextId := n1 } : Module).getNamedValue (funcName L.dbg) ≠ none := by
        intro hn
        obtain ⟨F, hF, hFn⟩ := hF
        exact ((getNamedValue_none_iff _ _).1 hn).1 F hF hFn
      rw [getOrInsertFunction_some _ hne] at h
      injection h with h
      injection h with h1 h2
      exact ⟨{ M with nextId := n1 }, trivial, h1.symm, h2.symm, Or.inl ⟨hF, rfl⟩⟩
    · have hex' : (({ M with nextId := n1 } : Module).getFunction (funcName L.dbg)).isSome = false := by
        simpa using hex
      simp only [hex', Bool.false_eq_true, if_false] at h
      have hnone : ({ M with nextId := n1 } : Module).getNamedValue (funcName L.dbg) = none := by
        cases hv : ({ M with nextId := n1 } : Module).getNamedValue (funcName L.dbg) with
        | none => rfl
        | some v =>
          exfalso
          cases v with
          | function F =>
            have := getNamedValue_function hv
            rw [getFunction_eq_find, this] at hex'
            simp at hex'
          | globalVariable G =>
            have hne : ({ M with nextId := n1 } : Module).getNamedValue (funcName L.dbg) ≠ none := by
              rw [hv]; simp
            rw [getOrInsertFunction_some _ hne] at h
            simp [buildGuard, Module.calleeAsFunction, hv] at h
      have hnoneM : M.getNamedValue (funcName L.dbg) = none :=
        (getNamedValue_none_iff M _).2 ((getNamedValue_none_iff _ _).1 hnone)
      cases hb : buildGuard (({ M with nextId := n1 } : Module).getOrInsertFunction
          (funcName L.dbg) (nullCheckerTy cmp)) cmp L.dbg with
      | error e => simp [hb] at h
      | ok Mg =>
        simp only [hb] at h
        injection h with h
        injection h with h1 h2
        obtain ⟨Mr, g, e1, e2, e3⟩ := buildGuard_insert hnone hb
        exact ⟨Mg, trivial, h1.symm, h2.symm, Or.inr ⟨hnoneM, Mr, g, e1, e2, e3⟩⟩

/-! ### Names the symbol table makes unique -/

theorem uniqueName_injective {base : String} {i j : Nat}
    (h : base ++ "." ++ toString i = base ++ "." ++ toString j) : i = j := by
  have h' := congrArg String.data h
  simp only [String.data_append, toString_nat_data, List.append_assoc] at h'
  exact toDigits_injective (List.append_cancel_left (List.append_cancel_left h'))

theorem uniqueNameFrom_form (taken : String → Bool) (base : String) :
    ∀ fuel c, ∃ u, c < u ∧ uniqueNameFrom taken base fuel c = (base ++ "." ++ toString u, u)
  | 0, c => ⟨c + 1, Nat.lt_succ_self c, rfl⟩
  | fuel + 1, c => by
    unfold uniqueNameFrom
    split
    · obtain ⟨u, hu, e⟩ := uniqueNameFrom_form taken base fuel (c + 1)
      exact ⟨u, by omega, e⟩
    · exact ⟨c + 1, Nat.lt_succ_self c, rfl⟩

/-- The loop ends on a free name: there are more candidates than symbols. -/
theorem uniqueNameFrom_free (taken : String → Bool) (base : String) (names : List String)
    (htaken : ∀ n, taken n = true → n ∈ names) :
    ∀ (fuel c : Nat) (seen : List String), seen.Nodup → (∀ n ∈ seen, n ∈ names) →
      (∀ n ∈ seen, ∃ j, j ≤ c ∧ n = base ++ "." ++ toString j) →
      names.length ≤ seen.length + fuel →
      taken (uniqueNameFrom taken base fuel c).1 = false
  | 0, c, seen, hnd, hsub, hform, hlen => by
    simp only [uniqueNameFrom]
    cases ht : taken (base ++ "." ++ toString (c + 1)) with
    | false => rfl
    | true =>
      exfalso
      have hnot : base ++ "." ++ toString (c + 1) ∉ seen := by
        intro hm
        obtain ⟨j, hj, e⟩ := hform _ hm
        have := uniqueName_injective e
        omega
      have hnd' : ((base ++ "." ++ toString (c + 1)) :: seen).Nodup := List.nodup_cons.2 ⟨hnot, hnd⟩
      have hsub' : ((base ++ "." ++ toString (c + 1)) :: seen) ⊆ names := by
        intro n hn
        rcases List.mem_cons.1 hn with rfl | hn
        · exact htaken _ ht
        · exact hsub n hn
      have := (List.subperm_of_subset hnd' hsub').length_le
      simp only [List.length_cons] at this
      omega
  | fuel + 1, c, seen, hnd, hsub, hform, hlen => by
    unfold uniqueNameFrom
    rcases Bool.eq_false_or_eq_true (taken (base ++ "." ++ toString (c + 1))) with ht | ht
    · rw [if_pos ht]
      have hnot : base ++ "." ++ toString (c + 1) ∉ seen := by
        intro hm
        obtain ⟨j, hj, e⟩ := hform _ hm
        have := uniqueName_injective e
        omega
      apply uniqueNameFrom_free taken base names htaken fuel (c + 1)
        ((base ++ "." ++ toString (c + 1)) :: seen) (List.nodup_cons.2 ⟨hnot, hnd⟩)
      · intro n hn
        rcases List.mem_cons.1 hn with rfl | hn
        · exact htaken _ ht
        · exact hsub n hn
      · intro n hn
        rcases List.mem_cons.1 hn with rfl | hn
        · exact ⟨c + 1, Nat.le_refl _, rfl⟩
        · obtain ⟨j, hj, e⟩ := hform n hn
          exact ⟨j, by omega, e⟩
      · simp only [List.length_cons]; omega
    · rw [if_neg (by rw [ht]; exact Bool.false_ne_true)]
      exact ht

theorem getNamedValue_isSome_mem {M : Module} {n : String}
    (h : (M.getNamedValue n).isSome = true) :
    n ∈ M.functions.map (fun F => F.name) ++ M.globals.map (fun G => G.name) := by
  by_contra hn
  have hnone : M.getNamedValue n = none := by
    rw [getNamedValue_none_iff]
    constructor
    · intro F hF e
      exact hn (List.mem_append_left _ (List.mem_map.2 ⟨F, hF, e⟩))
    · intro G hG e
      exact hn (List.mem_append_right _ (List.mem_map.2 ⟨G, hG, e⟩))
  rw [hnone] at h
  cases h

/-- The name the symbol table makes up is not in the symbol table. -/
theorem makeUniqueName_free (M : Module) (base : String) :
    M.getNamedValue (M.makeUniqueName base).1 = none := by
  have h := uniqueNameFrom_free (fun n => (M.getNamedValue n).isSome) base
    (M.functions.map (fun F => F.name) ++ M.globals.map (fun G => G.name))
    (fun n hn => getNamedValue_isSome_mem hn) (M.functions.length + M.globals.length)
    M.lastUnique [] List.nodup_nil (fun n hn => by cases hn) (fun n hn => by cases hn)
    (by simp)
  unfold Module.makeUniqueName
  simp only [] at h
  cases hv : M.getNamedValue (uniqueNameFrom (fun n => (M.getNamedValue n).isSome) base
      (M.functions.length + M.globals.length) M.lastUnique).1 with
  | none => rfl
  | some v => rw [hv] at h; cases h

theorem makeUniqueName_form (M : Module) (base : String) :
    ∃ u, M.lastUnique < u ∧ M.makeUniqueName base = (base ++ "." ++ toString u, u) :=
  uniqueNameFrom_form _ base _ _

theorem instrumentLoad_existing {M M' : Module} {L : Instr} {addr : Value} {pre : List Instr}
    (hn : funcName L.dbg ∈ M.functions.map (fun F => F.name))
    (h : instrumentLoad M L addr = .ok (M', pre)) :
    M'.functions = M.functions ∧ M'.globals = M.globals := by
  obtain ⟨pty, Mg, _, rfl, _, hc⟩ := instrumentLoad_cases h
  rcases hc with ⟨_, rfl⟩ | ⟨hnone, _⟩
  · exact ⟨rfl, rfl⟩
  · exfalso
    obtain ⟨F, hF, hFn⟩ := List.mem_map.1 hn
    exact ((getNamedValue_none_iff M _).1 hnone).1 F hF hFn

end LoadChecker

namespace LoadChecker

/-! ## Frame lemmas: what a step does to the function list -/

theorem sameFn_refl (F : Function) : SameFn F F := ⟨rfl, rfl, rfl⟩

theorem sameFn_trans {F G H : Function} (h1 : SameFn F G) (h2 : SameFn G H) : SameFn F H :=
  ⟨h2.1.trans h1.1, h2.2.1.trans h1.2.1, h2.2.2.trans h1.2.2⟩

theorem newFn_of_sameFn {F G : Function} (h : SameFn F G) (hn : NewFn F) : NewFn G := by
  obtain ⟨h1, h2, h3⟩ := h
  unfold NewFn at *
  rw [h1, h2, h3]
  exact hn

theorem forall₂_sameFn_refl (fs : List Function) : List.Forall₂ SameFn fs fs := by
  induction fs with
  | nil => exact List.Forall₂.nil
  | cons F fs ih => exact List.Forall₂.cons (sameFn_refl F) ih

theorem forall₂_sameFn_trans {as bs cs : List Function} (h1 : List.Forall₂ SameFn as bs)
    (h2 : List.Forall₂ SameFn bs cs) : List.Forall₂ SameFn as cs := by
  induction h1 generalizing cs with
  | nil => cases h2; exact List.Forall₂.nil
  | cons h _ ih =>
    cases h2 with
    | cons h' t' => exact List.Forall₂.cons (sameFn_trans h h') (ih t')

theorem forall₂_sameFn_newFn {as bs : List Function} (h : List.Forall₂ SameFn as bs)
    (hn : ∀ F ∈ as, NewFn F) : ∀ F ∈ bs, NewFn F := by
  induction h with
  | nil => intro F hF; cases hF
  | cons h _ ih =>
    intro F hF
    rcases List.mem_cons.1 hF with rfl | hF
    · exact newFn_of_sameFn h (hn _ (List.mem_cons_self _ _))
    · exact ih (fun G hG => hn G (List.mem_cons_of_mem _ hG)) F hF

theorem forall₂_append_split {α β : Type} {R : α → β → Prop} :
    ∀ {as1 as2 : List α} {bs : List β}, List.Forall₂ R (as1 ++ as2) bs →
      ∃ bs1 bs2, bs = bs1 ++ bs2 ∧ List.Forall₂ R as1 bs1 ∧ List.Forall₂ R as2 bs2
  | [], as2, bs, h => ⟨[], bs, rfl, List.Forall₂.nil, h⟩
  | a :: as1, as2, bs, h => by
    cases h with
    | cons hab ht =>
      obtain ⟨bs1, bs2, rfl, h1, h2⟩ := forall₂_append_split ht
      exact ⟨_ :: bs1, bs2, rfl, List.Forall₂.cons hab h1, h2⟩

theorem forall₂_append {α β : Type} {R : α → β → Prop} {as1 as2 : List α} {bs1 bs2 : List β}
    (h1 : List.Forall₂ R as1 bs1) (h2 : List.Forall₂ R as2 bs2) :
    List.Forall₂ R (as1 ++ as2) (bs1 ++ bs2) := by
  induction h1 with
  | nil => exact h2
  | cons h _ ih => exact List.Forall₂.cons h ih

theorem grows_refl (fs : List Function) : Grows fs fs :=
  ⟨fs, [], by simp, forall₂_sameFn_refl fs, by intro F hF; cases hF⟩

theorem grows_trans {as bs cs : List Function} (h1 : Grows as bs) (h2 : Grows bs cs) :
    Grows as cs := by
  obtain ⟨o1, n1, rfl, hs1, hn1⟩ := h1
  obtain ⟨o2, n2, rfl, hs2, hn2⟩ := h2
  obtain ⟨p, q, rfl, hp, hq⟩ := forall₂_append_split hs2
  refine ⟨p, q ++ n2, by simp, forall₂_sameFn_trans hs1 hp, ?_⟩
  intro F hF
  rcases List.mem_append.1 hF with hF | hF
  · exact forall₂_sameFn_newFn hq hn1 F hF
  · exact hn2 F hF

theorem grows_append_new {fs : List Function} {F : Function} (h : NewFn F) :
    Grows fs (fs ++ [F]) :=
  ⟨fs, [F], rfl, forall₂_sameFn_refl fs, by intro G hG; simp at hG; rw [hG]; exact h⟩

theorem grows_map {fs : List Function} {f : Function → Function} (h : ∀ F, SameFn F (f F)) :
    Grows fs (fs.map f) := by
  refine ⟨fs.map f, [], by simp, ?_, by intro F hF; cases hF⟩
  induction fs with
  | nil => exact List.Forall₂.nil
  | cons F fs ih => exact List.Forall₂.cons (h F) ih

theorem grows_length_le {fs fs' : List Function} (h : Grows fs fs') : fs.length ≤ fs'.length := by
  obtain ⟨o, n, rfl, hs, _⟩ := h
  rw [List.length_append, hs.length_eq]
  exact Nat.le_add_right _ _

theorem cmpOf_type (M : Module) (L : Instr) (addr : Value) (pty : Ty) :
    (cmpOf M L addr pty).1.type = .int 1 := by
  unfold cmpOf createICmpEQ
  split <;> rfl

theorem cmpOf_const {M : Module} {L : Instr} {addr : Value} (pty : Ty)
    (h : addr.isConstant = true) :
    cmpOf M L addr pty = (.icmpEq addr (.nullPtr pty), [], M.nextId) := by
  simp [cmpOf, createICmpEQ, h, Value.isConstant]

theorem cmpOf_nonconst {M : Module} {L : Instr} {addr : Value} (pty : Ty)
    (h : addr.isConstant = false) :
    cmpOf M L addr pty = (.inst (.int 1) M.nextId,
      [⟨M.nextId, .int 1, .icmpEq addr (.nullPtr pty), L.dbg⟩], M.nextId + 1) := by
  simp [cmpOf, createICmpEQ, h]

theorem cmpOf_nextId_le (M : Module) (L : Instr) (addr : Value) (pty : Ty) :
    M.nextId ≤ (cmpOf M L addr pty).2.2 := by
  unfold cmpOf createICmpEQ
  split <;> simp

theorem getOrInsertFunction_grows_printf (M : Module) :
    Grows M.functions (M.getOrInsertFunction "printf" printfTy).functions := by
  unfold Module.getOrInsertFunction
  split
  · exact grows_refl _
  · exact grows_append_new (Or.inr (Or.inl ⟨rfl, rfl, rfl⟩))

theorem getOrInsertFunction_grows_exit (M : Module) :
    Grows M.functions (M.getOrInsertFunction "exit" exitTy).functions := by
  unfold Module.getOrInsertFunction
  split
  · exact grows_refl _
  · exact grows_append_new (Or.inr (Or.inr ⟨rfl, rfl, rfl⟩))

theorem withPrintf_grows (M : Module) : Grows M.functions (withPrintf M).functions := by
  refine grows_trans (getOrInsertFunction_grows_printf M) ?_
  unfold withPrintf Module.updateFunction
  apply grows_map
  intro F
  by_cases h : F.name = "printf"
  · simp [h, SameFn, printfAttrs]
  · simp [h, SameFn]

theorem getOrInsertGlobal_functions {M Mr : Module} {name g : String} {ty : Ty}
    (h : M.getOrInsertGlobal name ty = .ok (Mr, g)) : Mr.functions = M.functions := by
  unfold Module.getOrInsertGlobal at h
  split at h
  · injection h with h; injection h with h; rw [← h]
  · split at h
    · injection h with h; injection h with h; rw [h]
    · cases h
  · injection h with h; injection h with h; rw [← h]

theorem getOrInsertFunction_globals (M : Module) (name : String) (ty : FunctionType) :
    (M.getOrInsertFunction name ty).globals = M.globals := by
  unfold Module.getOrInsertFunction
  split <;> rfl

theorem instrumentLoad_grows {M M' : Module} {L : Instr} {addr : Value} {pre : List Instr}
    (h : instrumentLoad M L addr = .ok (M', pre)) : Grows M.functions M'.functions := by
  obtain ⟨pty, Mg, _, rfl, _, hc⟩ := instrumentLoad_cases h
  rcases hc with ⟨_, rfl⟩ | ⟨_, Mr, g, hr, _, rfl⟩
  · exact grows_refl _
  · have h1 : Grows M.functions
        (withGuard { M with nextId := (cmpOf M L addr pty).2.2 } (cmpOf M L addr pty).1 L.dbg
          g).functions := by
      apply grows_append_new
      refine Or.inl ⟨L.dbg, _, g, rfl, ?_, rfl⟩
      simp [guardFn, nullCheckerTy, cmpOf_type]
    refine grows_trans h1 (grows_trans (withPrintf_grows _) ?_)
    rw [← getOrInsertGlobal_functions hr]
    exact getOrInsertFunction_grows_exit (Mr.setInitializer _ _)

theorem instrumentLoad_nextId {M M' : Module} {L : Instr} {addr : Value} {pre : List Instr}
    (h : instrumentLoad M L addr = .ok (M', pre)) : M.nextId < M'.nextId := by
  obtain ⟨pty, Mg, _, rfl, _, hc⟩ := instrumentLoad_cases h
  have := cmpOf_nextId_le M L addr pty
  rcases hc with ⟨_, rfl⟩ | ⟨_, Mr, g, hr, _, rfl⟩
  · simp only []; omega
  · have e := getOrInsertGlobal_nextId hr
    simp only [getOrInsertFunction_nextId, Module.setInitializer, e, withPrintf,
      Module.updateFunction, withGuard]
    omega

end LoadChecker

namespace LoadChecker

/-! ## The traversal -/

theorem reach_trans {A B C : Module} (h1 : Reach A B) (h2 : Reach B C) : Reach A C := by
  induction h1 with
  | refl => exact h2
  | load h _ ih => exact Reach.load h (ih h2)
  | setBlocks hp _ ih => exact Reach.setBlocks hp (ih h2)

theorem reach_step_load {M M1 : Module} {L : Instr} {addr : Value} {pre : List Instr}
    (h : instrumentLoad M L addr = .ok (M1, pre)) : Reach M M1 :=
  Reach.load h (Reach.refl _)

theorem reach_step_setBlocks (M : Module) (i : Nat) (bs : List BasicBlock)
    (hp : ∀ F, M.functions.get? i = some F → F.noLoads → bs = F.blocks) :
    Reach M (M.setBlocks i bs) :=
  Reach.setBlocks hp (Reach.refl _)

theorem reach_nextId_le {A B : Module} (h : Reach A B) : A.nextId ≤ B.nextId := by
  induction h with
  | refl => exact Nat.le_refl _
  | load h _ ih => exact Nat.le_trans (Nat.le_of_lt (instrumentLoad_nextId h)) ih
  | setBlocks _ _ ih => exact ih

theorem isLoad_eq_false_of_kind {I : Instr} (h : ∀ a, I.kind ≠ .load a) : I.isLoad = false := by
  unfold Instr.isLoad
  split
  · rename_i a ha; exact absurd ha (h a)
  · rfl

theorem instrumentInstrs_spec {M0 : Module} :
    ∀ (is : List Instr) {M M1 : Module} {os : List Instr},
      instrumentInstrs M is = .ok (M1, os) → Reach M0 M →
      Reach M M1 ∧ Grows M.functions M1.functions ∧
        ∀ Mfin, Reach M1 Mfin → Expanded M0 Mfin is os
  | [], M, M1, os, h, _ => by
    simp only [instrumentInstrs] at h
    injection h with h
    injection h with h1 h2
    subst h1; subst h2
    exact ⟨Reach.refl _, grows_refl _, fun _ _ => Expanded.nil⟩
  | I :: rest, M, M1, os, h, h0 => by
    unfold instrumentInstrs at h
    split at h
    · rename_i addr hk
      cases hl : instrumentLoad M I addr with
      | error e => simp [hl] at h
      | ok r =>
        obtain ⟨M2, pre⟩ := r
        simp only [hl] at h
        cases hr : instrumentInstrs M2 rest with
        | error e => simp [hr] at h
        | ok r2 =>
          obtain ⟨M3, rest'⟩ := r2
          simp only [hr] at h
          injection h with h
          injection h with h1 h2
          subst h1; subst h2
          have hM2 : Reach M M2 := reach_step_load hl
          obtain ⟨r1, g1, e1⟩ := instrumentInstrs_spec rest hr (reach_trans h0 hM2)
          refine ⟨reach_trans hM2 r1, grows_trans (instrumentLoad_grows hl) g1, ?_⟩
          intro Mfin hfin
          exact Expanded.guard hk h0 hl (reach_trans r1 hfin) (e1 Mfin hfin)
    · rename_i hk
      cases hr : instrumentInstrs M rest with
      | error e => simp [hr] at h
      | ok r2 =>
        obtain ⟨M3, rest'⟩ := r2
        simp only [hr] at h
        injection h with h
        injection h with h1 h2
        subst h1; subst h2
        obtain ⟨r1, g1, e1⟩ := instrumentInstrs_spec rest hr h0
        refine ⟨r1, g1, ?_⟩
        intro Mfin hfin
        exact Expanded.keep (isLoad_eq_false_of_kind (fun a ha => hk a ha)) (e1 Mfin hfin)

theorem instrumentBlocks_spec {M0 : Module} :
    ∀ (bs : List BasicBlock) {M M1 : Module} {bs' : List BasicBlock},
      instrumentBlocks M bs = .ok (M1, bs') → Reach M0 M →
      Reach M M1 ∧ Grows M.functions M1.functions ∧
        ∀ Mfin, Reach M1 Mfin → List.Forall₂ (InstrumentedBlock M0 Mfin) bs bs'
  | [], M, M1, bs', h, _ => by
    simp only [instrumentBlocks] at h
    injection h with h
    injection h with h1 h2
    subst h1; subst h2
    exact ⟨Reach.refl _, grows_refl _, fun _ _ => List.Forall₂.nil⟩
  | BB :: rest, M, M1, bs', h, h0 => by
    unfold instrumentBlocks at h
    cases hl : instrumentInstrs M BB.instrs with
    | error e => simp [hl] at h
    | ok r =>
      obtain ⟨M2, instrs'⟩ := r
      simp only [hl] at h
      cases hr : instrumentBlocks M2 rest with
      | error e => simp [hr] at h
      | ok r2 =>
        obtain ⟨M3, rest'⟩ := r2
        simp only [hr] at h
        injection h with h
        injection h with h1 h2
        subst h1; subst h2
        obtain ⟨ra, ga, ea⟩ := instrumentInstrs_spec BB.instrs hl h0
        obtain ⟨rb, gb, eb⟩ := instrumentBlocks_spec rest hr (reach_trans h0 ra)
        refine ⟨reach_trans ra rb, grows_trans ga gb, ?_⟩
        intro Mfin hfin
        exact List.Forall₂.cons ⟨rfl, ea Mfin (reach_trans rb hfin)⟩ (eb Mfin hfin)

end LoadChecker

namespace LoadChecker

theorem setBlocksAt_append (bs : List BasicBlock) (F : Function) (rs : List Function) :
    ∀ ds : List Function,
      setBlocksAt ds.length bs (ds ++ F :: rs) = ds ++ { F with blocks := bs } :: rs
  | [] => rfl
  | D :: ds => by
    show D :: setBlocksAt ds.length bs (ds ++ F :: rs) = _
    rw [setBlocksAt_append bs F rs ds]
    rfl

theorem get?_append_length {α : Type} (a : α) (rs : List α) :
    ∀ ds : List α, (ds ++ a :: rs).get? ds.length = some a
  | [] => rfl
  | _ :: ds => by
    simp only [List.cons_append, List.length_cons, List.get?_cons_succ]
    exact get?_append_length a rs ds

theorem expanded_eq_of_noLoad {M0 Mfin : Module} {is os : List Instr}
    (h : Expanded M0 Mfin is os) (hn : ∀ I ∈ is, I.isLoad = false) : os = is := by
  induction h with
  | nil => rfl
  | keep _ _ ih =>
    rw [ih (fun J hJ => hn J (List.mem_cons_of_mem _ hJ))]
  | guard hk _ _ _ _ _ =>
    have := hn _ (List.mem_cons_self _ _)
    simp [Instr.isLoad, hk] at this

theorem forall₂_instrumentedBlock_eq {M0 Mfin : Module} {bs bs' : List BasicBlock}
    (h : List.Forall₂ (InstrumentedBlock M0 Mfin) bs bs')
    (hn : ∀ B ∈ bs, ∀ I ∈ B.instrs, I.isLoad = false) : bs' = bs := by
  induction h with
  | nil => rfl
  | @cons B B' l l' hb _ ih =>
    have e1 := expanded_eq_of_noLoad hb.2 (hn B (List.mem_cons_self _ _))
    have e2 := ih (fun C hC => hn C (List.mem_cons_of_mem _ hC))
    have : B' = B := by
      cases B; cases B'
      simp only [BasicBlock.mk.injEq]
      exact ⟨hb.1, e1⟩
    rw [this, e2]

theorem guardBlocks_noLoad (n : Nat) (k : Option DebugLoc) (g : String) :
    ∀ B ∈ guardBlocks n k g, ∀ I ∈ B.instrs, I.isLoad = false := by
  intro B hB I hI
  simp only [guardBlocks, List.mem_cons, List.mem_singleton, List.not_mem_nil, or_false] at hB
  rcases hB with rfl | rfl | rfl <;>
    simp only [List.mem_cons, List.mem_singleton, List.not_mem_nil, or_false] at hI
  · rw [hI]; rfl
  · rcases hI with rfl | rfl | rfl <;> rfl
  · rw [hI]; rfl

theorem newFn_noLoad {F : Function} (h : NewFn F) :
    ∀ B ∈ F.blocks, ∀ I ∈ B.instrs, I.isLoad = false := by
  rcases h with ⟨k, n, g, _, _, hb⟩ | ⟨_, _, hb⟩ | ⟨_, _, hb⟩
  · rw [hb]; exact guardBlocks_noLoad n k g
  · rw [hb]; intro B hB; cases hB
  · rw [hb]; intro B hB; cases hB

theorem newFn_of_instrumentedFn {M0 Mfin : Module} {F F' : Function} (hn : NewFn F)
    (h : InstrumentedFn M0 Mfin F F') : NewFn F' := by
  have e := forall₂_instrumentedBlock_eq h.2.2 (newFn_noLoad hn)
  exact newFn_of_sameFn ⟨h.1, h.2.1, e⟩ hn

theorem instrumentedFn_of_sameFn {M0 Mfin : Module} {F F1 F' : Function} (hs : SameFn F F1)
    (h : InstrumentedFn M0 Mfin F1 F') : InstrumentedFn M0 Mfin F F' := by
  obtain ⟨h1, h2, h3⟩ := hs
  obtain ⟨i1, i2, i3⟩ := h
  refine ⟨i1.trans h1, i2.trans h2, ?_⟩
  rw [← h3]; exact i3

theorem forall₂_instrumentedFn_of_sameFn {M0 Mfin : Module} {as bs cs : List Function}
    (h1 : List.Forall₂ SameFn as bs) (h2 : List.Forall₂ (InstrumentedFn M0 Mfin) bs cs) :
    List.Forall₂ (InstrumentedFn M0 Mfin) as cs := by
  induction h1 generalizing cs with
  | nil => cases h2; exact List.Forall₂.nil
  | cons hab _ ih =>
    cases h2 with
    | cons hcd htl => exact List.Forall₂.cons (instrumentedFn_of_sameFn hab hcd) (ih htl)

theorem forall₂_instrumentedFn_newFn {M0 Mfin : Module} {as bs : List Function}
    (h : List.Forall₂ (InstrumentedFn M0 Mfin) as bs) (hn : ∀ F ∈ as, NewFn F) :
    ∀ F ∈ bs, NewFn F := by
  induction h with
  | nil => intro F hF; cases hF
  | cons hab _ ih =>
    intro G hG
    rcases List.mem_cons.1 hG with rfl | hG
    · exact newFn_of_instrumentedFn (hn _ (List.mem_cons_self _ _)) hab
    · exact ih (fun H hH => hn H (List.mem_cons_of_mem _ hH)) G hG

theorem runLoop_spec {M0 : Module} :
    ∀ (fuel i : Nat) {M M' : Module} (done todo : List Function),
      runLoop fuel i M = .ok M' → Reach M0 M → M.functions = done ++ todo → done.length = i →
      Reach M M' ∧ ∃ done' todo' new, M'.functions = done' ++ todo' ++ new ∧
        List.Forall₂ SameFn done done' ∧ List.Forall₂ (InstrumentedFn M0 M') todo todo' ∧
        ∀ F ∈ new, NewFn F
  | 0, i, M, M', done, todo, h, _, _, _ => by simp [runLoop] at h
  | fuel + 1, i, M, M', done, todo, h, h0, hfs, hlen => by
    unfold runLoop at h
    cases todo with
    | nil =>
      have hget : M.functions.get? i = none := by
        rw [hfs, List.append_nil, List.get?_eq_none]; omega
      simp only [hget] at h
      injection h with h
      subst h
      exact ⟨Reach.refl _, done, [], [], by simp [hfs], forall₂_sameFn_refl _, List.Forall₂.nil,
        by intro F hF; cases hF⟩
    | cons F rest =>
      have hget : M.functions.get? i = some F := by
        rw [hfs, ← hlen]; exact get?_append_length F rest done
      simp only [hget] at h
      cases hb : instrumentBlocks M F.blocks with
      | error e => simp [hb] at h
      | ok r =>
        obtain ⟨M1, bs'⟩ := r
        simp only [hb] at h
        obtain ⟨r1, g1, e1⟩ := instrumentBlocks_spec F.blocks hb h0
        obtain ⟨old', new1, hM1, hs1, hn1⟩ := g1
        rw [hfs] at hs1
        obtain ⟨done1, t1, rfl, hd1, ht1⟩ := forall₂_append_split hs1
        cases ht1 with
        | @cons _ F1 _ rest1 hF1 hrest1 =>
          have hlen1 : done1.length = i := by rw [← hd1.length_eq]; exact hlen
          have hset : (M1.setBlocks i bs').functions
              = (done1 ++ [{ F1 with blocks := bs' }]) ++ (rest1 ++ new1) := by
            simp only [Module.setBlocks, hM1]
            rw [← hlen1, List.append_assoc, List.cons_append, setBlocksAt_append]
            simp
          have hlen2 : (done1 ++ [{ F1 with blocks := bs' }]).length = i + 1 := by
            simp [hlen1]
          have hp : ∀ Fx, M1.functions.get? i = some Fx → Fx.noLoads → bs' = Fx.blocks := by
            intro Fx hFx hno
            have hget1 : M1.functions.get? i = some F1 := by
              rw [hM1, ← hlen1, List.append_assoc]
              exact get?_append_length F1 (rest1 ++ new1) done1
            have e : Fx = F1 := Option.some.inj (hFx.symm.trans hget1)
            rw [e] at hno ⊢
            unfold Function.noLoads at hno
            rw [hF1.2.2] at hno ⊢
            exact forall₂_instrumentedBlock_eq (e1 M1 (Reach.refl _)) hno
          obtain ⟨r2, done2', todo2', new2, hM', hd2, ht2, hn2⟩ :=
            runLoop_spec fuel (i + 1) _ _ h
              (reach_trans h0 (reach_trans r1 (reach_step_setBlocks M1 i bs' hp))) hset hlen2
          obtain ⟨d', x, rfl, hd', hx⟩ := forall₂_append_split hd2
          obtain ⟨rest', new1', rfl, hrest', hnew1'⟩ := forall₂_append_split ht2
          cases hx with
          | @cons _ F'' _ _ hF'' hnil =>
            cases hnil
            have hreach : Reach M1 M' := reach_trans (reach_step_setBlocks M1 i bs' hp) r2
            refine ⟨reach_trans r1 hreach, d', F'' :: rest', new1' ++ new2, ?_, ?_, ?_, ?_⟩
            · rw [hM']; simp
            · exact forall₂_sameFn_trans hd1 hd'
            · refine List.Forall₂.cons ?_ ?_
              · refine ⟨hF''.1.trans hF1.1, hF''.2.1.trans hF1.2.1, ?_⟩
                rw [hF''.2.2]
                exact e1 M' hreach
              · exact forall₂_instrumentedFn_of_sameFn hrest1 hrest'
            · intro G hG
              rcases List.mem_append.1 hG with hG | hG
              · exact forall₂_instrumentedFn_newFn hnew1' hn1 G hG
              · exact hn2 G hG

end LoadChecker

namespace LoadChecker

/-! ## Positions in an instrumented block -/

theorem get?_split {α : Type} {a : α} :
    ∀ {l : List α} {k : Nat}, l.get? k = some a → ∃ l1 l2, l = l1 ++ a :: l2 ∧ l1.length = k
  | [], _, h => by simp at h
  | b :: l, 0, h => by
    simp only [List.get?_cons_zero, Option.some.injEq] at h
    exact ⟨[], l, by rw [h]; rfl, rfl⟩
  | b :: l, k + 1, h => by
    simp only [List.get?_cons_succ] at h
    obtain ⟨l1, l2, rfl, hk⟩ := get?_split h
    exact ⟨b :: l1, l2, rfl, by simp [hk]⟩

theorem get?_append_add {α : Type} (l2 : List α) (q : Nat) :
    ∀ l1 : List α, (l1 ++ l2).get? (l1.length + q) = l2.get? q
  | [] => by simp
  | _ :: l1 => by
    have := get?_append_add l2 q l1
    simp only [List.cons_append, List.length_cons]
    rw [show l1.length + 1 + q = (l1.length + q) + 1 by omega, List.get?_cons_succ]
    exact this

theorem forall₂_get? {α β : Type} {R : α → β → Prop} {as : List α} {bs : List β}
    (h : List.Forall₂ R as bs) : ∀ {i : Nat} {a : α}, as.get? i = some a →
      ∃ b, bs.get? i = some b ∧ R a b := by
  induction h with
  | nil => intro i a h; simp at h
  | cons hab _ ih =>
    intro i a h
    cases i with
    | zero =>
      simp only [List.get?_cons_zero, Option.some.injEq] at h
      subst h
      exact ⟨_, rfl, hab⟩
    | succ i =>
      simp only [List.get?_cons_succ] at h
      exact ih h

theorem get?_append_left' {α : Type} {l1 : List α} {i : Nat} {a : α} (l2 : List α)
    (h : l1.get? i = some a) : (l1 ++ l2).get? i = some a := by
  obtain ⟨x, y, rfl, hk⟩ := get?_split h
  rw [List.append_assoc, ← hk]
  exact get?_append_length a _ x

theorem expanded_split {M0 Mfin : Module} {L : Instr} {addr : Value} (hk : L.kind = .load addr) :
    ∀ (is1 : List Instr) {is2 os : List Instr}, Expanded M0 Mfin (is1 ++ L :: is2) os →
      ∃ front back pre M1 M2, os = front ++ (pre ++ L :: back) ∧
        Expanded M0 Mfin is1 front ∧ Expanded M0 Mfin is2 back ∧
        Reach M0 M1 ∧ instrumentLoad M1 L addr = .ok (M2, pre) ∧ Reach M2 Mfin
  | [], is2, os, h => by
    cases h with
    | keep hl _ => simp [Instr.isLoad, hk] at hl
    | @guard _ addr' M1 M2 pre _ os' hk' r1 hi r2 e =>
      have : addr' = addr := by
        rw [hk] at hk'; injection hk' with hk'; exact hk'.symm
      subst this
      exact ⟨[], os', pre, M1, M2, rfl, Expanded.nil, e, r1, hi, r2⟩
  | I :: is1, is2, os, h => by
    cases h with
    | keep hl e =>
      obtain ⟨front, back, pre, M1, M2, rfl, e1, e2, r1, hi, r2⟩ := expanded_split hk is1 e
      exact ⟨I :: front, back, pre, M1, M2, rfl, Expanded.keep hl e1, e2, r1, hi, r2⟩
    | @guard _ addr' M1' M2' pre' _ os' hk' r1' hi' r2' e =>
      obtain ⟨front, back, pre, M1, M2, rfl, e1, e2, r1, hi, r2⟩ := expanded_split hk is1 e
      exact ⟨pre' ++ I :: front, back, pre, M1, M2, by simp,
        Expanded.guard hk' r1' hi' r2' e1, e2, r1, hi, r2⟩

/-- The instructions `instrumentLoad` puts in front of a load. -/
theorem instrumentLoad_pre {M M' : Module} {L : Instr} {addr : Value} {pre : List Instr}
    (h : instrumentLoad M L addr = .ok (M', pre)) :
    ∃ pty g, addr.type.asPointer = some pty ∧ M.nextId ≤ g ∧ g < M'.nextId ∧
      ((addr.isConstant = true ∧ pre = [guardCall L g (.icmpEq addr (.nullPtr pty))]) ∨
       (addr.isConstant = false ∧ g ≠ M.nextId ∧
          pre = [⟨M.nextId, .int 1, .icmpEq addr (.nullPtr pty), L.dbg⟩,
                 guardCall L g (.inst (.int 1) M.nextId)])) := by
  have hlt := instrumentLoad_nextId h
  obtain ⟨pty, Mg, hp, rfl, hpre, hc⟩ := instrumentLoad_cases h
  have hg : (cmpOf M L addr pty).2.2 ≤ Mg.nextId := by
    rcases hc with ⟨_, rfl⟩ | ⟨_, Mr, g, hr, _, rfl⟩
    · exact Nat.le_refl _
    · have e := getOrInsertGlobal_nextId hr
      simp only [getOrInsertFunction_nextId, Module.setInitializer, e, withPrintf,
        Module.updateFunction, withGuard]
      omega
  refine ⟨pty, Mg.nextId, hp, Nat.le_trans (cmpOf_nextId_le M L addr pty) hg, by simp, ?_⟩
  cases hconst : addr.isConstant with
  | true =>
    left
    rw [cmpOf_const pty hconst] at hpre
    exact ⟨rfl, by simpa using hpre⟩
  | false =>
    right
    rw [cmpOf_nonconst pty hconst] at hpre hg
    refine ⟨rfl, ?_, by simpa using hpre⟩
    simp only [] at hg
    omega

theorem forall₂_sameFn_name {as bs : List Function} (h : List.Forall₂ SameFn as bs) :
    bs.map (fun F => F.name) = as.map (fun F => F.name) := by
  induction h with
  | nil => rfl
  | cons hab _ ih => simp [hab.1, ih]

theorem grows_name_mem {fs fs' : List Function} (h : Grows fs fs') {n : String}
    (hn : n ∈ fs.map (fun F => F.name)) : n ∈ fs'.map (fun F => F.name) := by
  obtain ⟨o, nw, rfl, hs, _⟩ := h
  rw [List.map_append, forall₂_sameFn_name hs]
  exact List.mem_append_left _ hn

theorem setBlocksAt_name (i : Nat) (bs : List BasicBlock) :
    ∀ fs : List Function, (setBlocksAt i bs fs).map (fun F => F.name) = fs.map (fun F => F.name) := by
  induction i with
  | zero => intro fs; cases fs <;> simp [setBlocksAt]
  | succ i ih => intro fs; cases fs <;> simp [setBlocksAt, ih]

theorem reach_name_mem {A B : Module} (h : Reach A B) {n : String}
    (hn : n ∈ A.functions.map (fun F => F.name)) : n ∈ B.functions.map (fun F => F.name) := by
  induction h with
  | refl => exact hn
  | load h _ ih => exact ih (grows_name_mem (instrumentLoad_grows h) hn)
  | setBlocks _ _ ih =>
    apply ih
    simp only [Module.setBlocks, setBlocksAt_name]
    exact hn

theorem getFunction_isSome_iff_name (M : Module) (name : String) :
    (M.getFunction name).isSome = true ↔ name ∈ M.functions.map (fun F => F.name) := by
  rw [getFunction_isSome_iff]
  simp

/-- After a load has been instrumented its guard function is in the module. -/
theorem instrumentLoad_guard_exists {M M' : Module} {L : Instr} {addr : Value} {pre : List Instr}
    (h : instrumentLoad M L addr = .ok (M', pre)) :
    funcName L.dbg ∈ M'.functions.map (fun F => F.name) := by
  obtain ⟨pty, Mg, _, rfl, _, hc⟩ := instrumentLoad_cases h
  rcases hc with ⟨⟨F, hF, hn⟩, rfl⟩ | ⟨_, Mr, g, hr, _, rfl⟩
  · simp only [List.mem_map]
    exact ⟨F, hF, hn⟩
  · have h1 : funcName L.dbg ∈ (withGuard { M with nextId := (cmpOf M L addr pty).2.2 }
        (cmpOf M L addr pty).1 L.dbg g).functions.map (fun F => F.name) := by
      simp [withGuard, guardFn]
    have h2 := grows_name_mem (withPrintf_grows _) h1
    rw [← getOrInsertGlobal_functions hr] at h2
    exact grows_name_mem (getOrInsertFunction_grows_exit (Mr.setInitializer _ _)) h2

theorem mem_setBlocksAt {bs : List BasicBlock} {G : Function} :
    ∀ (i : Nat) (fs : List Function), G ∈ setBlocksAt i bs fs →
      G ∈ fs ∨ ∃ F, fs.get? i = some F ∧ G = { F with blocks := bs }
  | _, [], h => by simp [setBlocksAt] at h
  | 0, F :: fs, h => by
    simp only [setBlocksAt, List.mem_cons] at h
    rcases h with rfl | h
    · exact Or.inr ⟨F, rfl, rfl⟩
    · exact Or.inl (List.mem_cons_of_mem _ h)
  | i + 1, F :: fs, h => by
    simp only [setBlocksAt, List.mem_cons] at h
    rcases h with rfl | h
    · exact Or.inl (List.mem_cons_self _ _)
    · rcases mem_setBlocksAt i fs h with h | ⟨F', hF', e⟩
      · exact Or.inl (List.mem_cons_of_mem _ h)
      · exact Or.inr ⟨F', by simpa using hF', e⟩

end LoadChecker

namespace LoadChecker

/-! ## The run as a whole -/

theorem runOnModule_spec {fuel : Nat} {M M' : Module} {b : Bool}
    (h : runOnModule fuel M = .ok (M', b)) :
    b = false ∧ Reach M M' ∧ ∃ fs' new, M'.functions = fs' ++ new ∧
      List.Forall₂ (InstrumentedFn M M') M.functions fs' ∧ ∀ F ∈ new, NewFn F := by
  unfold runOnModule at h
  cases hr : runLoop fuel 0 M with
  | error e => simp [hr] at h
  | ok M1 =>
    simp only [hr] at h
    injection h with h
    injection h with h1 h2
    subst h1
    obtain ⟨r, d', t', new, hM, hd, ht, hn⟩ :=
      runLoop_spec fuel 0 [] M.functions hr (Reach.refl M) rfl rfl
    cases hd
    exact ⟨h2.symm, r, t', new, by simpa using hM, ht, hn⟩

theorem asPointer_eq {t p : Ty} (h : t.asPointer = some p) : p = t := by
  cases t <;> simp [Ty.asPointer] at h
  exact h.symm

/-- Where a load of the input ends up, and what stands in front of it. -/
theorem load_site {fuel : Nat} {M M' : Module} {b : Bool}
    (h : runOnModule fuel M = .ok (M', b)) {i j k : Nat} {F : Function} {BB : BasicBlock}
    {L : Instr} {addr : Value} (hF : M.functions.get? i = some F) (hB : F.blocks.get? j = some BB)
    (hI : BB.instrs.get? k = some L) (hk : L.kind = .load addr) :
    ∃ F' BB' front back pre M1 M2, M'.functions.get? i = some F' ∧ F'.name = F.name ∧
      F'.blocks.get? j = some BB' ∧ BB'.name = BB.name ∧
      BB'.instrs = front ++ (pre ++ L :: back) ∧
      Expanded M M' (BB.instrs.take k) front ∧ Expanded M M' (BB.instrs.drop (k + 1)) back ∧
      Reach M M1 ∧ instrumentLoad M1 L addr = .ok (M2, pre) ∧ Reach M2 M' := by
  obtain ⟨_, _, fs', new, hM', hfs, _⟩ := runOnModule_spec h
  obtain ⟨F', hF', hn, _, hbs⟩ := forall₂_get? hfs hF
  obtain ⟨BB', hB', hbn, hex⟩ := forall₂_get? hbs hB
  obtain ⟨l1, l2, hsplit, hlen⟩ := get?_split hI
  rw [hsplit] at hex
  obtain ⟨front, back, pre, M1, M2, hos, e1, e2, r1, hi, r2⟩ := expanded_split hk l1 hex
  refine ⟨F', BB', front, back, pre, M1, M2, ?_, hn, hB', hbn, hos, ?_, ?_, r1, hi, r2⟩
  · rw [hM']; exact get?_append_left' new hF'
  · rw [hsplit, ← hlen]; simpa using e1
  · rw [hsplit, ← hlen]; simpa using e2

end LoadChecker

namespace LoadChecker

/-! ## C1: what stands in front of a load -/

/-- C1, counterexample: the claim says that in front of every load, whatever its
address, the output holds a comparison instruction followed by a guard call on
its result.  The only function of `sampleGlobal` loads the global variable `g`;
the builder folds the comparison of the constant address with the constant null
pointer, so the instrumented block is the guard call on the constant
comparison, the load and the return: no position holds the claimed sequence and
the block has no comparison instruction at all. -/
theorem c1_counterexample :
    ∃ M', runOnModule 5 sampleGlobal = .ok (M', false) ∧
      M'.blockAt 0 0 = some sampleGlobalBlock ∧
      (∀ p, ¬ GuardedByCmp sampleGlobalBlock.instrs p
        ⟨0, .int 32, .load (.global i32Ptr "g"), none⟩ (.global i32Ptr "g")) ∧
      ∀ I ∈ sampleGlobalBlock.instrs, I.isICmp = false := by
  refine ⟨_, rfl, rfl, ?_, by decide⟩
  rintro p ⟨cmp, call, h1, _, _, hc, _⟩
  have hm : cmp ∈ sampleGlobalBlock.instrs := List.get?_mem h1
  simp only [sampleGlobalBlock, List.mem_cons, List.mem_singleton, List.not_mem_nil,
    or_false] at hm
  rcases hm with rfl | rfl | rfl <;> simp at hc

/-- C1, amended: for every load of the input module, the output of
`runOnModule` holds that load in the same block of the same function, the guard
function named after the load's location is a function of the output, and the
load is immediately preceded by exactly one call of that guard function.  When
the address is not a constant (an argument or an instruction result), the call
is immediately preceded by one comparison instruction of the address with the
null pointer of the address's own type, and the comparison's result is the
call's only argument.  When the address is a constant (such as the address of a
global), no comparison instruction is inserted: the call's only argument is the
constant comparison of the address with the null pointer of its type. -/
theorem guard_call_before_every_load (fuel : Nat) (M M' : Module) (b : Bool)
    (h : runOnModule fuel M = .ok (M', b)) {i j k : Nat} {F : Function} {BB : BasicBlock}
    {L : Instr} {addr : Value} (hF : M.functions.get? i = some F) (hB : F.blocks.get? j = some BB)
    (hI : BB.instrs.get? k = some L) (hk : L.kind = .load addr) :
    ∃ F' BB' p, M'.functions.get? i = some F' ∧ F'.name = F.name ∧
      F'.blocks.get? j = some BB' ∧ BB'.name = BB.name ∧
      (∃ G ∈ M'.functions, G.name = funcName L.dbg) ∧
      ((addr.isConstant = false ∧ GuardedByCmp BB'.instrs p L addr) ∨
       (addr.isConstant = true ∧ GuardedByConst BB'.instrs p L addr)) := by
  obtain ⟨F', BB', front, back, pre, M1, M2, hF', hn, hB', hbn, hos, _, _, _, hi, r2⟩ :=
    load_site h hF hB hI hk
  have hg : funcName L.dbg ∈ M'.functions.map (fun F => F.name) :=
    reach_name_mem r2 (instrumentLoad_guard_exists hi)
  simp only [List.mem_map] at hg
  obtain ⟨pty, g, hp, _, _, hpre⟩ := instrumentLoad_pre hi
  have hty := asPointer_eq hp
  subst hty
  refine ⟨F', BB', front.length, hF', hn, hB', hbn, hg, ?_⟩
  rcases hpre with ⟨hc, rfl⟩ | ⟨hc, _, rfl⟩
  · right
    refine ⟨hc, guardCall L g _, ?_, ?_, rfl⟩
    · rw [hos, ← Nat.add_zero front.length, get?_append_add]; rfl
    · rw [hos, get?_append_add]; rfl
  · left
    refine ⟨hc, ⟨M1.nextId, .int 1, .icmpEq addr (.nullPtr addr.type), L.dbg⟩,
      guardCall L g _, ?_, ?_, ?_, rfl, rfl⟩
    · rw [hos, ← Nat.add_zero front.length, get?_append_add]; rfl
    · rw [hos, get?_append_add]; rfl
    · rw [hos, get?_append_add]; rfl

/-- C1, witness: the amended statement at `sampleArg`, whose function loads
through its parameter. -/
theorem guard_call_before_every_load_witness :
    ∃ M', runOnModule 5 sampleArg = .ok (M', false) ∧
      ∃ F' BB' p, M'.functions.get? 0 = some F' ∧ F'.name = "f" ∧
        F'.blocks.get? 0 = some BB' ∧ BB'.name = "entry" ∧
        (∃ G ∈ M'.functions, G.name = funcName (some ⟨3, 7⟩)) ∧
        (((Value.arg i32Ptr 0).isConstant = false ∧
            GuardedByCmp BB'.instrs p ⟨0, .int 32, .load (.arg i32Ptr 0), some ⟨3, 7⟩⟩
              (.arg i32Ptr 0)) ∨
         ((Value.arg i32Ptr 0).isConstant = true ∧
            GuardedByConst BB'.instrs p ⟨0, .int 32, .load (.arg i32Ptr 0), some ⟨3, 7⟩⟩
              (.arg i32Ptr 0))) :=
  ⟨_, rfl, guard_call_before_every_load 5 sampleArg _ false rfl
    (i := 0) (j := 0) (k := 0) rfl rfl rfl rfl⟩

end LoadChecker

namespace LoadChecker

/-! ## C5 and C6: the reported flag, and modules without loads -/

theorem instrumentInstrs_noLoad (M : Module) :
    ∀ is : List Instr, (∀ I ∈ is, I.isLoad = false) → instrumentInstrs M is = .ok (M, is)
  | [], _ => rfl
  | I :: rest, h => by
    have hI := h I (List.mem_cons_self _ _)
    have ih := instrumentInstrs_noLoad M rest (fun J hJ => h J (List.mem_cons_of_mem _ hJ))
    unfold instrumentInstrs
    split
    · rename_i addr hk
      simp [Instr.isLoad, hk] at hI
    · simp [ih]

theorem instrumentBlocks_noLoad (M : Module) :
    ∀ bs : List BasicBlock, (∀ B ∈ bs, ∀ I ∈ B.instrs, I.isLoad = false) →
      instrumentBlocks M bs = .ok (M, bs)
  | [], _ => rfl
  | B :: rest, h => by
    have hB := instrumentInstrs_noLoad M B.instrs (h B (List.mem_cons_self _ _))
    have ih := instrumentBlocks_noLoad M rest (fun C hC => h C (List.mem_cons_of_mem _ hC))
    unfold instrumentBlocks
    simp [hB, ih]

theorem setBlocksAt_self :
    ∀ (i : Nat) (fs : List Function) (F : Function), fs.get? i = some F →
      setBlocksAt i F.blocks fs = fs
  | _, [], _, h => by simp at h
  | 0, G :: fs, F, h => by
    simp only [List.get?_cons_zero, Option.some.injEq] at h
    subst h
    rfl
  | i + 1, G :: fs, F, h => by
    simp only [List.get?_cons_succ] at h
    simp only [setBlocksAt, setBlocksAt_self i fs F h]

theorem runLoop_noLoad :
    ∀ (fuel i : Nat) (M : Module), M.noLoads → 0 < fuel → M.functions.length < fuel + i →
      runLoop fuel i M = .ok M
  | 0, _, _, _, hpos, _ => by omega
  | fuel + 1, i, M, hn, _, hlt => by
    unfold runLoop
    cases hg : M.functions.get? i with
    | none => rfl
    | some F =>
      have hF : F ∈ M.functions := List.get?_mem hg
      have hi : i < M.functions.length := by
        by_contra hc
        rw [List.get?_eq_none.2 (Nat.le_of_not_lt hc)] at hg
        cases hg
      simp only [instrumentBlocks_noLoad M F.blocks (hn F hF)]
      have : M.setBlocks i F.blocks = M := by
        simp only [Module.setBlocks, setBlocksAt_self i _ F hg]
      rw [this]
      exact runLoop_noLoad fuel (i + 1) M hn (by omega) (by omega)

/-- C5: the claim says `runOnModule` returns true, and `run` reports that no
analyses are preserved, whenever a load was instrumented.  On `sampleArg` the
pass instruments the load (the output has four functions where the input had
one) and still returns false, and `run` reports that all analyses are
preserved. -/
theorem flag_false_after_instrumenting :
    ∃ M', runOnModule 5 sampleArg = .ok (M', false) ∧ M'.functions.length = 4 ∧
      sampleArg.functions.length = 1 ∧ run 5 sampleArg = .ok (M', PreservedAnalyses.all) :=
  ⟨_, rfl, rfl, rfl, rfl⟩

/-- C6: for every module without load instructions, `runOnModule` (given fuel
for one visit of each function and the final test of the loop) returns the very
same module and the flag false, and `run` reports that all analyses are
preserved. -/
theorem no_loads_module_unchanged (M : Module) (fuel : Nat) (hn : M.noLoads)
    (hfuel : M.functions.length < fuel) :
    runOnModule fuel M = .ok (M, false) ∧ run fuel M = .ok (M, PreservedAnalyses.all) := by
  have h : runLoop fuel 0 M = .ok M := runLoop_noLoad fuel 0 M hn (by omega) (by omega)
  have h1 : runOnModule fuel M = .ok (M, false) := by
    simp only [runOnModule, h]
  exact ⟨h1, by simp only [run, h1]; rfl⟩

/-- C6, witness: `sampleNoLoad` has no load and is returned unchanged. -/
theorem no_loads_module_unchanged_witness :
    sampleNoLoad.noLoads ∧ sampleNoLoad.functions.length < 2 ∧
      runOnModule 2 sampleNoLoad = .ok (sampleNoLoad, false) ∧
      run 2 sampleNoLoad = .ok (sampleNoLoad, PreservedAnalyses.all) :=
  have hn : sampleNoLoad.noLoads := by
    intro F hF B hB I hI
    simp only [sampleNoLoad, List.mem_singleton] at hF
    subst hF
    simp only [List.mem_singleton] at hB
    subst hB
    simp only [List.mem_singleton] at hI
    subst hI
    rfl
  ⟨hn, by decide, no_loads_module_unchanged sampleNoLoad 2 hn (by decide)⟩

end LoadChecker

namespace LoadChecker

/-! ## C10: what a block gains -/

theorem expanded_counts {M0 Mfin : Module} {is os : List Instr} (h : Expanded M0 Mfin is os)
    (hid : ∀ I ∈ is, I.id < M0.nextId) :
    presentBefore M0.nextId os = is ∧
      (insertedSince M0.nextId os).countP Instr.isCall = is.countP Instr.isLoad ∧
      (insertedSince M0.nextId os).countP Instr.isICmp = is.countP Instr.isLoadOfValue ∧
      (insertedSince M0.nextId os).length = is.countP Instr.isLoad + is.countP Instr.isLoadOfValue := by
  induction h with
  | nil => simp [presentBefore, insertedSince]
  | @keep I is os hl _ ih =>
    have hI := hid I (List.mem_cons_self _ _)
    obtain ⟨i1, i2, i3, i4⟩ := ih (fun J hJ => hid J (List.mem_cons_of_mem _ hJ))
    have hv : I.isLoadOfValue = false := by
      unfold Instr.isLoad at hl
      unfold Instr.isLoadOfValue
      split <;> simp_all
    have hnot : ¬ M0.nextId ≤ I.id := by omega
    unfold presentBefore insertedSince at *
    simp only [List.filter_cons, hI, hnot, decide_True, decide_False, if_true,
      Bool.false_eq_true, if_false, List.countP_cons, hl, hv, Nat.add_zero]
    exact ⟨by rw [i1], i2, i3, i4⟩
  | @guard L addr M1 M2 pre is os hk r1 hi _ _ ih =>
    have hL := hid L (List.mem_cons_self _ _)
    obtain ⟨i1, i2, i3, i4⟩ := ih (fun J hJ => hid J (List.mem_cons_of_mem _ hJ))
    have hn1 := reach_nextId_le r1
    have hnot : ¬ M0.nextId ≤ L.id := by omega
    have hl : L.isLoad = true := by simp [Instr.isLoad, hk]
    have hv : L.isLoadOfValue = !addr.isConstant := by simp [Instr.isLoadOfValue, hk]
    obtain ⟨pty, g, _, hg, _, hpre⟩ := instrumentLoad_pre hi
    have hg0 : M0.nextId ≤ g := Nat.le_trans hn1 hg
    have hg1 : ¬ g < M0.nextId := by omega
    have hm1 : ¬ M1.nextId < M0.nextId := by omega
    unfold presentBefore insertedSince at *
    rcases hpre with ⟨hc, rfl⟩ | ⟨hc, _, rfl⟩
    · simp only [List.cons_append, List.nil_append, List.filter_cons, guardCall, hL, hnot, hg0,
        hg1, decide_True, decide_False, if_true, Bool.false_eq_true, if_false, List.countP_cons,
        hl, hv, hc, Instr.isCall, Instr.isICmp, Bool.not_true, List.length_cons]
      refine ⟨by rw [i1], ?_, ?_, ?_⟩ <;> omega
    · simp only [List.cons_append, List.nil_append, List.filter_cons, guardCall, hL, hnot, hg0,
        hg1, hn1, hm1, decide_True, decide_False, if_true, Bool.false_eq_true, if_false,
        List.countP_cons, hl, hv, hc, Instr.isCall, Instr.isICmp, Bool.not_false,
        List.length_cons]
      refine ⟨by rw [i1], ?_, ?_, ?_⟩ <;> omega

/-- C10, counterexample: the claim says every block gains exactly one comparison
instruction per load.  The only block of `sampleGlobal` has one load, through
the address of a global; the instrumented block has gained one instruction, the
guard call, and no comparison instruction. -/
theorem c10_counterexample :
    ∃ M' BB BB', runOnModule 5 sampleGlobal = .ok (M', false) ∧
      sampleGlobal.blockAt 0 0 = some BB ∧ M'.blockAt 0 0 = some BB' ∧
      BB.instrs.countP Instr.isLoad = 1 ∧
      (insertedSince sampleGlobal.nextId BB'.instrs).countP Instr.isICmp = 0 ∧
      BB'.instrs.length = BB.instrs.length + 1 :=
  ⟨_, _, _, rfl, rfl, rfl, by decide, by decide, by decide⟩

/-- C10, amended: for every block of a function of the input module whose
instructions all exist before the run (their identities lie below the module's
next fresh identity), the block at the same place of the output gains exactly
one call instruction per load it contains and one comparison instruction per
load whose address is not a constant, and nothing else: deleting the inserted
instructions gives back the input block's instruction sequence, every original
instruction unchanged and in the same order. -/
theorem block_gains_guards_only (fuel : Nat) (M M' : Module) (b : Bool)
    (h : runOnModule fuel M = .ok (M', b)) {i j : Nat} {F : Function} {BB : BasicBlock}
    (hF : M.functions.get? i = some F) (hB : F.blocks.get? j = some BB)
    (hid : ∀ I ∈ BB.instrs, I.id < M.nextId) :
    ∃ F' BB', M'.functions.get? i = some F' ∧ F'.name = F.name ∧
      F'.blocks.get? j = some BB' ∧ BB'.name = BB.name ∧
      presentBefore M.nextId BB'.instrs = BB.instrs ∧
      (insertedSince M.nextId BB'.instrs).countP Instr.isCall = BB.instrs.countP Instr.isLoad ∧
      (insertedSince M.nextId BB'.instrs).countP Instr.isICmp
        = BB.instrs.countP Instr.isLoadOfValue ∧
      (insertedSince M.nextId BB'.instrs).length
        = BB.instrs.countP Instr.isLoad + BB.instrs.countP Instr.isLoadOfValue := by
  obtain ⟨_, _, fs', new, hM', hfs, _⟩ := runOnModule_spec h
  obtain ⟨F', hF', hn, _, hbs⟩ := forall₂_get? hfs hF
  obtain ⟨BB', hB', hbn, hex⟩ := forall₂_get? hbs hB
  refine ⟨F', BB', ?_, hn, hB', hbn, expanded_counts hex hid⟩
  rw [hM']; exact get?_append_left' new hF'

/-- C10, witness: the amended statement at the only block of `sampleArg`. -/
theorem block_gains_guards_only_witness :
    ∃ M', runOnModule 5 sampleArg = .ok (M', false) ∧
      ∃ F' BB', M'.functions.get? 0 = some F' ∧ F'.name = "f" ∧
        F'.blocks.get? 0 = some BB' ∧ BB'.name = "entry" ∧
        presentBefore 2 BB'.instrs =
          [⟨0, .int 32, .load (.arg i32Ptr 0), some ⟨3, 7⟩⟩,
           ⟨1, .void, .ret (some (.inst (.int 32) 0)), none⟩] ∧
        (insertedSince 2 BB'.instrs).countP Instr.isCall = 1 ∧
        (insertedSince 2 BB'.instrs).countP Instr.isICmp = 1 ∧
        (insertedSince 2 BB'.instrs).length = 1 + 1 :=
  ⟨_, rfl, block_gains_guards_only 5 sampleArg _ false rfl
    (i := 0) (j := 0) rfl rfl (by decide)⟩

end LoadChecker

namespace LoadChecker

/-! ## Invariants of the traversal -/

theorem reach_invariant {P : Module → Prop}
    (hload : ∀ (M M1 : Module) (L : Instr) (addr : Value) (pre : List Instr),
      P M → instrumentLoad M L addr = .ok (M1, pre) → P M1)
    (hset : ∀ (M : Module) (i : Nat) (bs : List BasicBlock), P M → P (M.setBlocks i bs))
    {A B : Module} (h : Reach A B) (hA : P A) : P B := by
  induction h with
  | refl => exact hA
  | load h _ ih => exact ih (hload _ _ _ _ _ hA h)
  | setBlocks _ _ ih => exact ih (hset _ _ _ hA)

/-- An invariant of the traversal that may depend on what is written back into
a function without loads being the blocks it has. -/
theorem reach_invariant_blocks {P : Module → Prop}
    (hload : ∀ (M M1 : Module) (L : Instr) (addr : Value) (pre : List Instr),
      P M → instrumentLoad M L addr = .ok (M1, pre) → P M1)
    (hset : ∀ (M : Module) (i : Nat) (bs : List BasicBlock),
      (∀ F, M.functions.get? i = some F → F.noLoads → bs = F.blocks) →
      P M → P (M.setBlocks i bs))
    {A B : Module} (h : Reach A B) (hA : P A) : P B := by
  induction h with
  | refl => exact hA
  | load h _ ih => exact ih (hload _ _ _ _ _ hA h)
  | setBlocks hp _ ih => exact ih (hset _ _ _ hp hA)

theorem namesUnique_of_eq {M N : Module} (h : NamesUnique M)
    (hf : N.functions.map (fun F => F.name) = M.functions.map (fun F => F.name))
    (hg : N.globals.map (fun G => G.name) = M.globals.map (fun G => G.name)) :
    NamesUnique N := by
  unfold NamesUnique at *
  rw [hf, hg]; exact h

theorem namesUnique_append_function {M : Module} {F : Function} (h : NamesUnique M)
    (hnone : M.getNamedValue F.name = none) :
    NamesUnique { M with functions := M.functions ++ [F] } := by
  obtain ⟨hf, hg⟩ := (getNamedValue_none_iff M _).1 hnone
  unfold NamesUnique at *
  simp only [List.map_append, List.map_cons, List.map_nil]
  rw [List.nodup_append] at h ⊢
  obtain ⟨h1, h2, h3⟩ := h
  refine ⟨?_, h2, ?_⟩
  · rw [List.nodup_append]
    refine ⟨h1, List.nodup_singleton _, ?_⟩
    intro a ha hb
    simp only [List.mem_singleton] at hb
    simp only [List.mem_map] at ha
    obtain ⟨G, hG, rfl⟩ := ha
    exact hf G hG hb
  · intro a ha hb
    rcases List.mem_append.1 ha with ha | ha
    · exact h3 ha hb
    · simp only [List.mem_singleton] at ha
      simp only [List.mem_map] at hb
      obtain ⟨G, hG, rfl⟩ := hb
      exact hg G hG ha

theorem namesUnique_append_global {M : Module} {G : GlobalVariable} (h : NamesUnique M)
    (hnone : M.getNamedValue G.name = none) :
    NamesUnique { M with globals := M.globals ++ [G] } := by
  obtain ⟨hf, hg⟩ := (getNamedValue_none_iff M _).1 hnone
  unfold NamesUnique at *
  simp only [List.map_append, List.map_cons, List.map_nil]
  rw [List.nodup_append] at h ⊢
  obtain ⟨h1, h2, h3⟩ := h
  refine ⟨h1, ?_, ?_⟩
  · rw [List.nodup_append]
    refine ⟨h2, List.nodup_singleton _, ?_⟩
    intro a ha hb
    simp only [List.mem_singleton] at hb
    simp only [List.mem_map] at ha
    obtain ⟨H, hH, rfl⟩ := ha
    exact hg H hH hb
  · intro a ha hb
    rcases List.mem_append.1 hb with hb | hb
    · exact h3 ha hb
    · simp only [List.mem_singleton] at hb
      simp only [List.mem_map] at ha
      obtain ⟨H, hH, rfl⟩ := ha
      exact hf H hH hb

theorem getOrInsertFunction_namesUnique {M : Module} (name : String) (ty : FunctionType)
    (h : NamesUnique M) : NamesUnique (M.getOrInsertFunction name ty) := by
  cases hv : M.getNamedValue name with
  | some v => rw [getOrInsertFunction_some ty (by rw [hv]; simp)]; exact h
  | none =>
    rw [getOrInsertFunction_none ty hv]
    exact namesUnique_append_function (F := ⟨name, ty, [], [], []⟩) h hv

theorem updateFunction_names (M : Module) (name : String) {f : Function → Function}
    (hf : ∀ F, (f F).name = F.name) :
    (M.updateFunction name f).functions.map (fun F => F.name)
      = M.functions.map (fun F => F.name) := by
  simp only [Module.updateFunction, List.map_map]
  apply List.map_congr_left
  intro F _
  simp only [Function.comp]
  split <;> simp [hf]

theorem setInitializer_names (M : Module) (name : String) (c : Constant) :
    (M.setInitializer name c).globals.map (fun G => G.name)
      = M.globals.map (fun G => G.name) := by
  simp only [Module.setInitializer, List.map_map]
  apply List.map_congr_left
  intro G _
  simp only [Function.comp]
  split <;> rfl

theorem getOrInsertGlobal_namesUnique {M Mr : Module} {name g : String} {ty : Ty}
    (hr : M.getOrInsertGlobal name ty = .ok (Mr, g)) (h : NamesUnique M) : NamesUnique Mr := by
  unfold Module.getOrInsertGlobal at hr
  split at hr
  · rename_i hv
    injection hr with hr
    injection hr with hr _
    subst hr
    exact namesUnique_append_global (G := ⟨name, ty, none⟩) h hv
  · split at hr
    · injection hr with hr; injection hr with hr _; subst hr; exact h
    · cases hr
  · injection hr with hr
    injection hr with hr _
    subst hr
    have hu := namesUnique_append_global (G := ⟨(M.makeUniqueName name).1, ty, none⟩) h
      (makeUniqueName_free M name)
    exact namesUnique_of_eq hu rfl rfl

theorem withPrintf_namesUnique {M : Module} (h : NamesUnique M) : NamesUnique (withPrintf M) := by
  have h1 := getOrInsertFunction_namesUnique "printf" printfTy h
  exact namesUnique_of_eq h1 (updateFunction_names _ _ (fun F => rfl)) rfl

theorem instrumentLoad_namesUnique (M M1 : Module) (L : Instr) (addr : Value)
    (pre : List Instr) (hu : NamesUnique M) (h : instrumentLoad M L addr = .ok (M1, pre)) :
    NamesUnique M1 := by
  obtain ⟨pty, Mg, _, rfl, _, hc⟩ := instrumentLoad_cases h
  rcases hc with ⟨_, rfl⟩ | ⟨hnone, Mr, g, hr, _, rfl⟩
  · exact hu
  · have h0 := namesUnique_append_function (M := M) (F := guardFn (cmpOf M L addr pty).1
        (cmpOf M L addr pty).2.2 L.dbg g) hu hnone
    have h1 : NamesUnique (withGuard { M with nextId := (cmpOf M L addr pty).2.2 }
        (cmpOf M L addr pty).1 L.dbg g) := namesUnique_of_eq h0 rfl rfl
    have h2 := getOrInsertGlobal_namesUnique hr (withPrintf_namesUnique h1)
    have h3 : NamesUnique (Mr.setInitializer g (.cstring (errorMsg L.dbg))) :=
      namesUnique_of_eq h2 rfl (setInitializer_names _ _ _)
    exact getOrInsertFunction_namesUnique "exit" exitTy h3

theorem setBlocks_namesUnique (M : Module) (i : Nat) (bs : List BasicBlock)
    (h : NamesUnique M) : NamesUnique (M.setBlocks i bs) :=
  namesUnique_of_eq h (setBlocksAt_name i bs M.functions) rfl

theorem reach_namesUnique {A B : Module} (h : Reach A B) (hA : NamesUnique A) : NamesUnique B :=
  reach_invariant instrumentLoad_namesUnique setBlocks_namesUnique h hA

theorem namesUnique_countP_le_one {M : Module} (h : NamesUnique M) (n : String) :
    M.functions.countP (fun F => F.name == n) ≤ 1 := by
  unfold NamesUnique at h
  have h1 : (M.functions.map (fun F => F.name)).Nodup := (List.nodup_append.1 h).1
  have h2 := List.nodup_iff_count_le_one.1 h1 n
  rw [List.count, List.countP_map] at h2
  exact h2

end LoadChecker

namespace LoadChecker

/-! ## C9: the external declarations -/

/-- C9: after `runOnModule` on any module whose symbol names are unique (as they
are in every module of the host), symbol names are still unique; in particular
the output has at most one function named `printf` and at most one named
`exit`, however many guard functions were built. -/
theorem printf_and_exit_declared_once (fuel : Nat) (M M' : Module) (b : Bool)
    (h : runOnModule fuel M = .ok (M', b)) (hu : NamesUnique M) :
    NamesUnique M' ∧ M'.functions.countP (fun F => F.name == "printf") ≤ 1 ∧
      M'.functions.countP (fun F => F.name == "exit") ≤ 1 := by
  have hu' := reach_namesUnique (runOnModule_spec h).2.1 hu
  exact ⟨hu', namesUnique_countP_le_one hu' _, namesUnique_countP_le_one hu' _⟩

/-- C9, witness: `sampleTwo` has loads at two locations; two guard functions
are built and the output has one `printf` and one `exit`. -/
theorem printf_and_exit_declared_once_witness :
    ∃ M', runOnModule 6 sampleTwo = .ok (M', false) ∧ NamesUnique sampleTwo ∧
      M'.functions.map (fun F => F.name)
        = ["f", "nullChecker_3_7", "printf", "exit", "nullChecker_4_2"] ∧
      NamesUnique M' ∧ M'.functions.countP (fun F => F.name == "printf") ≤ 1 ∧
      M'.functions.countP (fun F => F.name == "exit") ≤ 1 :=
  ⟨_, rfl, by decide, by decide,
    printf_and_exit_declared_once 6 sampleTwo _ false rfl (by decide)⟩

end LoadChecker

namespace LoadChecker

/-! ## Guard functions and their diagnostic globals -/

theorem getOrInsertFunction_fnames_mem {M : Module} {name : String} {ty : FunctionType}
    {n : String} (h : n ∈ (M.getOrInsertFunction name ty).functions.map (fun F => F.name)) :
    n ∈ M.functions.map (fun F => F.name) ∨ n = name := by
  unfold Module.getOrInsertFunction at h
  split at h
  · exact Or.inl h
  · simp only [List.map_append, List.map_cons, List.map_nil, List.mem_append,
      List.mem_singleton] at h
    exact h

theorem getNamedValue_globalVariable {M : Module} {name : String} {G : GlobalVariable}
    (h : M.getNamedValue name = some (.globalVariable G)) : G ∈ M.globals ∧ G.name = name := by
  unfold Module.getNamedValue at h
  split at h
  · cases h
  · split at h
    · rename_i G' hG
      injection h with h
      injection h with h
      subst h
      have := List.find?_some hG
      exact ⟨List.mem_of_find?_eq_some hG, by simpa using this⟩
    · cases h

/-- What `getOrInsertGlobal` does to the globals, and the name it returns. -/
theorem getOrInsertGlobal_globals {M Mr : Module} {name g : String} {ty : Ty}
    (hr : M.getOrInsertGlobal name ty = .ok (Mr, g)) :
    ((∀ F ∈ M.functions, F.name ≠ name) ∧ g = name ∧
      ((Mr.globals = M.globals ++ [⟨g, ty, none⟩] ∧ ∀ G ∈ M.globals, G.name ≠ g) ∨
       (Mr.globals = M.globals ∧ ∃ G ∈ M.globals, G.name = g ∧ G.valueType = ty))) ∨
    ((∃ F ∈ M.functions, F.name = name) ∧ (∃ u : Nat, g = name ++ "." ++ toString u) ∧
      Mr.globals = M.globals ++ [⟨g, ty, none⟩] ∧ ∀ G ∈ M.globals, G.name ≠ g) := by
  unfold Module.getOrInsertGlobal at hr
  split at hr
  · rename_i hv
    injection hr with hr
    injection hr with h1 h2
    subst h1; subst h2
    obtain ⟨hf, hg⟩ := (getNamedValue_none_iff M _).1 hv
    exact Or.inl ⟨hf, rfl, Or.inl ⟨rfl, hg⟩⟩
  · rename_i G hv
    split at hr
    · rename_i hty
      injection hr with hr
      injection hr with h1 h2
      subst h1; subst h2
      obtain ⟨hG, hn⟩ := getNamedValue_globalVariable hv
      refine Or.inl ⟨?_, rfl, Or.inr ⟨rfl, G, hG, hn, hty⟩⟩
      intro F hF e
      unfold Module.getNamedValue at hv
      cases hfind : M.functions.find? (fun F => F.name == name) with
      | some F' => simp [hfind] at hv
      | none =>
        have := List.find?_eq_none.1 hfind F hF
        simp [e] at this
    · cases hr
  · rename_i F hv
    injection hr with hr
    injection hr with h1 h2
    subst h1; subst h2
    have hf := getNamedValue_function hv
    have hn := List.find?_some hf
    simp only [beq_iff_eq] at hn
    obtain ⟨u, _, hu⟩ := makeUniqueName_form M name
    refine Or.inr ⟨⟨F, List.mem_of_find?_eq_some hf, hn⟩, ⟨u, by rw [hu]⟩, rfl, ?_⟩
    exact ((getNamedValue_none_iff M _).1 (makeUniqueName_free M name)).2

theorem withPrintf_globals (M : Module) : (withPrintf M).globals = M.globals := by
  simp [withPrintf, Module.updateFunction, getOrInsertFunction_globals]

theorem withPrintf_fnames_mem {M : Module} {n : String}
    (h : n ∈ (withPrintf M).functions.map (fun F => F.name)) :
    n ∈ M.functions.map (fun F => F.name) ∨ n = "printf" := by
  unfold withPrintf at h
  rw [updateFunction_names (M.getOrInsertFunction "printf" printfTy) "printf" (f := printfAttrs)
    (fun F => rfl)] at h
  exact getOrInsertFunction_fnames_mem h

theorem getOrInsertFunction_mem {M : Module} {name : String} {ty : FunctionType} {F : Function}
    (h : F ∈ (M.getOrInsertFunction name ty).functions) :
    F ∈ M.functions ∨ F = ⟨name, ty, [], [], []⟩ := by
  unfold Module.getOrInsertFunction at h
  split at h
  · exact Or.inl h
  · simp only [List.mem_append, List.mem_singleton] at h
    exact h

theorem mem_getOrInsertFunction {M : Module} (name : String) (ty : FunctionType) {F : Function}
    (h : F ∈ M.functions) : F ∈ (M.getOrInsertFunction name ty).functions := by
  unfold Module.getOrInsertFunction
  split
  · exact h
  · exact List.mem_append_left _ h

/-- The module after a load whose guard function the pass builds: where its
functions come from, the guard function with its blocks, the diagnostic
variable `g` the guard prints, and the globals. -/
theorem instrumentLoad_built {M M1 : Module} {L : Instr} {addr : Value} {pre : List Instr}
    (h : instrumentLoad M L addr = .ok (M1, pre))
    (hnot : funcName L.dbg ∉ M.functions.map (fun F => F.name)) :
    ∃ cmp n g gs,
      (∀ F ∈ M1.functions,
        (∃ G ∈ M.functions, F = G ∨ (G.name = "printf" ∧ F = printfAttrs G)) ∨
        F = guardFn cmp n L.dbg g ∨ F = printfAttrs ⟨"printf", printfTy, [], [], []⟩ ∨
        F = ⟨"exit", exitTy, [], [], []⟩) ∧
      guardFn cmp n L.dbg g ∈ M1.functions ∧ cmp.type = .int 1 ∧
      (∀ F ∈ M.functions, ∃ F' ∈ M1.functions, F'.name = F.name) ∧
      ((gs = M.globals ++ [⟨g, errorMsgTy L.dbg, none⟩] ∧ ∀ G ∈ M.globals, G.name ≠ g) ∨
        (gs = M.globals ∧ ∃ G ∈ M.globals, G.name = g ∧ G.valueType = errorMsgTy L.dbg)) ∧
      M1.globals = gs.map (fun G => if G.name = g then
        { G with initializer := some (.cstring (errorMsg L.dbg)) } else G) ∧
      (((∀ F ∈ M.functions, F.name ≠ gblVarName L.dbg) ∧ g = gblVarName L.dbg) ∨
        ((∃ F ∈ M.functions, F.name = gblVarName L.dbg) ∧
          ∃ u : Nat, g = gblVarName L.dbg ++ "." ++ toString u)) := by
  obtain ⟨pty, Mg, _, rfl, _, hc⟩ := instrumentLoad_cases h
  rcases hc with ⟨⟨F, hF, hn⟩, rfl⟩ | ⟨hnone, Mr, g, hr, _, rfl⟩
  · exact absurd (List.mem_map.2 ⟨F, hF, hn⟩) hnot
  · have hfun := getOrInsertGlobal_functions hr
    have hWmem : ∀ F, F ∈ (withPrintf (withGuard { M with nextId := (cmpOf M L addr pty).2.2 }
        (cmpOf M L addr pty).1 L.dbg g)).functions ↔
        ∃ G, (G ∈ M.functions ∨ G = guardFn (cmpOf M L addr pty).1 (cmpOf M L addr pty).2.2
              L.dbg g ∨
            (G = ⟨"printf", printfTy, [], [], []⟩ ∧
              G ∈ ((withGuard { M with nextId := (cmpOf M L addr pty).2.2 }
                (cmpOf M L addr pty).1 L.dbg g).getOrInsertFunction "printf"
                  printfTy).functions)) ∧
          F = if G.name = "printf" then printfAttrs G else G := by
      intro F
      simp only [withPrintf, Module.updateFunction, List.mem_map]
      constructor
      · rintro ⟨G, hG, rfl⟩
        refine ⟨G, ?_, rfl⟩
        rcases getOrInsertFunction_mem hG with hG' | hG'
        · simp only [withGuard, List.mem_append, List.mem_singleton] at hG'
          rcases hG' with hG' | hG'
          · exact Or.inl hG'
          · exact Or.inr (Or.inl hG')
        · exact Or.inr (Or.inr ⟨hG', hG⟩)
      · rintro ⟨G, hG, rfl⟩
        refine ⟨G, ?_, rfl⟩
        rcases hG with hG | hG | ⟨_, hG⟩
        · exact mem_getOrInsertFunction _ _ (by simp [withGuard, hG])
        · exact mem_getOrInsertFunction _ _ (by simp [withGuard, hG])
        · exact hG
    have hgn : (guardFn (cmpOf M L addr pty).1 (cmpOf M L addr pty).2.2 L.dbg g).name
        ≠ "printf" := funcName_ne_printf _
    have hWfun : ∀ F ∈ (withPrintf (withGuard { M with nextId := (cmpOf M L addr pty).2.2 }
        (cmpOf M L addr pty).1 L.dbg g)).functions, F.name = gblVarName L.dbg →
        ∃ G ∈ M.functions, G.name = gblVarName L.dbg := by
      intro F hF hFn
      obtain ⟨G, hG, rfl⟩ := (hWmem F).1 hF
      have hGn : G.name = gblVarName L.dbg := by
        split at hFn
        · exact hFn
        · exact hFn
      rcases hG with hG | rfl | ⟨rfl, _⟩
      · exact ⟨G, hG, hGn⟩
      · exact absurd hGn.symm (gblVarName_ne_funcName _ _)
      · exact absurd hGn.symm (gblVarName_ne_printf _)
    have hWfun' : ∀ G ∈ M.functions, G.name = gblVarName L.dbg →
        ∃ F ∈ (withPrintf (withGuard { M with nextId := (cmpOf M L addr pty).2.2 }
          (cmpOf M L addr pty).1 L.dbg g)).functions, F.name = gblVarName L.dbg := by
      intro G hG hGn
      refine ⟨_, (hWmem _).2 ⟨G, Or.inl hG, rfl⟩, ?_⟩
      split <;> exact hGn
    have hglob : (withPrintf (withGuard { M with nextId := (cmpOf M L addr pty).2.2 }
        (cmpOf M L addr pty).1 L.dbg g)).globals = M.globals := by
      rw [withPrintf_globals]; rfl
    refine ⟨(cmpOf M L addr pty).1, (cmpOf M L addr pty).2.2, g, Mr.globals, ?_, ?_,
      cmpOf_type M L addr pty, ?_, ?_, ?_, ?_⟩
    · intro F hF
      simp only [] at hF
      rcases getOrInsertFunction_mem hF with hF | hF
      · simp only [Module.setInitializer] at hF
        rw [hfun] at hF
        obtain ⟨G, hG, rfl⟩ := (hWmem F).1 hF
        rcases hG with hG | rfl | ⟨rfl, _⟩
        · left
          refine ⟨G, hG, ?_⟩
          by_cases hn : G.name = "printf"
          · exact Or.inr ⟨hn, by simp [hn]⟩
          · exact Or.inl (by simp [hn])
        · right; left
          simp [hgn]
        · right; right; left
          simp
      · exact Or.inr (Or.inr (Or.inr hF))
    · simp only []
      apply mem_getOrInsertFunction
      simp only [Module.setInitializer]
      rw [hfun]
      exact (hWmem _).2 ⟨_, Or.inr (Or.inl rfl), by simp [hgn]⟩
    · intro F hF
      refine ⟨if F.name = "printf" then printfAttrs F else F, ?_, ?_⟩
      · simp only []
        apply mem_getOrInsertFunction
        simp only [Module.setInitializer]
        rw [hfun]
        exact (hWmem _).2 ⟨F, Or.inl hF, rfl⟩
      · split <;> rfl
    · rcases getOrInsertGlobal_globals hr with ⟨_, _, h1 | h1⟩ | ⟨_, _, h1⟩
      · left; rw [hglob] at h1; exact h1
      · right; rw [hglob] at h1; exact h1
      · left; rw [hglob] at h1; exact h1
    · simp only [getOrInsertFunction_globals, Module.setInitializer]
    · rcases getOrInsertGlobal_globals hr with ⟨h1, h2, _⟩ | ⟨⟨F, hF, hFn⟩, h2, _⟩
      · left
        refine ⟨?_, h2⟩
        intro F hF hFn
        obtain ⟨F', hF', hn'⟩ := hWfun' F hF hFn
        exact h1 F' hF' hn'
      · right
        exact ⟨hWfun F hF hFn, h2⟩

theorem diagName_cases {M0 : Module} {k : Option DebugLoc} {g : String}
    (h : DiagName M0 k g) : g = gblVarName k ∨ ∃ u : Nat, g = gblVarName k ++ "." ++ toString u := by
  by_cases hm : gblVarName k ∈ M0.functions.map (fun F => F.name)
  · exact Or.inr (h.2 hm)
  · exact Or.inl (h.1 hm)

theorem instrumentLoad_guardLinked (M0 : Module) (M M1 : Module) (L : Instr) (addr : Value)
    (pre : List Instr) (hinv : GuardLinked M0 M) (h : instrumentLoad M L addr = .ok (M1, pre)) :
    GuardLinked M0 M1 := by
  obtain ⟨hsub, hsup, hlink⟩ := hinv
  by_cases hex : funcName L.dbg ∈ M.functions.map (fun F => F.name)
  · obtain ⟨hf, hg⟩ := instrumentLoad_existing hex h
    refine ⟨?_, ?_, ?_⟩
    · rw [hf]; exact hsub
    · rw [hf]; exact hsup
    · rw [hf, hg]; exact hlink
  · obtain ⟨cmp, n, g, gs, hmem, hgin, hcty, hkeep, hgs, hglob, hname⟩ :=
      instrumentLoad_built h hex
    have hL0 : funcName L.dbg ∉ M0.functions.map (fun F => F.name) :=
      fun hm => hex (hsub _ hm)
    have hdiag : DiagName M0 L.dbg g := by
      have hiff : gblVarName L.dbg ∈ M0.functions.map (fun F => F.name) ↔
          ∃ F ∈ M.functions, F.name = gblVarName L.dbg := by
        constructor
        · intro hm
          obtain ⟨F, hF, hn⟩ := List.mem_map.1 (hsub _ hm)
          exact ⟨F, hF, hn⟩
        · rintro ⟨F, hF, hn⟩
          rcases hsup _ (List.mem_map.2 ⟨F, hF, hn⟩) with h1 | ⟨k', h1⟩ | h1 | h1
          · exact h1
          · exact absurd h1 (gblVarName_ne_funcName _ _)
          · exact absurd h1 (gblVarName_ne_printf _)
          · exact absurd h1 (gblVarName_ne_exit _)
      rcases hname with ⟨h1, h2⟩ | ⟨h1, h2⟩
      · exact ⟨fun _ => h2, fun hm => by
          obtain ⟨F, hF, hn⟩ := hiff.1 hm
          exact absurd hn (h1 F hF)⟩
      · exact ⟨fun hm => absurd (hiff.2 h1) hm, fun _ => h2⟩
    have hgG : ∃ G ∈ gs, G.name = g ∧ G.valueType = errorMsgTy L.dbg := by
      rcases hgs with ⟨rfl, _⟩ | ⟨rfl, G, hG, hn, hty⟩
      · exact ⟨⟨g, errorMsgTy L.dbg, none⟩, by simp, rfl, rfl⟩
      · exact ⟨G, hG, hn, hty⟩
    refine ⟨?_, ?_, ?_⟩
    · intro m hm
      obtain ⟨F, hF, rfl⟩ := List.mem_map.1 (hsub m hm)
      obtain ⟨F', hF', hn'⟩ := hkeep F hF
      exact List.mem_map.2 ⟨F', hF', hn'⟩
    · intro m hm
      obtain ⟨F, hF, rfl⟩ := List.mem_map.1 hm
      rcases hmem F hF with ⟨G, hG, rfl | ⟨_, rfl⟩⟩ | rfl | rfl | rfl
      · exact hsup _ (List.mem_map.2 ⟨F, hG, rfl⟩)
      · exact hsup _ (List.mem_map.2 ⟨G, hG, rfl⟩)
      · exact Or.inr (Or.inl ⟨L.dbg, rfl⟩)
      · exact Or.inr (Or.inr (Or.inl rfl))
      · exact Or.inr (Or.inr (Or.inr rfl))
    · intro k hk0 Fg hFg hFgn
      by_cases hkL : k = L.dbg
      · subst hkL
        have hFg' : Fg = guardFn cmp n L.dbg g := by
          rcases hmem Fg hFg with ⟨G, hG, rfl | ⟨_, rfl⟩⟩ | rfl | rfl | rfl
          · exact absurd (List.mem_map.2 ⟨Fg, hG, hFgn⟩) hex
          · exact absurd (List.mem_map.2 ⟨G, hG, hFgn⟩) hex
          · rfl
          · exact absurd hFgn.symm (funcName_ne_printf _)
          · exact absurd hFgn.symm (funcName_ne_exit _)
        subst hFg'
        obtain ⟨G, hG, hGn, hGt⟩ := hgG
        refine ⟨n, g, rfl, hdiag, ?_, ?_⟩
        · refine ⟨{ G with initializer := some (.cstring (errorMsg L.dbg)) }, ?_, hGn, hGt, rfl⟩
          rw [hglob]
          exact List.mem_map.2 ⟨G, hG, by simp [hGn]⟩
        · intro G' hG' hn'
          rw [hglob] at hG'
          obtain ⟨G0, _, rfl⟩ := List.mem_map.1 hG'
          by_cases hG0 : G0.name = g
          · simp [hG0]
          · simp only [hG0, if_false] at hn'
      · have hFgM : Fg ∈ M.functions := by
          rcases hmem Fg hFg with ⟨G, hG, rfl | ⟨hGn, rfl⟩⟩ | rfl | rfl | rfl
          · exact hG
          · exact absurd (hFgn.symm.trans hGn) (funcName_ne_printf _)
          · exact absurd (funcName_injective hFgn.symm) hkL
          · exact absurd hFgn.symm (funcName_ne_printf _)
          · exact absurd hFgn.symm (funcName_ne_exit _)
        obtain ⟨n', g', hb, hd', ⟨G, hG, hGn, hGt, hGi⟩, hall⟩ := hlink k hk0 Fg hFgM hFgn
        have hne : g' ≠ g := diagName_ne hkL (diagName_cases hd') (diagName_cases hdiag)
        have hsubg : ∀ G ∈ M.globals, G ∈ gs := by
          intro G hG
          rcases hgs with ⟨rfl, _⟩ | ⟨rfl, _⟩
          · exact List.mem_append_left _ hG
          · exact hG
        refine ⟨n', g', hb, hd', ⟨G, ?_, hGn, hGt, hGi⟩, ?_⟩
        · rw [hglob]
          exact List.mem_map.2 ⟨G, hsubg G hG, by simp [hGn, hne]⟩
        · intro G' hG' hn'
          rw [hglob] at hG'
          obtain ⟨G0, hG0, rfl⟩ := List.mem_map.1 hG'
          have hG0n : G0.name = g' := by
            split at hn' <;> exact hn'
          have hG0g : G0.name ≠ g := by rw [hG0n]; exact hne
          simp only [hG0g, if_false]
          have hG0M : G0 ∈ M.globals := by
            rcases hgs with ⟨rfl, _⟩ | ⟨rfl, _⟩
            · rcases List.mem_append.1 hG0 with hG0 | hG0
              · exact hG0
              · simp only [List.mem_singleton] at hG0
                subst hG0
                exact absurd rfl hG0g
            · exact hG0
          exact hall G0 hG0M hG0n

theorem setBlocks_guardLinked (M0 : Module) (M : Module) (i : Nat) (bs : List BasicBlock)
    (hp : ∀ F, M.functions.get? i = some F → F.noLoads → bs = F.blocks)
    (h : GuardLinked M0 M) : GuardLinked M0 (M.setBlocks i bs) := by
  obtain ⟨hsub, hsup, hlink⟩ := h
  refine ⟨?_, ?_, ?_⟩
  · simp only [Module.setBlocks, setBlocksAt_name]; exact hsub
  · simp only [Module.setBlocks, setBlocksAt_name]; exact hsup
  · intro k hk0 Fg hFg hFgn
    rcases mem_setBlocksAt i M.functions hFg with hFg | ⟨F, hF, rfl⟩
    · exact hlink k hk0 Fg hFg hFgn
    · obtain ⟨n, g, hb, rest⟩ := hlink k hk0 F (List.get?_mem hF) hFgn
      have hno : F.noLoads := by
        unfold Function.noLoads
        rw [hb]
        exact guardBlocks_noLoad n k g
      have e := hp F hF hno
      exact ⟨n, g, by rw [e]; exact hb, rest⟩

theorem reach_guardLinked {M0 M : Module} (h : Reach M0 M) : GuardLinked M0 M :=
  reach_invariant_blocks (P := GuardLinked M0) (instrumentLoad_guardLinked M0)
    (setBlocks_guardLinked M0) h
    ⟨fun _ hn => hn, fun _ hn => Or.inl hn,
     fun _ hk0 Fg hFg hn => absurd (List.mem_map.2 ⟨Fg, hFg, hn⟩) hk0⟩

theorem forall₂_instrumentedFn_name {M0 Mfin : Module} {as bs : List Function}
    (h : List.Forall₂ (InstrumentedFn M0 Mfin) as bs) :
    bs.map (fun F => F.name) = as.map (fun F => F.name) := by
  induction h with
  | nil => rfl
  | cons hab _ ih => simp [hab.1, ih]

/-- The guard function of a load of the input whose guard function name is
not taken by a function of the input, the diagnostic variable its blocks print,
and the text that variable holds. -/
theorem guard_of_load {fuel : Nat} {M M' : Module} {b : Bool}
    (h : runOnModule fuel M = .ok (M', b)) {i j k : Nat} {F : Function} {BB : BasicBlock}
    {L : Instr} {addr : Value} (hF : M.functions.get? i = some F) (hB : F.blocks.get? j = some BB)
    (hI : BB.instrs.get? k = some L) (hk : L.kind = .load addr)
    (hnew : funcName L.dbg ∉ M.functions.map (fun F => F.name)) :
    ∃ n g, DiagName M L.dbg g ∧
      (∃ Fg ∈ M'.functions, Fg.name = funcName L.dbg ∧ Fg.type = ⟨.void, [.int 1], false⟩ ∧
        Fg.blocks = guardBlocks n L.dbg g) ∧
      (∃ G ∈ M'.globals, G.name = g ∧ G.valueType = errorMsgTy L.dbg ∧
        G.initializer = some (.cstring (errorMsg L.dbg))) ∧
      ∀ G ∈ M'.globals, G.name = g → G.initializer = some (.cstring (errorMsg L.dbg)) := by
  obtain ⟨_, hreach, fs', new, hM', hfs, hnewfn⟩ := runOnModule_spec h
  obtain ⟨_, _, _, _, _, M1, M2, _, _, _, _, _, _, _, _, hi, r2⟩ := load_site h hF hB hI hk
  have hg : funcName L.dbg ∈ M'.functions.map (fun F => F.name) :=
    reach_name_mem r2 (instrumentLoad_guard_exists hi)
  obtain ⟨Fg, hFg, hn⟩ := List.mem_map.1 hg
  obtain ⟨n, g, hb, hd, hG, hall⟩ := (reach_guardLinked hreach).2.2 L.dbg hnew Fg hFg hn
  refine ⟨n, g, hd, ⟨Fg, hFg, hn, ?_, hb⟩, hG, hall⟩
  rw [hM'] at hFg
  rcases List.mem_append.1 hFg with hFg' | hFg'
  · exfalso
    apply hnew
    rw [← forall₂_instrumentedFn_name hfs, ← hn]
    exact List.mem_map.2 ⟨Fg, hFg', rfl⟩
  · rcases hnewfn Fg hFg' with ⟨_, _, _, _, hty, _⟩ | ⟨hn', _, _⟩ | ⟨hn', _, _⟩
    · exact hty
    · exact absurd (hn.symm.trans hn') (funcName_ne_printf _)
    · exact absurd (hn.symm.trans hn') (funcName_ne_exit _)

end LoadChecker

namespace LoadChecker

/-! ## C7, C8: texts and names -/

theorem errorMsg_text (k : Option DebugLoc) :
    errorMsg k =
      (match k with
       | some d => "Trying to load a NULL pointer at line " ++ toString d.line ++ ", col "
           ++ toString d.col ++ ". Exiting early.\n"
       | none => "Trying to load a NULL pointer. Exiting early.\n") := by
  cases k <;> rfl

theorem funcName_text (k : Option DebugLoc) :
    funcName k =
      (match k with
       | some d => "nullChecker_" ++ toString d.line ++ "_" ++ toString d.col
       | none => "nullChecker") := by
  cases k <;> rfl

theorem gblVarName_text (k : Option DebugLoc) :
    gblVarName k =
      (match k with
       | some d => "ErrorMsg_" ++ toString d.line ++ "_" ++ toString d.col
       | none => "ErrorMsg") := by
  cases k <;> rfl

/-- The guard call in front of a load of the input. -/
theorem call_before_load {fuel : Nat} {M M' : Module} {b : Bool}
    (h : runOnModule fuel M = .ok (M', b)) {i j k : Nat} {F : Function} {BB : BasicBlock}
    {L : Instr} {addr : Value} (hF : M.functions.get? i = some F) (hB : F.blocks.get? j = some BB)
    (hI : BB.instrs.get? k = some L) (hk : L.kind = .load addr) :
    ∃ F' BB' p call args, M'.functions.get? i = some F' ∧ F'.blocks.get? j = some BB' ∧
      BB'.instrs.get? p = some call ∧ BB'.instrs.get? (p + 1) = some L ∧
      call.kind = .call (funcName L.dbg) args ∧
      ∃ G ∈ M'.functions, G.name = funcName L.dbg := by
  obtain ⟨F', BB', front, back, pre, M1, M2, hF', _, hB', _, hos, _, _, _, hi, r2⟩ :=
    load_site h hF hB hI hk
  have hg : funcName L.dbg ∈ M'.functions.map (fun F => F.name) :=
    reach_name_mem r2 (instrumentLoad_guard_exists hi)
  simp only [List.mem_map] at hg
  obtain ⟨pty, g, _, _, _, hpre⟩ := instrumentLoad_pre hi
  rcases hpre with ⟨_, rfl⟩ | ⟨_, _, rfl⟩
  · refine ⟨F', BB', front.length, guardCall L g (.icmpEq addr (.nullPtr pty)),
      [.icmpEq addr (.nullPtr pty)], hF', hB', ?_, ?_, rfl, hg⟩
    · rw [hos, ← Nat.add_zero front.length, get?_append_add]; rfl
    · rw [hos, get?_append_add]; rfl
  · refine ⟨F', BB', front.length + 1, guardCall L g (.inst (.int 1) M1.nextId),
      [.inst (.int 1) M1.nextId], hF', hB', ?_, ?_, rfl, hg⟩
    · rw [hos, get?_append_add]; rfl
    · rw [hos, Nat.add_assoc, get?_append_add]; rfl

/-- C7: for every load of the input whose guard function is not already a
function of the input module (so the pass builds it and creates the diagnostic
global), the output has the diagnostic global of the load's location (named
`ErrorMsg...` after the location, or, when a function of the input has that
name, that name followed by a dot and a number), and it holds exactly the text
`Trying to load a NULL pointer at line L, col C. Exiting early.\n` with the
line and column in decimal when the load has a debug location, and `Trying to
load a NULL pointer. Exiting early.\n` when it has none. -/
theorem diagnostic_global_text (fuel : Nat) (M M' : Module) (b : Bool)
    (h : runOnModule fuel M = .ok (M', b)) {i j k : Nat} {F : Function} {BB : BasicBlock}
    {L : Instr} {addr : Value} (hF : M.functions.get? i = some F) (hB : F.blocks.get? j = some BB)
    (hI : BB.instrs.get? k = some L) (hk : L.kind = .load addr)
    (hnew : funcName L.dbg ∉ M.functions.map (fun F => F.name)) :
    ∃ g, (gblVarName L.dbg ∉ M.functions.map (fun F => F.name) → g = gblVarName L.dbg) ∧
      (gblVarName L.dbg ∈ M.functions.map (fun F => F.name) →
        ∃ u : Nat, g = gblVarName L.dbg ++ "." ++ toString u) ∧
      (∃ G ∈ M'.globals, G.name = g) ∧
      ∀ G ∈ M'.globals, G.name = g →
        G.initializer = some (.cstring
          (match L.dbg with
           | some d => "Trying to load a NULL pointer at line " ++ toString d.line ++ ", col "
               ++ toString d.col ++ ". Exiting early.\n"
           | none => "Trying to load a NULL pointer. Exiting early.\n")) := by
  obtain ⟨_, g, hd, _, ⟨G, hG, hn, _, _⟩, hall⟩ := guard_of_load h hF hB hI hk hnew
  refine ⟨g, hd.1, hd.2, ⟨G, hG, hn⟩, ?_⟩
  intro G' hG' hn'
  have := hall G' hG' hn'
  rw [errorMsg_text] at this
  exact this

/-- C7, witness: the two diagnostic globals of `sampleTwo`, and the one without
location of `sampleGlobal`. -/
theorem diagnostic_global_text_witness :
    (∃ M', runOnModule 6 sampleTwo = .ok (M', false) ∧
      M'.globals.map (fun G => G.name) = ["ErrorMsg_3_7", "ErrorMsg_4_2"] ∧
      ∃ g, (gblVarName (some ⟨4, 2⟩) ∉ sampleTwo.functions.map (fun F => F.name) →
          g = gblVarName (some ⟨4, 2⟩)) ∧
        (gblVarName (some ⟨4, 2⟩) ∈ sampleTwo.functions.map (fun F => F.name) →
          ∃ u : Nat, g = gblVarName (some ⟨4, 2⟩) ++ "." ++ toString u) ∧
        (∃ G ∈ M'.globals, G.name = g) ∧
        ∀ G ∈ M'.globals, G.name = g → G.initializer = some (.cstring
          "Trying to load a NULL pointer at line 4, col 2. Exiting early.\n")) ∧
    (∃ M', runOnModule 5 sampleGlobal = .ok (M', false) ∧
      M'.globals.map (fun G => G.name) = ["g", "ErrorMsg"] ∧
      ∃ g, (gblVarName none ∉ sampleGlobal.functions.map (fun F => F.name) →
          g = gblVarName none) ∧
        (gblVarName none ∈ sampleGlobal.functions.map (fun F => F.name) →
          ∃ u : Nat, g = gblVarName none ++ "." ++ toString u) ∧
        (∃ G ∈ M'.globals, G.name = g) ∧
        ∀ G ∈ M'.globals, G.name = g →
          G.initializer = some (.cstring "Trying to load a NULL pointer. Exiting early.\n")) :=
  ⟨⟨_, rfl, rfl, diagnostic_global_text 6 sampleTwo _ false rfl (i := 0) (j := 0) (k := 1)
      rfl rfl rfl rfl (by decide)⟩,
   ⟨_, rfl, rfl, diagnostic_global_text 5 sampleGlobal _ false rfl (i := 0) (j := 0) (k := 0)
      rfl rfl rfl rfl (by decide)⟩⟩

/-- C8, counterexample: the claim names the diagnostic global `ErrorMsg...` after
the location.  In `sampleClash` the name `ErrorMsg` is that of a function, so
`getOrInsertGlobal` finds no variable and creates one, which the symbol table
renames: the output has the variable `ErrorMsg.1`, which the guard function
`nullChecker` prints and which holds the text, and no variable named
`ErrorMsg`. -/
theorem c8_counterexample :
    ∃ M', runOnModule 6 sampleClash = .ok (M', false) ∧
      M'.globals = [⟨"ErrorMsg.1", errorMsgTy none,
        some (.cstring "Trying to load a NULL pointer. Exiting early.\n")⟩] ∧
      (∀ G ∈ M'.globals, G.name ≠ "ErrorMsg") ∧
      M'.instrAt 1 0 1 = some ⟨8, .void, .call "nullChecker" [.inst (.int 1) 2], none⟩ ∧
      M'.functions.map (fun F => F.name) = ["ErrorMsg", "f", "nullChecker", "printf", "exit"] ∧
      M'.instrAt 2 1 0 = some ⟨4, .int 32,
        .call "printf" [.cast (.global (.ptr (errorMsgTy none) 0) "ErrorMsg.1") i8Ptr], none⟩ :=
  ⟨_, rfl, rfl, by decide, rfl, rfl, rfl⟩

/-- C8, amended: for every load of the input, the function called immediately
before it in the output is named `nullChecker_<line>_<col>`, with the decimal
line and column of the load's debug location, when the load has one, and
exactly `nullChecker` when it has none, and a function of that name is in the
output.  When the pass builds that function (no function of the input has the
name), the output has the diagnostic global created with it; it is named
`ErrorMsg` followed by the same suffix, or exactly `ErrorMsg` without location,
unless a function of the input has that name: then its name is that name
followed by a dot and a decimal number. -/
theorem guard_and_global_names (fuel : Nat) (M M' : Module) (b : Bool)
    (h : runOnModule fuel M = .ok (M', b)) {i j k : Nat} {F : Function} {BB : BasicBlock}
    {L : Instr} {addr : Value} (hF : M.functions.get? i = some F) (hB : F.blocks.get? j = some BB)
    (hI : BB.instrs.get? k = some L) (hk : L.kind = .load addr) :
    ∃ F' BB' p call args, M'.functions.get? i = some F' ∧ F'.blocks.get? j = some BB' ∧
      BB'.instrs.get? p = some call ∧ BB'.instrs.get? (p + 1) = some L ∧
      call.kind = .call
        (match L.dbg with
         | some d => "nullChecker_" ++ toString d.line ++ "_" ++ toString d.col
         | none => "nullChecker") args ∧
      (∃ G ∈ M'.functions, G.name =
        (match L.dbg with
         | some d => "nullChecker_" ++ toString d.line ++ "_" ++ toString d.col
         | none => "nullChecker")) ∧
      (funcName L.dbg ∉ M.functions.map (fun F => F.name) →
        ∃ n g, (∃ Fg ∈ M'.functions, Fg.name = funcName L.dbg ∧
            Fg.blocks = guardBlocks n L.dbg g) ∧
          (∃ G ∈ M'.globals, G.name = g) ∧
          ((∀ F ∈ M.functions, F.name ≠ gblVarName L.dbg) →
            g = (match L.dbg with
                 | some d => "ErrorMsg_" ++ toString d.line ++ "_" ++ toString d.col
                 | none => "ErrorMsg")) ∧
          ((∃ F ∈ M.functions, F.name = gblVarName L.dbg) →
            ∃ u : Nat, g = (match L.dbg with
                 | some d => "ErrorMsg_" ++ toString d.line ++ "_" ++ toString d.col
                 | none => "ErrorMsg") ++ "." ++ toString u)) := by
  obtain ⟨F', BB', p, call, args, h1, h2, h3, h4, h5, h6⟩ := call_before_load h hF hB hI hk
  rw [funcName_text] at h5 h6
  refine ⟨F', BB', p, call, args, h1, h2, h3, h4, h5, h6, ?_⟩
  intro hnew
  obtain ⟨n, g, hd, ⟨Fg, hFg, hn, _, hb⟩, ⟨G, hG, hGn, _, _⟩, _⟩ :=
    guard_of_load h hF hB hI hk hnew
  refine ⟨n, g, ⟨Fg, hFg, hn, hb⟩, ⟨G, hG, hGn⟩, ?_, ?_⟩
  · intro hfree
    rw [← gblVarName_text]
    apply hd.1
    intro hm
    obtain ⟨F0, hF0, hn0⟩ := List.mem_map.1 hm
    exact hfree F0 hF0 hn0
  · rintro ⟨F0, hF0, hn0⟩
    rw [← gblVarName_text]
    exact hd.2 (List.mem_map.2 ⟨F0, hF0, hn0⟩)

/-- C8, witness: the names at the second load of `sampleTwo`, and the renamed
global of `sampleClash`. -/
theorem guard_and_global_names_witness :
    (∃ M', runOnModule 6 sampleTwo = .ok (M', false) ∧
      ∃ F' BB' p call args, M'.functions.get? 0 = some F' ∧ F'.blocks.get? 0 = some BB' ∧
        BB'.instrs.get? p = some call ∧
        BB'.instrs.get? (p + 1) = some ⟨1, .int 32, .load (.arg i32Ptr 1), some ⟨4, 2⟩⟩ ∧
        call.kind = .call "nullChecker_4_2" args ∧
        (∃ G ∈ M'.functions, G.name = "nullChecker_4_2") ∧
        (funcName (some ⟨4, 2⟩) ∉ sampleTwo.functions.map (fun F => F.name) →
          ∃ n g, (∃ Fg ∈ M'.functions, Fg.name = funcName (some ⟨4, 2⟩) ∧
              Fg.blocks = guardBlocks n (some ⟨4, 2⟩) g) ∧
            (∃ G ∈ M'.globals, G.name = g) ∧
            ((∀ F ∈ sampleTwo.functions, F.name ≠ gblVarName (some ⟨4, 2⟩)) →
              g = "ErrorMsg_4_2") ∧
            ((∃ F ∈ sampleTwo.functions, F.name = gblVarName (some ⟨4, 2⟩)) →
              ∃ u : Nat, g = "ErrorMsg_4_2" ++ "." ++ toString u))) ∧
    (∃ M', runOnModule 6 sampleClash = .ok (M', false) ∧
      M'.globals.map (fun G => G.name) = ["ErrorMsg.1"] ∧
      ∃ F' BB' p call args, M'.functions.get? 1 = some F' ∧ F'.blocks.get? 0 = some BB' ∧
        BB'.instrs.get? p = some call ∧
        BB'.instrs.get? (p + 1) = some ⟨0, .int 32, .load (.arg i32Ptr 0), none⟩ ∧
        call.kind = .call "nullChecker" args ∧
        (∃ G ∈ M'.functions, G.name = "nullChecker") ∧
        (funcName none ∉ sampleClash.functions.map (fun F => F.name) →
          ∃ n g, (∃ Fg ∈ M'.functions, Fg.name = funcName none ∧
              Fg.blocks = guardBlocks n none g) ∧
            (∃ G ∈ M'.globals, G.name = g) ∧
            ((∀ F ∈ sampleClash.functions, F.name ≠ gblVarName none) → g = "ErrorMsg") ∧
            ((∃ F ∈ sampleClash.functions, F.name = gblVarName none) →
              ∃ u : Nat, g = "ErrorMsg" ++ "." ++ toString u))) :=
  ⟨⟨_, rfl, guard_and_global_names 6 sampleTwo _ false rfl (i := 0) (j := 0) (k := 1)
      rfl rfl rfl rfl⟩,
   ⟨_, rfl, rfl, guard_and_global_names 6 sampleClash _ false rfl (i := 1) (j := 0) (k := 0)
      rfl rfl rfl rfl⟩⟩

end LoadChecker

namespace LoadChecker

/-! ## C4: one guard function and one diagnostic global per location -/

theorem namesUnique_countP_globals_le_one {M : Module} (h : NamesUnique M) (n : String) :
    M.globals.countP (fun G => G.name == n) ≤ 1 := by
  unfold NamesUnique at h
  have h1 : (M.globals.map (fun G => G.name)).Nodup := (List.nodup_append.1 h).2.1
  have h2 := List.nodup_iff_count_le_one.1 h1 n
  rw [List.count, List.countP_map] at h2
  exact h2

/-- C4, counterexample: the claim says the output has exactly one diagnostic
global per location key occurring among its loads, referenced by the guard
function of that key.  `samplePre` already has a function named `nullChecker`
and a load without debug location; the pass reuses that function, builds
nothing, and the output has no global variable at all. -/
theorem c4_counterexample :
    ∃ M' BB L, runOnModule 3 samplePre = .ok (M', false) ∧ NamesUnique samplePre ∧
      samplePre.blockAt 1 0 = some BB ∧ BB.instrs.get? 0 = some L ∧ L.isLoad = true ∧
      L.dbg = none ∧ M'.globals.countP (fun G => G.name == gblVarName none) = 0 ∧
      M'.globals = [] ∧ M'.functions.map (fun F => F.name) = ["nullChecker", "f"] :=
  ⟨_, _, _, rfl, by decide, rfl, rfl, rfl, rfl, rfl, rfl, rfl⟩

/-- C4, amended: after `runOnModule` on a module with unique symbol names, any
two load sites with the same location key (the same line and column, or both
without debug location) are preceded by calls of the same function name, the
output has exactly one function of that name, and at most one global variable
named as the key's diagnostic global.  When the pass builds that guard function
(no function of the input has its name), the guard function has the three
blocks built for the key, whose print call takes the key's diagnostic global
(named `ErrorMsg...` after the key, or, when a function of the input has that
name, that name followed by a dot and a number), and the output has exactly one
global variable of that name. -/
theorem one_guard_per_location (fuel : Nat) (M M' : Module) (b : Bool)
    (h : runOnModule fuel M = .ok (M', b)) (hu : NamesUnique M)
    {i j k u v w : Nat} {F F' : Function} {BB BB' : BasicBlock} {L L' : Instr}
    {addr addr' : Value}
    (hF : M.functions.get? i = some F) (hB : F.blocks.get? j = some BB)
    (hI : BB.instrs.get? k = some L) (hk : L.kind = .load addr)
    (hF' : M.functions.get? u = some F') (hB' : F'.blocks.get? v = some BB')
    (hI' : BB'.instrs.get? w = some L') (hk' : L'.kind = .load addr')
    (hkey : L.dbg = L'.dbg) :
    (∃ G B p c args G' B' p' c' args',
        M'.functions.get? i = some G ∧ G.blocks.get? j = some B ∧
        B.instrs.get? p = some c ∧ B.instrs.get? (p + 1) = some L ∧
        M'.functions.get? u = some G' ∧ G'.blocks.get? v = some B' ∧
        B'.instrs.get? p' = some c' ∧ B'.instrs.get? (p' + 1) = some L' ∧
        c.kind = .call (funcName L.dbg) args ∧ c'.kind = .call (funcName L.dbg) args') ∧
    M'.functions.countP (fun F => F.name == funcName L.dbg) = 1 ∧
    M'.globals.countP (fun G => G.name == gblVarName L.dbg) ≤ 1 ∧
    (funcName L.dbg ∉ M.functions.map (fun F => F.name) →
      ∃ g, (gblVarName L.dbg ∉ M.functions.map (fun F => F.name) → g = gblVarName L.dbg) ∧
        (gblVarName L.dbg ∈ M.functions.map (fun F => F.name) →
          ∃ u : Nat, g = gblVarName L.dbg ++ "." ++ toString u) ∧
        (∃ Fg ∈ M'.functions, ∃ n, Fg.name = funcName L.dbg ∧
          Fg.blocks = guardBlocks n L.dbg g ∧
          ∃ B ∈ Fg.blocks, ∃ I ∈ B.instrs, I.kind = .call "printf"
            [.cast (.global (.ptr (errorMsgTy L.dbg) 0) g) i8Ptr]) ∧
        M'.globals.countP (fun G => G.name == g) = 1) := by
  have hu' := reach_namesUnique (runOnModule_spec h).2.1 hu
  obtain ⟨G, B, p, c, args, h1, h2, h3, h4, h5, Fn, hFn, hFnn⟩ := call_before_load h hF hB hI hk
  obtain ⟨G', B', p', c', args', g1, g2, g3, g4, g5, _⟩ := call_before_load h hF' hB' hI' hk'
  rw [← hkey] at g5
  have hle := namesUnique_countP_le_one hu' (funcName L.dbg)
  have hge : 0 < M'.functions.countP (fun F => F.name == funcName L.dbg) :=
    List.countP_pos_iff.2 ⟨Fn, hFn, by simp [hFnn]⟩
  refine ⟨⟨G, B, p, c, args, G', B', p', c', args', h1, h2, h3, h4, g1, g2, g3, g4, h5, g5⟩,
    by omega, namesUnique_countP_globals_le_one hu' _, ?_⟩
  intro hnew
  obtain ⟨n, g, hd, ⟨Fg, hFg, hn, _, hb⟩, ⟨Gv, hGv, hGn, _, _⟩, _⟩ :=
    guard_of_load h hF hB hI hk hnew
  have hle' := namesUnique_countP_globals_le_one hu' g
  have hge' : 0 < M'.globals.countP (fun G => G.name == g) :=
    List.countP_pos_iff.2 ⟨Gv, hGv, by simp [hGn]⟩
  refine ⟨g, hd.1, hd.2, ⟨Fg, hFg, n, hn, hb, ?_⟩, by omega⟩
  rw [hb]
  refine ⟨_, List.mem_cons_of_mem _ (List.mem_cons_self _ _), _, List.mem_cons_self _ _, rfl⟩

/-- C4, witness: the two loads of `sampleSame`, both at line 3, column 7. -/
theorem one_guard_per_location_witness :
    ∃ M', runOnModule 5 sampleSame = .ok (M', false) ∧ NamesUnique sampleSame ∧
      M'.functions.countP (fun F => F.name == funcName (some ⟨3, 7⟩)) = 1 ∧
      M'.globals.countP (fun G => G.name == gblVarName (some ⟨3, 7⟩)) ≤ 1 :=
  ⟨_, rfl, by decide, by
    have h := one_guard_per_location 5 sampleSame _ false rfl (by decide)
      (i := 0) (j := 0) (k := 0) (u := 0) (v := 0) (w := 1)
      rfl rfl rfl rfl rfl rfl rfl rfl rfl
    exact ⟨h.2.1, h.2.2.1⟩⟩

end LoadChecker

namespace LoadChecker

/-! ## Steps of the interpreter -/

theorem exec_add {σ : Type} (H : Host σ) (M : Module) :
    ∀ (a b : Nat) (c : Config σ), exec H M (a + b) c = exec H M b (exec H M a c)
  | 0, b, c => by simp [exec]
  | a + 1, b, c => by
    rw [show a + 1 + b = (a + b) + 1 by omega]
    simp only [exec]
    exact exec_add H M a b (step H M c)

theorem step_of_not_running {σ : Type} (H : Host σ) (M : Module) (c : Config σ)
    (h : c.status ≠ .running) : step H M c = c := by
  unfold step
  split
  · rename_i hs; exact absurd hs h
  · rfl

theorem exec_of_not_running {σ : Type} (H : Host σ) (M : Module) :
    ∀ (n : Nat) (c : Config σ), c.status ≠ .running → exec H M n c = c
  | 0, _, _ => rfl
  | n + 1, c, h => by
    simp only [exec, step_of_not_running H M c h]
    exact exec_of_not_running H M n c h

theorem step_icmpEq {σ : Type} (H : Host σ) (M : Module) {a : Frame} {rest : List Frame}
    {mem : σ} {trace : List Event} {I : Instr} {l r : Value}
    (hf : M.instrAt a.fn a.block a.pc = some I) (hk : I.kind = .icmpEq l r) :
    step H M ⟨a :: rest, mem, trace, .running⟩
      = ⟨a.setResult I.id (cmpEq (eval H a l) (eval H a r)) :: rest, mem, trace, .running⟩ := by
  simp only [step, hf, hk]

theorem step_call_defined {σ : Type} (H : Host σ) (M : Module) {a : Frame} {rest : List Frame}
    {mem : σ} {trace : List Event} {I : Instr} {callee : String} {args : List Value} {g : Nat}
    (hf : M.instrAt a.fn a.block a.pc = some I) (hk : I.kind = .call callee args)
    (hd : M.definedFunction callee = some g) :
    step H M ⟨a :: rest, mem, trace, .running⟩
      = ⟨Frame.entry g (args.map (eval H a)) :: a :: rest, mem, trace, .running⟩ := by
  simp only [step, hf, hk, hd]

theorem step_call_external {σ : Type} (H : Host σ) (M : Module) {a : Frame} {rest : List Frame}
    {mem mem' : σ} {trace : List Event} {I : Instr} {callee : String} {args : List Value}
    {v : Val} (hf : M.instrAt a.fn a.block a.pc = some I) (hk : I.kind = .call callee args)
    (hd : M.definedFunction callee = none)
    (hx : H.external callee (args.map (eval H a)) mem = some (v, mem')) :
    step H M ⟨a :: rest, mem, trace, .running⟩
      = ⟨a.setResult I.id v :: rest, mem',
          trace ++ [.external callee (args.map (eval H a))],
          .running⟩ := by
  simp only [step, hf, hk, hd, hx]

theorem step_call_noreturn {σ : Type} (H : Host σ) (M : Module) {a : Frame}
    {rest : List Frame} {mem : σ} {trace : List Event} {I : Instr} {callee : String}
    {args : List Value} (hf : M.instrAt a.fn a.block a.pc = some I)
    (hk : I.kind = .call callee args) (hd : M.definedFunction callee = none)
    (hx : H.external callee (args.map (eval H a)) mem = none) :
    step H M ⟨a :: rest, mem, trace, .running⟩
      = ⟨a :: rest, mem,
          trace ++ [.external callee (args.map (eval H a))],
          .stopped⟩ := by
  simp only [step, hf, hk, hd, hx]

theorem step_condBr {σ : Type} (H : Host σ) (M : Module) {a : Frame} {rest : List Frame}
    {mem : σ} {trace : List Event} {I : Instr} {cond : Value} {t f : String} {b : Nat}
    (hf : M.instrAt a.fn a.block a.pc = some I) (hk : I.kind = .condBr cond t f)
    (hb : M.blockIndex a.fn (if eval H a cond = .int 1 then t else f) = some b) :
    step H M ⟨a :: rest, mem, trace, .running⟩
      = ⟨{ a with block := b, pc := 0 } :: rest, mem, trace, .running⟩ := by
  simp only [step, hf, hk, jump, hb]

theorem step_br {σ : Type} (H : Host σ) (M : Module) {a : Frame} {rest : List Frame}
    {mem : σ} {trace : List Event} {I : Instr} {d : String} {b : Nat}
    (hf : M.instrAt a.fn a.block a.pc = some I) (hk : I.kind = .br d)
    (hb : M.blockIndex a.fn d = some b) :
    step H M ⟨a :: rest, mem, trace, .running⟩
      = ⟨{ a with block := b, pc := 0 } :: rest, mem, trace, .running⟩ := by
  simp only [step, hf, hk, jump, hb]

end LoadChecker

namespace LoadChecker

/-! ## Looking up the guard function, the external routines and the text -/

theorem findIndex_some_of_mem {α : Type} {p : α → Bool} :
    ∀ {l : List α}, (∃ a ∈ l, p a = true) →
      ∃ g a, findIndex p l = some g ∧ l.get? g = some a ∧ p a = true
  | [], h => by obtain ⟨a, ha, _⟩ := h; cases ha
  | b :: l, h => by
    by_cases hb : p b = true
    · exact ⟨0, b, by simp [findIndex, hb], rfl, hb⟩
    · have : ∃ a ∈ l, p a = true := by
        obtain ⟨a, ha, hpa⟩ := h
        rcases List.mem_cons.1 ha with rfl | ha
        · exact absurd hpa hb
        · exact ⟨a, ha, hpa⟩
      obtain ⟨g, a, hg, hga, hpa⟩ := findIndex_some_of_mem this
      exact ⟨g + 1, a, by simp [findIndex, hb, hg], by simpa using hga, hpa⟩

theorem findIndex_some {α : Type} {p : α → Bool} :
    ∀ {l : List α} {g : Nat}, findIndex p l = some g → ∃ a, l.get? g = some a ∧ p a = true
  | [], _, h => by simp [findIndex] at h
  | b :: l, g, h => by
    by_cases hb : p b = true
    · simp only [findIndex, hb, if_true, Option.some.injEq] at h
      subst h
      exact ⟨b, rfl, hb⟩
    · simp only [findIndex, hb, Bool.false_eq_true, if_false, Option.map_eq_some'] at h
      obtain ⟨g', hg', rfl⟩ := h
      obtain ⟨a, ha, hpa⟩ := findIndex_some hg'
      exact ⟨a, by simpa using ha, hpa⟩

theorem forall₂_get?_right {α β : Type} {R : α → β → Prop} {as : List α} {bs : List β}
    (h : List.Forall₂ R as bs) : ∀ {i : Nat} {b : β}, bs.get? i = some b →
      ∃ a, as.get? i = some a ∧ R a b := by
  induction h with
  | nil => intro i a h; simp at h
  | cons hab _ ih =>
    intro i a h
    cases i with
    | zero =>
      simp only [List.get?_cons_zero, Option.some.injEq] at h
      subst h
      exact ⟨_, rfl, hab⟩
    | succ i =>
      simp only [List.get?_cons_succ] at h
      exact ih h

/-- The functions of the output, by origin: a function of the input with its
blocks instrumented, or a function the pass appended. -/
theorem output_function_origin {fuel : Nat} {M M' : Module} {b : Bool}
    (h : runOnModule fuel M = .ok (M', b)) {F' : Function} (hF' : F' ∈ M'.functions) :
    (∃ F ∈ M.functions, InstrumentedFn M M' F F') ∨ NewFn F' := by
  obtain ⟨_, _, fs', new, hM', hfs, hnew⟩ := runOnModule_spec h
  rw [hM'] at hF'
  rcases List.mem_append.1 hF' with hm | hm
  · left
    obtain ⟨g, hg⟩ := List.get?_of_mem hm
    obtain ⟨F, hF, hrel⟩ := forall₂_get?_right hfs hg
    exact ⟨F, List.get?_mem hF, hrel⟩
  · exact Or.inr (hnew F' hm)

/-- The function a call of a guard name resolves to, when the pass built it:
its blocks, the variable they print, and the text that variable holds. -/
theorem guard_function_lookup {fuel : Nat} {M M' : Module} {b : Bool}
    (h : runOnModule fuel M = .ok (M', b)) {k : Option DebugLoc}
    (hin : funcName k ∈ M'.functions.map (fun F => F.name))
    (hnew : funcName k ∉ M.functions.map (fun F => F.name)) :
    ∃ g Fg n v, M'.definedFunction (funcName k) = some g ∧ M'.functions.get? g = some Fg ∧
      Fg.blocks = guardBlocks n k v ∧ DiagName M k v ∧
      (∃ G ∈ M'.globals, G.name = v ∧ G.valueType = errorMsgTy k ∧
        G.initializer = some (.cstring (errorMsg k))) ∧
      ∀ G ∈ M'.globals, G.name = v → G.initializer = some (.cstring (errorMsg k)) := by
  obtain ⟨F0, hF0, hn0⟩ := List.mem_map.1 hin
  obtain ⟨g, Fg, hg, hget, hp⟩ := findIndex_some_of_mem
    (p := fun F : Function => F.name == funcName k) ⟨F0, hF0, by simp [hn0]⟩
  have hname : Fg.name = funcName k := by simpa using hp
  obtain ⟨_, hreach, _⟩ := runOnModule_spec h
  obtain ⟨n, v, hb, hd, hG, hall⟩ :=
    (reach_guardLinked hreach).2.2 k hnew Fg (List.get?_mem hget) hname
  refine ⟨g, Fg, n, v, ?_, hget, hb, hd, hG, hall⟩
  simp only [Module.definedFunction, hg, hget, hb]
  rfl

theorem external_in_output {fuel : Nat} {M M' : Module} {b : Bool}
    (h : runOnModule fuel M = .ok (M', b)) {name : String}
    (hname : name = "printf" ∨ name = "exit")
    (hext : ∀ F ∈ M.functions, F.name = name → F.blocks = []) :
    M'.definedFunction name = none := by
  unfold Module.definedFunction
  cases hg : findIndex (fun F => F.name == name) M'.functions with
  | none => rfl
  | some g =>
    obtain ⟨Fg, hget, hp⟩ := findIndex_some hg
    have hn : Fg.name = name := by simpa using hp
    simp only [hget]
    have hb : Fg.blocks = [] := by
      rcases output_function_origin h (List.get?_mem hget) with ⟨F, hF, hrel⟩ | hnf
      · have hFb := hext F hF (hrel.1.symm.trans hn)
        have := hrel.2.2
        rw [hFb] at this
        exact List.forall₂_nil_left_iff.1 this
      · rcases hnf with ⟨k', n, _, hn', _, _⟩ | ⟨_, _, hb⟩ | ⟨_, _, hb⟩
        · exfalso
          rcases hname with rfl | rfl
          · exact funcName_ne_printf k' (hn'.symm.trans hn)
          · exact funcName_ne_exit k' (hn'.symm.trans hn)
        · exact hb
        · exact hb
    simp [hb]

theorem textAt_of_unique {M : Module} (hu : NamesUnique M) {G : GlobalVariable} {s : String}
    (hG : G ∈ M.globals) (hi : G.initializer = some (.cstring s)) :
    M.textAt (.addrOf G.name) = some s := by
  unfold NamesUnique at hu
  have hnd : (M.globals.map (fun G => G.name)).Nodup := (List.nodup_append.1 hu).2.1
  unfold Module.textAt
  cases hf : M.globals.find? (fun G' => G'.name == G.name) with
  | none =>
    have := List.find?_eq_none.1 hf G hG
    simp at this
  | some G' =>
    have hm := List.mem_of_find?_eq_some hf
    have hn : G'.name = G.name := by simpa using List.find?_some hf
    have e : G' = G := List.inj_on_of_nodup_map hnd hm hG hn
    rw [e] at hf
    simp only [hf, hi]

/-- The text at the address of a variable all of whose namesakes hold it. -/
theorem textAt_of_all {M : Module} {v s : String} (hex : ∃ G ∈ M.globals, G.name = v)
    (hall : ∀ G ∈ M.globals, G.name = v → G.initializer = some (.cstring s)) :
    M.textAt (.addrOf v) = some s := by
  obtain ⟨G, hG, hn⟩ := hex
  unfold Module.textAt
  cases hf : M.globals.find? (fun G => G.name == v) with
  | none =>
    have := List.find?_eq_none.1 hf G hG
    simp [hn] at this
  | some G' =>
    have hm := List.mem_of_find?_eq_some hf
    have hn' : G'.name = v := by simpa using List.find?_some hf
    simp only [hf, hall G' hm hn']

end LoadChecker

namespace LoadChecker

/-! ## C2: the guard on a null address -/

theorem instrAt_of_blocks {M : Module} {g : Nat} {Fg : Function} {bs : List BasicBlock}
    (hget : M.functions.get? g = some Fg) (hb : Fg.blocks = bs) (j p : Nat) :
    M.instrAt g j p = (bs.get? j).bind (fun B => B.instrs.get? p) := by
  simp only [Module.instrAt, Module.blockAt, hget, hb]
  cases bs.get? j <;> rfl

theorem blockIndex_of_blocks {M : Module} {g : Nat} {Fg : Function} {bs : List BasicBlock}
    (hget : M.functions.get? g = some Fg) (hb : Fg.blocks = bs) (label : String) :
    M.blockIndex g label = findIndex (fun B => B.name == label) bs := by
  simp only [Module.blockIndex, hget, hb]

/-- The guard function entered with a true comparison prints its diagnostic
and calls `exit` with 1, which stops the program. -/
theorem guard_fails {σ : Type} (H : Host σ) {M : Module} {g n : Nat} {Fg : Function}
    {k : Option DebugLoc} {w : String} (hget : M.functions.get? g = some Fg)
    (hb : Fg.blocks = guardBlocks n k w)
    (hprintf : M.definedFunction "printf" = none) (hexit : M.definedFunction "exit" = none)
    (hnoret : ∀ args mem, H.external "exit" args mem = none)
    (hret : ∀ args mem, H.external "printf" args mem ≠ none)
    (rest : List Frame) (mem : σ) (trace : List Event) :
    ∃ c', exec H M 3 ⟨Frame.entry g [.int 1] :: rest, mem, trace, .running⟩ = c' ∧
      c'.status = .stopped ∧
      c'.trace = trace ++ [.external "printf" [.addrOf w],
        .external "exit" [.int 1]] := by
  have h1 : M.instrAt g 0 0 = some ⟨n, .void, .condBr (.arg (.int 1) 0) "is_null" "ret", none⟩ := by
    rw [instrAt_of_blocks hget hb]; rfl
  have h2 : M.instrAt g 1 0 = some ⟨n + 1, .int 32, .call "printf"
      [.cast (.global (.ptr (errorMsgTy k) 0) w) i8Ptr], none⟩ := by
    rw [instrAt_of_blocks hget hb]; rfl
  have h3 : M.instrAt g 1 1 = some ⟨n + 2, .void, .call "exit" [.constInt 32 1], none⟩ := by
    rw [instrAt_of_blocks hget hb]; rfl
  have hbi : M.blockIndex g "is_null" = some 1 := by
    rw [blockIndex_of_blocks hget hb]; rfl
  cases hx : H.external "printf" [.addrOf w] mem with
  | none => exact absurd hx (hret _ _)
  | some r =>
    obtain ⟨v, mem'⟩ := r
    simp only [exec]
    rw [step_condBr H M (a := Frame.entry g [.int 1]) (b := 1) h1 rfl (by simpa [eval, Frame.entry] using hbi)]
    rw [step_call_external H M (a := { Frame.entry g [.int 1] with block := 1, pc := 0 })
      (v := v) h2 rfl hprintf (by simpa [eval] using hx)]
    rw [step_call_noreturn H M h3 rfl hexit (hnoret _ _)]
    refine ⟨_, rfl, rfl, ?_⟩
    simp only [List.map, eval, List.append_assoc]
    rfl

end LoadChecker

namespace LoadChecker

theorem instrAt_site {M : Module} {i j : Nat} {F : Function} {BB : BasicBlock}
    {front tail : List Instr} (hF : M.functions.get? i = some F)
    (hB : F.blocks.get? j = some BB) (hos : BB.instrs = front ++ tail) (q : Nat) :
    M.instrAt i j (front.length + q) = tail.get? q := by
  simp only [Module.instrAt, Module.blockAt, hF, hB, hos]
  exact get?_append_add tail q front

/-- C2, counterexample: the claim says that in every instrumented module a load
through a null address is never executed, the guard printing the diagnostic and
calling `exit` with 1.  `samplePre` already has a function named `nullChecker`,
which only returns; the pass calls it as the guard.  Entered with a null
pointer, the instrumented function `f` prints nothing, does not call `exit`,
and runs into the load through the null pointer. -/
theorem c2_counterexample :
    ∃ M', runOnModule 3 samplePre = .ok (M', false) ∧
      M'.instrAt 1 0 2 = some ⟨1, .int 32, .load (.arg i32Ptr 0), none⟩ ∧
      (exec sampleHost M' 4 (enter 1 [.null] ())).status = .trapped ∧
      (exec sampleHost M' 4 (enter 1 [.null] ())).trace = [] ∧
      ∀ m, (exec sampleHost M' (4 + m) (enter 1 [.null] ())).trace = [] := by
  refine ⟨_, rfl, rfl, rfl, rfl, ?_⟩
  intro m
  rw [exec_add, exec_of_not_running]
  · rfl
  · exact fun h => by cases h

/-- C2, amended: let the pass build the guard function of a load (no function
of the input module has its name), and let `printf` and `exit` be external
routines (not defined by the module).  Then every execution of the
instrumented module that reaches the guard in front of that load with a null
address prints exactly the diagnostic string of the load's location (the only
argument of the call of `printf` is the diagnostic variable `g`, which holds
that text; `g` is named `ErrorMsg...` after the location unless a function of
the input has that name) and calls `exit` with code 1; as `exit` does not
return (and `printf` does), the program is stopped there for good: its trace
gains these two events and no load event, so the load and everything after it
is never executed. -/
theorem null_load_prints_and_exits (fuel : Nat) (M M' : Module) (b : Bool)
    (h : runOnModule fuel M = .ok (M', b))
    {i j k : Nat} {F : Function} {BB : BasicBlock} {L : Instr} {addr : Value}
    (hF : M.functions.get? i = some F) (hB : F.blocks.get? j = some BB)
    (hI : BB.instrs.get? k = some L) (hk : L.kind = .load addr)
    (hnew : funcName L.dbg ∉ M.functions.map (fun F => F.name))
    (hext : ∀ F ∈ M.functions, F.name = "printf" ∨ F.name = "exit" → F.blocks = []) :
    ∃ BB' p g, M'.blockAt i j = some BB' ∧
      (GuardedByCmp BB'.instrs p L addr ∨ GuardedByConst BB'.instrs p L addr) ∧
      (gblVarName L.dbg ∉ M.functions.map (fun F => F.name) → g = gblVarName L.dbg) ∧
      (gblVarName L.dbg ∈ M.functions.map (fun F => F.name) →
        ∃ u : Nat, g = gblVarName L.dbg ++ "." ++ toString u) ∧
      M'.textAt (.addrOf g) = some (errorMsg L.dbg) ∧
      GuardStops M' i j p addr g := by
  obtain ⟨F', BB', front, back, pre, M1, M2, hF', _, hB', _, hos, _, _, _, hi, r2⟩ :=
    load_site h hF hB hI hk
  have hin : funcName L.dbg ∈ M'.functions.map (fun F => F.name) :=
    reach_name_mem r2 (instrumentLoad_guard_exists hi)
  obtain ⟨g, Fg, n, w, hdef, hget, hb, hd, hGex, hall⟩ := guard_function_lookup h hin hnew
  have htext : M'.textAt (.addrOf w) = some (errorMsg L.dbg) := by
    obtain ⟨G, hG, hGn, _, _⟩ := hGex
    exact textAt_of_all ⟨G, hG, hGn⟩ hall
  have hprintf : M'.definedFunction "printf" = none :=
    external_in_output h (Or.inl rfl) (fun F hF hn => hext F hF (Or.inl hn))
  have hexit : M'.definedFunction "exit" = none :=
    external_in_output h (Or.inr rfl) (fun F hF hn => hext F hF (Or.inr hn))
  obtain ⟨pty, cg, hp, _, _, hpre⟩ := instrumentLoad_pre hi
  have hty := asPointer_eq hp
  subst hty
  have hblock : M'.blockAt i j = some BB' := by simp only [Module.blockAt, hF', hB']
  have hat : ∀ q, M'.instrAt i j (front.length + q) = (pre ++ L :: back).get? q :=
    instrAt_site hF' hB' hos
  refine ⟨BB', front.length, w, hblock, ?_, hd.1, hd.2, htext, ?_⟩
  · rcases hpre with ⟨_, rfl⟩ | ⟨_, _, rfl⟩
    · right
      refine ⟨guardCall L cg _, ?_, ?_, rfl⟩
      · rw [hos, ← Nat.add_zero front.length, get?_append_add]; rfl
      · rw [hos, get?_append_add]; rfl
    · left
      refine ⟨⟨M1.nextId, .int 1, .icmpEq addr (.nullPtr addr.type), L.dbg⟩,
        guardCall L cg _, ?_, ?_, ?_, rfl, rfl⟩
      · rw [hos, ← Nat.add_zero front.length, get?_append_add]; rfl
      · rw [hos, get?_append_add]; rfl
      · rw [hos, get?_append_add]; rfl
  · intro σ H fr rest mem trace hfn hblk hpc hnull hnoret hret
    obtain ⟨fn, blk, pc, args, env⟩ := fr
    simp only at hfn hblk hpc
    subst hfn; subst hblk; subst hpc
    rcases hpre with ⟨_, rfl⟩ | ⟨_, _, rfl⟩
    · -- the comparison was folded into the call's argument
      have hcall : M'.instrAt fn blk front.length
          = some (guardCall L cg (.icmpEq addr (.nullPtr addr.type))) := by
        have := hat 0
        simpa using this
      obtain ⟨c', hc', hs, ht⟩ := guard_fails H hget hb hprintf hexit hnoret hret
        (⟨fn, blk, front.length, args, env⟩ :: rest) mem trace
      refine ⟨4, c', ?_, hs, ht⟩
      intro m hm
      obtain ⟨d, rfl⟩ := Nat.exists_eq_add_of_le hm
      rw [exec_add, show (4 : Nat) = 1 + 3 by rfl, exec_add]
      have hstep : exec H M' 1 ⟨⟨fn, blk, front.length, args, env⟩ :: rest, mem, trace, .running⟩
          = ⟨Frame.entry g [.int 1] :: ⟨fn, blk, front.length, args, env⟩ :: rest, mem, trace,
              .running⟩ := by
        simp only [exec]
        rw [step_call_defined H M' (a := ⟨fn, blk, front.length, args, env⟩) hcall rfl hdef]
        simp [eval, hnull, cmpEq]
      rw [hstep, hc']
      exact exec_of_not_running H M' d c' (by rw [hs]; exact fun h => by cases h)
    · -- a comparison instruction, then the call on its result
      have hcmp : M'.instrAt fn blk front.length
          = some ⟨M1.nextId, .int 1, .icmpEq addr (.nullPtr addr.type), L.dbg⟩ := by
        have := hat 0
        simpa using this
      have hcall : M'.instrAt fn blk (front.length + 1)
          = some (guardCall L cg (.inst (.int 1) M1.nextId)) := by
        have := hat 1
        simpa using this
      obtain ⟨c', hc', hs, ht⟩ := guard_fails H hget hb hprintf hexit hnoret hret
        ((Frame.mk fn blk front.length args env).setResult M1.nextId (.int 1) :: rest) mem trace
      refine ⟨5, c', ?_, hs, ht⟩
      intro m hm
      obtain ⟨d, rfl⟩ := Nat.exists_eq_add_of_le hm
      rw [exec_add, show (5 : Nat) = 2 + 3 by rfl, exec_add]
      have hstep : exec H M' 2 ⟨⟨fn, blk, front.length, args, env⟩ :: rest, mem, trace, .running⟩
          = ⟨Frame.entry g [.int 1] ::
              (Frame.mk fn blk front.length args env).setResult M1.nextId (.int 1) :: rest,
              mem, trace, .running⟩ := by
        simp only [exec]
        rw [step_icmpEq H M' (a := ⟨fn, blk, front.length, args, env⟩) hcmp rfl]
        have e1 : cmpEq (eval H ⟨fn, blk, front.length, args, env⟩ addr)
            (eval H ⟨fn, blk, front.length, args, env⟩ (.nullPtr addr.type)) = .int 1 := by
          simp [eval, hnull, cmpEq]
        rw [e1]
        rw [step_call_defined H M'
          (a := (Frame.mk fn blk front.length args env).setResult M1.nextId (.int 1))
          hcall rfl hdef]
        simp [eval, Frame.setResult]
      rw [hstep, hc']
      exact exec_of_not_running H M' d c' (by rw [hs]; exact fun h => by cases h)

/-- C2, witness: the load of `sampleArg`; the guard in front of it starts at
position 0 of the only block, and on the sample host the instrumented function
entered with a null pointer stops after printing and calling `exit`. -/
theorem null_load_prints_and_exits_witness :
    ∃ M', runOnModule 5 sampleArg = .ok (M', false) ∧
      (exec sampleHost M' 5 (enter 0 [.null] ())).trace =
        [.external "printf" [.addrOf "ErrorMsg_3_7"], .external "exit" [.int 1]] ∧
      ∃ BB' p g, M'.blockAt 0 0 = some BB' ∧
        (GuardedByCmp BB'.instrs p ⟨0, .int 32, .load (.arg i32Ptr 0), some ⟨3, 7⟩⟩ (.arg i32Ptr 0) ∨
         GuardedByConst BB'.instrs p ⟨0, .int 32, .load (.arg i32Ptr 0), some ⟨3, 7⟩⟩
          (.arg i32Ptr 0)) ∧
        (gblVarName (some ⟨3, 7⟩) ∉ sampleArg.functions.map (fun F => F.name) →
          g = gblVarName (some ⟨3, 7⟩)) ∧
        (gblVarName (some ⟨3, 7⟩) ∈ sampleArg.functions.map (fun F => F.name) →
          ∃ u : Nat, g = gblVarName (some ⟨3, 7⟩) ++ "." ++ toString u) ∧
        M'.textAt (.addrOf g) = some (errorMsg (some ⟨3, 7⟩)) ∧
        GuardStops M' 0 0 p (.arg i32Ptr 0) g :=
  ⟨_, rfl, rfl,
    null_load_prints_and_exits 5 sampleArg _ false rfl (i := 0) (j := 0) (k := 0)
      rfl rfl rfl rfl (by decide) (by decide)⟩

end LoadChecker

namespace LoadChecker

/-! ## C3: the instrumented module simulates the original -/

theorem eval_agree {σ : Type} (H : Host σ) {fr fr' : Frame} {n : Nat}
    (hargs : fr'.args = fr.args) (henv : ∀ id, id < n → fr'.env id = fr.env id) :
    ∀ v : Value, v.idsBelow n = true → eval H fr' v = eval H fr v
  | .arg _ _, _ => by simp [eval, hargs]
  | .inst _ id, h => by
    simp only [Value.idsBelow, decide_eq_true_eq] at h
    simp [eval, henv id h]
  | .global _ _, _ => rfl
  | .nullPtr _, _ => rfl
  | .constInt _ _, _ => rfl
  | .cast v _, h => by
    simp only [Value.idsBelow] at h
    simp [eval, eval_agree H hargs henv v h]
  | .icmpEq l r, h => by
    simp only [Value.idsBelow, Bool.and_eq_true] at h
    simp [eval, eval_agree H hargs henv l h.1, eval_agree H hargs henv r h.2]
  | .const _ _, _ => rfl

theorem map_eval_agree {σ : Type} (H : Host σ) {fr fr' : Frame} {n : Nat}
    (hargs : fr'.args = fr.args) (henv : ∀ id, id < n → fr'.env id = fr.env id)
    {vs : List Value} (h : ∀ v ∈ vs, v.idsBelow n = true) :
    vs.map (eval H fr') = vs.map (eval H fr) := by
  apply List.map_congr_left
  intro v hv
  exact eval_agree H hargs henv v (h v hv)

end LoadChecker

namespace LoadChecker

end LoadChecker

namespace LoadChecker

end LoadChecker

namespace LoadChecker

end LoadChecker

namespace LoadChecker

theorem sim_stuck {σ : Type} {M : Module} {s s' : List Frame} (mem : σ) (trace : List Event)
    (h : StackSim M s s') :
    Sim M ({ (⟨s, mem, trace, .running⟩ : Config σ) with status := .stuck })
      ({ (⟨s', mem, trace, .running⟩ : Config σ) with status := .stuck }) :=
  ⟨rfl, rfl, rfl, h⟩

end LoadChecker

namespace LoadChecker

end LoadChecker

namespace LoadChecker

end LoadChecker

namespace LoadChecker

end LoadChecker

namespace LoadChecker

theorem expanded_append {M0 Mfin : Module} :
    ∀ (is1 : List Instr) {is2 os : List Instr}, Expanded M0 Mfin (is1 ++ is2) os →
      ∃ os1 os2, os = os1 ++ os2 ∧ Expanded M0 Mfin is1 os1 ∧ Expanded M0 Mfin is2 os2
  | [], is2, os, h => ⟨[], os, rfl, Expanded.nil, h⟩
  | I :: is1, is2, os, h => by
    cases h with
    | keep hl e =>
      obtain ⟨os1, os2, rfl, e1, e2⟩ := expanded_append is1 e
      exact ⟨I :: os1, os2, rfl, Expanded.keep hl e1, e2⟩
    | @guard _ addr M1 M2 pre _ os' hk r1 hi r2 e =>
      obtain ⟨os1, os2, rfl, e1, e2⟩ := expanded_append is1 e
      exact ⟨pre ++ I :: os1, os2, by simp, Expanded.guard hk r1 hi r2 e1, e2⟩

theorem guardSeq_of_instrumentLoad {M M' : Module} {L : Instr} {addr : Value} {pre : List Instr}
    (h : instrumentLoad M L addr = .ok (M', pre)) : GuardSeq L addr M.nextId M'.nextId pre := by
  obtain ⟨pty, g, hp, h1, h2, hpre⟩ := instrumentLoad_pre h
  refine ⟨pty, g, hp, h1, h2, ?_⟩
  rcases hpre with ⟨hc, rfl⟩ | ⟨hc, hne, rfl⟩
  · exact Or.inl ⟨hc, rfl⟩
  · exact Or.inr ⟨hc, M.nextId, Nat.le_refl _, by omega, fun e => hne e.symm, rfl⟩

theorem guardSeq_mono {L : Instr} {addr : Value} {lo hi lo' hi' : Nat} {pre : List Instr}
    (h : GuardSeq L addr lo hi pre) (h1 : lo' ≤ lo) (h2 : hi ≤ hi') :
    GuardSeq L addr lo' hi' pre := by
  obtain ⟨pty, g, hp, g1, g2, hpre⟩ := h
  refine ⟨pty, g, hp, by omega, by omega, ?_⟩
  rcases hpre with hc | ⟨hc, c, c1, c2, c3, e⟩
  · exact Or.inl hc
  · exact Or.inr ⟨hc, c, by omega, by omega, c3, e⟩

theorem guardSeq_noLoad {L : Instr} {addr : Value} {lo hi : Nat} {pre : List Instr}
    (h : GuardSeq L addr lo hi pre) : ∀ I ∈ pre, I.isLoad = false := by
  obtain ⟨pty, g, _, _, _, hpre⟩ := h
  rcases hpre with ⟨_, rfl⟩ | ⟨_, c, _, _, _, rfl⟩
  · intro I hI
    simp only [List.mem_singleton] at hI
    rw [hI]; rfl
  · intro I hI
    simp only [List.mem_cons, List.mem_singleton, List.not_mem_nil, or_false] at hI
    rcases hI with rfl | rfl <;> rfl

end LoadChecker

namespace LoadChecker

/-- C11, counterexample: the claim places the guard call of the second run
ahead of the guard call of the first run.  In `sampleArg` the first run puts a
comparison (identity 2) and a call (identity 8) in front of the load; the second
run puts its comparison (9) and call (10) between the first run's call and the
load, so the second run's call comes after the first run's. -/
theorem c11_counterexample :
    ∃ M1 M2, runOnModule 5 sampleArg = .ok (M1, false) ∧ runOnModule 5 M1 = .ok (M2, false) ∧
      (M1.blockAt 0 0).map (fun B => B.instrs.map (fun I => I.id)) = some [2, 8, 0, 1] ∧
      (M2.blockAt 0 0).map (fun B => B.instrs.map (fun I => I.id)) = some [2, 8, 9, 10, 0, 1] ∧
      M2.instrAt 0 0 1
        = some ⟨8, .void, .call "nullChecker_3_7" [.inst (.int 1) 2], some ⟨3, 7⟩⟩ ∧
      M2.instrAt 0 0 3
        = some ⟨10, .void, .call "nullChecker_3_7" [.inst (.int 1) 9], some ⟨3, 7⟩⟩ ∧
      M2.instrAt 0 0 4 = some ⟨0, .int 32, .load (.arg i32Ptr 0), some ⟨3, 7⟩⟩ :=
  ⟨_, _, rfl, rfl, rfl, rfl, rfl, rfl, rfl⟩

/-- C11, amended: after two runs of the pass every load of the input module is
preceded by two guard calls, both of the guard function of the load's location:
the instructions of the first run (a comparison and a call, or the call alone
with the folded comparison as argument when the address is a constant), then,
between them and the load, the instructions of the second run, of the same
shape with identities of their own.  So the second run's guard call stands
right before the load, after the first run's guard call. -/
theorem second_run_guard_follows_first (fuel1 fuel2 : Nat) (M M1 M2 : Module) (b1 b2 : Bool)
    (h1 : runOnModule fuel1 M = .ok (M1, b1)) (h2 : runOnModule fuel2 M1 = .ok (M2, b2))
    {i j k : Nat} {F : Function} {BB : BasicBlock} {L : Instr} {addr : Value}
    (hF : M.functions.get? i = some F) (hB : F.blocks.get? j = some BB)
    (hI : BB.instrs.get? k = some L) (hk : L.kind = .load addr) :
    ∃ BB1 BB2 front1 back1 front2 back2 pre1 pre2,
      M1.blockAt i j = some BB1 ∧ BB1.instrs = front1 ++ (pre1 ++ L :: back1) ∧
      M2.blockAt i j = some BB2 ∧ BB2.instrs = front2 ++ (pre1 ++ (pre2 ++ L :: back2)) ∧
      GuardSeq L addr M.nextId M1.nextId pre1 ∧ GuardSeq L addr M1.nextId M2.nextId pre2 := by
  obtain ⟨F1, BB1, front1, back1, pre1, Ma, Mb, hF1, _, hB1, _, hos1, _, _, ra, hia, rb⟩ :=
    load_site h1 hF hB hI hk
  have hg1 : GuardSeq L addr M.nextId M1.nextId pre1 :=
    guardSeq_mono (guardSeq_of_instrumentLoad hia) (reach_nextId_le ra) (reach_nextId_le rb)
  have hI1 : BB1.instrs.get? ((front1 ++ pre1).length + 0) = some L := by
    rw [hos1, ← List.append_assoc, get?_append_add]; rfl
  obtain ⟨F2, BB2, front2, back2, pre2, Mc, Md, hF2, _, hB2, _, hos2, e1, _, rc, hic, rd⟩ :=
    load_site h2 hF1 hB1 hI1 hk
  have hg2 : GuardSeq L addr M1.nextId M2.nextId pre2 :=
    guardSeq_mono (guardSeq_of_instrumentLoad hic) (reach_nextId_le rc) (reach_nextId_le rd)
  have htake : BB1.instrs.take ((front1 ++ pre1).length + 0) = front1 ++ pre1 := by
    rw [hos1, ← List.append_assoc, Nat.add_zero, List.take_left']
    rfl
  rw [htake] at e1
  obtain ⟨o1, o2, rfl, _, eo2⟩ := expanded_append front1 e1
  have ho2 : o2 = pre1 := expanded_eq_of_noLoad eo2 (guardSeq_noLoad hg1)
  subst ho2
  refine ⟨BB1, BB2, front1, back1, o1, back2, o2, pre2, ?_, hos1, ?_, ?_, hg1, hg2⟩
  · simp only [Module.blockAt, hF1, hB1]
  · simp only [Module.blockAt, hF2, hB2]
  · rw [hos2]; simp

/-- C11, witness: the load of `sampleArg`, run twice. -/
theorem second_run_guard_follows_first_witness :
    ∃ M1 M2, runOnModule 5 sampleArg = .ok (M1, false) ∧ runOnModule 5 M1 = .ok (M2, false) ∧
      ∃ BB1 BB2 front1 back1 front2 back2 pre1 pre2,
        M1.blockAt 0 0 = some BB1 ∧
        BB1.instrs = front1 ++ (pre1 ++ ⟨0, .int 32, .load (.arg i32Ptr 0), some ⟨3, 7⟩⟩ :: back1) ∧
        M2.blockAt 0 0 = some BB2 ∧
        BB2.instrs
          = front2 ++ (pre1 ++ (pre2 ++ ⟨0, .int 32, .load (.arg i32Ptr 0), some ⟨3, 7⟩⟩ :: back2)) ∧
        GuardSeq ⟨0, .int 32, .load (.arg i32Ptr 0), some ⟨3, 7⟩⟩ (.arg i32Ptr 0) 2 M1.nextId pre1 ∧
        GuardSeq ⟨0, .int 32, .load (.arg i32Ptr 0), some ⟨3, 7⟩⟩ (.arg i32Ptr 0) M1.nextId
          M2.nextId pre2 :=
  ⟨_, _, rfl, rfl,
    second_run_guard_follows_first 5 5 sampleArg _ _ false false rfl rfl
      (i := 0) (j := 0) (k := 0) rfl rfl rfl rfl⟩

end LoadChecker

namespace LoadChecker

theorem instrumentInstrs_existing :
    ∀ (is : List Instr) {M M' : Module} {os : List Instr},
      (∀ I ∈ is, I.isLoad = true → funcName I.dbg ∈ M.functions.map (fun F => F.name)) →
      instrumentInstrs M is = .ok (M', os) →
      M'.functions = M.functions ∧ M'.globals = M.globals ∧
        ∀ I ∈ os, I.isLoad = true → I ∈ is
  | [], M, M', os, _, h => by
    simp only [instrumentInstrs] at h
    injection h with h
    injection h with h1 h2
    subst h1; subst h2
    exact ⟨rfl, rfl, fun I hI => by cases hI⟩
  | I :: rest, M, M', os, hg, h => by
    unfold instrumentInstrs at h
    cases hk : I.kind with
    | load addr =>
      simp only [hk] at h
      cases hi : instrumentLoad M I addr with
      | error e => simp [hi] at h
      | ok r =>
        obtain ⟨M1, pre⟩ := r
        simp only [hi] at h
        cases hr : instrumentInstrs M1 rest with
        | error e => simp [hr] at h
        | ok r2 =>
          obtain ⟨M2, rest'⟩ := r2
          simp only [hr] at h
          injection h with h
          injection h with h1 h2
          subst h1; subst h2
          have hIl : I.isLoad = true := by simp [Instr.isLoad, hk]
          obtain ⟨f1, g1⟩ := instrumentLoad_existing (hg I (List.mem_cons_self _ _) hIl) hi
          obtain ⟨f2, g2, l2⟩ := instrumentInstrs_existing rest
            (fun J hJ hl => by rw [f1]; exact hg J (List.mem_cons_of_mem _ hJ) hl) hr
          refine ⟨f2.trans f1, g2.trans g1, ?_⟩
          intro J hJ hl
          rcases List.mem_append.1 hJ with hJ | hJ
          · have := guardSeq_noLoad (guardSeq_of_instrumentLoad hi) J hJ
            rw [this] at hl; cases hl
          · rcases List.mem_cons.1 hJ with rfl | hJ
            · exact List.mem_cons_self _ _
            · exact List.mem_cons_of_mem _ (l2 J hJ hl)
    | icmpEq _ _ | call _ _ | condBr _ _ _ | br _ | ret _ | other _ _ _ =>
      simp only [hk] at h
      cases hr : instrumentInstrs M rest with
      | error e => simp [hr] at h
      | ok r2 =>
        obtain ⟨M2, rest'⟩ := r2
        simp only [hr] at h
        injection h with h
        injection h with h1 h2
        subst h1; subst h2
        obtain ⟨f2, g2, l2⟩ := instrumentInstrs_existing rest
          (fun J hJ hl => hg J (List.mem_cons_of_mem _ hJ) hl) hr
        refine ⟨f2, g2, ?_⟩
        intro J hJ hl
        rcases List.mem_cons.1 hJ with rfl | hJ
        · exact List.mem_cons_self _ _
        · exact List.mem_cons_of_mem _ (l2 J hJ hl)

theorem instrumentBlocks_existing :
    ∀ (bs : List BasicBlock) {M M' : Module} {bs' : List BasicBlock},
      (∀ B ∈ bs, ∀ I ∈ B.instrs, I.isLoad = true →
        funcName I.dbg ∈ M.functions.map (fun F => F.name)) →
      instrumentBlocks M bs = .ok (M', bs') →
      M'.functions = M.functions ∧ M'.globals = M.globals ∧
        ∀ B' ∈ bs', ∀ I ∈ B'.instrs, I.isLoad = true → ∃ B ∈ bs, I ∈ B.instrs
  | [], M, M', bs', _, h => by
    simp only [instrumentBlocks] at h
    injection h with h
    injection h with h1 h2
    subst h1; subst h2
    exact ⟨rfl, rfl, fun B hB => by cases hB⟩
  | BB :: rest, M, M', bs', hg, h => by
    unfold instrumentBlocks at h
    cases hi : instrumentInstrs M BB.instrs with
    | error e => simp [hi] at h
    | ok r =>
      obtain ⟨M1, instrs'⟩ := r
      simp only [hi] at h
      cases hr : instrumentBlocks M1 rest with
      | error e => simp [hr] at h
      | ok r2 =>
        obtain ⟨M2, rest'⟩ := r2
        simp only [hr] at h
        injection h with h
        injection h with h1 h2
        subst h1; subst h2
        obtain ⟨f1, g1, l1⟩ := instrumentInstrs_existing BB.instrs (hg BB (List.mem_cons_self _ _)) hi
        obtain ⟨f2, g2, l2⟩ := instrumentBlocks_existing rest
          (fun B hB I hI hl => by rw [f1]; exact hg B (List.mem_cons_of_mem _ hB) I hI hl) hr
        refine ⟨f2.trans f1, g2.trans g1, ?_⟩
        intro B' hB' I hI hl
        rcases List.mem_cons.1 hB' with rfl | hB'
        · exact ⟨BB, List.mem_cons_self _ _, l1 I hI hl⟩
        · obtain ⟨B, hB, hIB⟩ := l2 B' hB' I hI hl
          exact ⟨B, List.mem_cons_of_mem _ hB, hIB⟩

end LoadChecker

namespace LoadChecker

theorem sameDecl_refl (F : Function) : SameDecl F F := ⟨rfl, rfl, rfl, rfl⟩

theorem forall₂_sameDecl_refl : ∀ fs : List Function, List.Forall₂ SameDecl fs fs
  | [] => List.Forall₂.nil
  | F :: fs => List.Forall₂.cons (sameDecl_refl F) (forall₂_sameDecl_refl fs)

theorem forall₂_sameDecl_trans {as bs cs : List Function} (h1 : List.Forall₂ SameDecl as bs)
    (h2 : List.Forall₂ SameDecl bs cs) : List.Forall₂ SameDecl as cs := by
  induction h1 generalizing cs with
  | nil => cases h2; exact List.Forall₂.nil
  | cons hab _ ih =>
    cases h2 with
    | cons hbc h2 =>
      exact List.Forall₂.cons
        ⟨hbc.1.trans hab.1, hbc.2.1.trans hab.2.1, hbc.2.2.1.trans hab.2.2.1,
          hbc.2.2.2.trans hab.2.2.2⟩ (ih h2)

theorem setBlocksAt_sameDecl (bs : List BasicBlock) :
    ∀ (i : Nat) (fs : List Function), List.Forall₂ SameDecl fs (setBlocksAt i bs fs)
  | 0, [] => List.Forall₂.nil
  | _ + 1, [] => List.Forall₂.nil
  | 0, _ :: fs => List.Forall₂.cons ⟨rfl, rfl, rfl, rfl⟩ (forall₂_sameDecl_refl fs)
  | i + 1, F :: fs => List.Forall₂.cons (sameDecl_refl F) (setBlocksAt_sameDecl bs i fs)

/-- When every load has its guard function already, the traversal adds no
function and no global variable and changes no declaration. -/
theorem runLoop_existing :
    ∀ (fuel i : Nat) {M M' : Module}, M.AllGuarded → runLoop fuel i M = .ok M' →
      M'.globals = M.globals ∧ List.Forall₂ SameDecl M.functions M'.functions
  | 0, i, M, M', _, h => by simp [runLoop] at h
  | fuel + 1, i, M, M', hg, h => by
    unfold runLoop at h
    cases hF : M.functions.get? i with
    | none =>
      simp only [hF] at h
      injection h with h
      subst h
      exact ⟨rfl, forall₂_sameDecl_refl _⟩
    | some F =>
      simp only [hF] at h
      cases hb : instrumentBlocks M F.blocks with
      | error e => simp [hb] at h
      | ok r =>
        obtain ⟨M1, bs'⟩ := r
        simp only [hb] at h
        have hFm : F ∈ M.functions := List.get?_mem hF
        obtain ⟨f1, g1, l1⟩ := instrumentBlocks_existing F.blocks (hg F hFm) hb
        have hnames : (M1.setBlocks i bs').functions.map (fun F => F.name)
            = M.functions.map (fun F => F.name) := by
          simp only [Module.setBlocks, setBlocksAt_name, f1]
        have hg' : (M1.setBlocks i bs').AllGuarded := by
          intro G hG B hB I hI hl
          rw [hnames]
          simp only [Module.setBlocks, f1] at hG
          rcases mem_setBlocksAt i M.functions hG with hG | ⟨F', hF', rfl⟩
          · exact hg G hG B hB I hI hl
          · obtain ⟨B0, hB0, hI0⟩ := l1 B hB I hI hl
            exact hg F hFm B0 hB0 I hI0 hl
        obtain ⟨g2, f2⟩ := runLoop_existing fuel (i + 1) hg' h
        refine ⟨g2.trans g1, forall₂_sameDecl_trans ?_ f2⟩
        simp only [Module.setBlocks, f1]
        exact setBlocksAt_sameDecl bs' i M.functions

theorem expanded_load_guarded {M0 Mfin : Module} {is os : List Instr}
    (h : Expanded M0 Mfin is os) :
    ∀ I ∈ os, I.isLoad = true → funcName I.dbg ∈ Mfin.functions.map (fun F => F.name) := by
  induction h with
  | nil => intro I hI; cases hI
  | keep hl _ ih =>
    intro J hJ hJl
    rcases List.mem_cons.1 hJ with rfl | hJ
    · rw [hl] at hJl; cases hJl
    · exact ih J hJ hJl
  | guard hk _ hi r2 _ ih =>
    intro J hJ hJl
    rcases List.mem_append.1 hJ with hJ | hJ
    · have := guardSeq_noLoad (guardSeq_of_instrumentLoad hi) J hJ
      rw [this] at hJl; cases hJl
    · rcases List.mem_cons.1 hJ with rfl | hJ
      · exact reach_name_mem r2 (instrumentLoad_guard_exists hi)
      · exact ih J hJ hJl

/-- In the output of the pass every load has its guard function. -/
theorem output_allGuarded {fuel : Nat} {M M' : Module} {b : Bool}
    (h : runOnModule fuel M = .ok (M', b)) : M'.AllGuarded := by
  obtain ⟨_, _, fs', new, hM', hfs, hnew⟩ := runOnModule_spec h
  intro F hF B hB I hI hl
  rw [hM'] at hF
  rcases List.mem_append.1 hF with hF | hF
  · obtain ⟨n, hn⟩ := List.get?_of_mem hF
    obtain ⟨F0, _, _, _, hbs⟩ := forall₂_get?_right hfs hn
    obtain ⟨m, hm⟩ := List.get?_of_mem hB
    obtain ⟨B0, _, _, hex⟩ := forall₂_get?_right hbs hm
    exact expanded_load_guarded hex I hI hl
  · have := newFn_noLoad (hnew F hF) B hB I hI
    rw [this] at hl; cases hl

end LoadChecker

namespace LoadChecker

/-- A function of the output whose name is not that of a function of the input
is one the pass appended. -/
theorem output_new_function {fuel : Nat} {M M' : Module} {b : Bool}
    (h : runOnModule fuel M = .ok (M', b)) {F : Function} (hF : F ∈ M'.functions)
    (hnew : F.name ∉ M.functions.map (fun F => F.name)) : NewFn F := by
  obtain ⟨_, _, fs', new, hM', hfs, hn⟩ := runOnModule_spec h
  rw [hM'] at hF
  rcases List.mem_append.1 hF with hF | hF
  · exfalso
    apply hnew
    obtain ⟨m, hm⟩ := List.get?_of_mem hF
    obtain ⟨F0, hF0, hn0, _⟩ := forall₂_get?_right hfs hm
    rw [hn0]
    exact List.mem_map.2 ⟨F0, List.get?_mem hF0, rfl⟩
  · exact hn F hF

/-- C13: every guard function the pass builds (a function of the output that is
not a function of the input and not one of the two declarations) has the name
of a location key, takes one boolean parameter, returns nothing, is not
variadic, and has exactly three blocks: `enter`, whose only instruction is a
conditional branch on the parameter, to `is_null` when true and to `ret` when
false; `is_null`, which calls `printf` with the diagnostic global of the key
cast to a byte pointer as sole argument, calls `exit` with the 32-bit constant
1, and branches to `ret`; and `ret`, which only returns, with no value.  The
diagnostic global is a global variable of the output; it is named `ErrorMsg...`
after the key, unless a function of the input has that name: then its name is
that name followed by a dot and a number. -/
theorem new_guard_function_shape (fuel : Nat) (M M' : Module) (b : Bool)
    (h : runOnModule fuel M = .ok (M', b)) (F : Function) (hF : F ∈ M'.functions)
    (hnew : F.name ∉ M.functions.map (fun F => F.name))
    (hp : F.name ≠ "printf") (he : F.name ≠ "exit") :
    ∃ k n g, F.name = funcName k ∧ F.type = ⟨.void, [.int 1], false⟩ ∧
      F.blocks =
        [ ⟨"enter", [⟨n, .void, .condBr (.arg (.int 1) 0) "is_null" "ret", none⟩]⟩,
          ⟨"is_null",
            [ ⟨n + 1, .int 32,
                .call "printf" [.cast (.global (.ptr (errorMsgTy k) 0) g) i8Ptr],
                none⟩,
              ⟨n + 2, .void, .call "exit" [.constInt 32 1], none⟩,
              ⟨n + 3, .void, .br "ret", none⟩ ]⟩,
          ⟨"ret", [⟨n + 4, .void, .ret none, none⟩]⟩ ] ∧
      (∃ G ∈ M'.globals, G.name = g) ∧
      (gblVarName k ∉ M.functions.map (fun F => F.name) → g = gblVarName k) ∧
      (gblVarName k ∈ M.functions.map (fun F => F.name) →
        ∃ u : Nat, g = gblVarName k ++ "." ++ toString u) := by
  obtain ⟨_, hreach, _⟩ := runOnModule_spec h
  rcases output_new_function h hF hnew with ⟨k, _, _, h1, h2, _⟩ | ⟨h1, _⟩ | ⟨h1, _⟩
  · obtain ⟨n, g, hb, hd, ⟨G, hG, hGn, _, _⟩, _⟩ :=
      (reach_guardLinked hreach).2.2 k (by rw [← h1]; exact hnew) F hF h1
    exact ⟨k, n, g, h1, h2, hb, ⟨G, hG, hGn⟩, hd.1, hd.2⟩
  · exact absurd h1 hp
  · exact absurd h1 he

/-- C13, witness: the guard function `nullChecker_3_7` built for `sampleArg`. -/
theorem new_guard_function_shape_witness :
    ∃ M' F, runOnModule 5 sampleArg = .ok (M', false) ∧ M'.functions.get? 1 = some F ∧
      F.name = "nullChecker_3_7" ∧
      ∃ k n g, F.name = funcName k ∧ F.type = ⟨.void, [.int 1], false⟩ ∧
        F.blocks =
          [ ⟨"enter", [⟨n, .void, .condBr (.arg (.int 1) 0) "is_null" "ret", none⟩]⟩,
            ⟨"is_null",
              [ ⟨n + 1, .int 32,
                  .call "printf" [.cast (.global (.ptr (errorMsgTy k) 0) g) i8Ptr],
                  none⟩,
                ⟨n + 2, .void, .call "exit" [.constInt 32 1], none⟩,
                ⟨n + 3, .void, .br "ret", none⟩ ]⟩,
            ⟨"ret", [⟨n + 4, .void, .ret none, none⟩]⟩ ] ∧
        (∃ G ∈ M'.globals, G.name = g) ∧
        (gblVarName k ∉ sampleArg.functions.map (fun F => F.name) → g = gblVarName k) ∧
        (gblVarName k ∈ sampleArg.functions.map (fun F => F.name) →
          ∃ u : Nat, g = gblVarName k ++ "." ++ toString u) :=
  ⟨_, _, rfl, rfl, rfl,
    new_guard_function_shape 5 sampleArg _ false rfl _ (by decide) (by decide) (by decide)
      (by decide)⟩

end LoadChecker

namespace LoadChecker

theorem wellFormedInstrs_cons {I : Instr} {os : List Instr} (hI : I.isTerminator = false)
    (h : wellFormedInstrs os = true) : wellFormedInstrs (I :: os) = true := by
  cases os with
  | nil => simp [wellFormedInstrs] at h
  | cons J rest => simp [wellFormedInstrs, hI, h]

theorem wellFormedInstrs_append {pre os : List Instr} (hpre : ∀ I ∈ pre, I.isTerminator = false)
    (h : wellFormedInstrs os = true) : wellFormedInstrs (pre ++ os) = true := by
  induction pre with
  | nil => exact h
  | cons I pre ih =>
    exact wellFormedInstrs_cons (hpre I (List.mem_cons_self _ _))
      (ih (fun J hJ => hpre J (List.mem_cons_of_mem _ hJ)))

theorem guardSeq_noTerminator {L : Instr} {addr : Value} {lo hi : Nat} {pre : List Instr}
    (h : GuardSeq L addr lo hi pre) : ∀ I ∈ pre, I.isTerminator = false := by
  obtain ⟨pty, g, _, _, _, hpre⟩ := h
  rcases hpre with ⟨_, rfl⟩ | ⟨_, c, _, _, _, rfl⟩
  · intro I hI
    simp only [List.mem_singleton] at hI
    rw [hI]; rfl
  · intro I hI
    simp only [List.mem_cons, List.mem_singleton, List.not_mem_nil, or_false] at hI
    rcases hI with rfl | rfl <;> rfl

theorem expanded_nil {M0 Mfin : Module} {os : List Instr} (h : Expanded M0 Mfin [] os) :
    os = [] := by
  cases h; rfl

/-- The traversal keeps a block well formed: what it inserts are
non-terminators in front of loads. -/
theorem expanded_wellFormed {M0 Mfin : Module} {is os : List Instr}
    (h : Expanded M0 Mfin is os) (hw : wellFormedInstrs is = true) :
    wellFormedInstrs os = true := by
  induction h with
  | nil => exact hw
  | @keep I is os hl e ih =>
    cases is with
    | nil => rw [expanded_nil e]; exact hw
    | cons J rest =>
      simp only [wellFormedInstrs, Bool.and_eq_true, Bool.not_eq_true'] at hw
      exact wellFormedInstrs_cons hw.1 (ih hw.2)
  | @guard L addr M1 M2 pre is os hk _ hi _ e ih =>
    have hLt : L.isTerminator = false := by simp [Instr.isTerminator, hk]
    cases is with
    | nil => simp [wellFormedInstrs, hLt] at hw
    | cons J rest =>
      simp only [wellFormedInstrs, Bool.and_eq_true, Bool.not_eq_true'] at hw
      exact wellFormedInstrs_append (guardSeq_noTerminator (guardSeq_of_instrumentLoad hi))
        (wellFormedInstrs_cons hLt (ih hw.2))

/-- C14: if every block of the input module is well formed (its last
instruction is a terminator and no earlier one is), so is every block of the
output: the blocks of the input's functions, which gain comparisons and calls
in front of loads, and the three blocks of every guard function the pass
builds. -/
theorem blocks_stay_well_formed (fuel : Nat) (M M' : Module) (b : Bool)
    (h : runOnModule fuel M = .ok (M', b)) (hw : M.BlocksWellFormed) :
    M'.BlocksWellFormed := by
  obtain ⟨_, _, fs', new, hM', hfs, hn⟩ := runOnModule_spec h
  intro F hF B hB
  rw [hM'] at hF
  rcases List.mem_append.1 hF with hF | hF
  · obtain ⟨n, hn⟩ := List.get?_of_mem hF
    obtain ⟨F0, hF0, _, _, hbs⟩ := forall₂_get?_right hfs hn
    obtain ⟨m, hm⟩ := List.get?_of_mem hB
    obtain ⟨B0, hB0, _, hex⟩ := forall₂_get?_right hbs hm
    exact expanded_wellFormed hex (hw F0 (List.get?_mem hF0) B0 (List.get?_mem hB0))
  · rcases hn F hF with ⟨k, n, g, _, _, hb⟩ | ⟨_, _, hb⟩ | ⟨_, _, hb⟩
    · rw [hb] at hB
      simp only [guardBlocks, List.mem_cons, List.mem_singleton, List.not_mem_nil,
        or_false] at hB
      rcases hB with rfl | rfl | rfl <;> rfl
    · rw [hb] at hB; cases hB
    · rw [hb] at hB; cases hB

theorem sampleArg_blocksWellFormed : sampleArg.BlocksWellFormed := by
  simp [Module.BlocksWellFormed, sampleArg, wellFormedInstrs, Instr.isTerminator]

/-- C14, witness: `sampleArg`, whose only block is a load and a return; the
instrumented block and the three blocks of the guard function are well
formed. -/
theorem blocks_stay_well_formed_witness :
    ∃ M', runOnModule 5 sampleArg = .ok (M', false) ∧ sampleArg.BlocksWellFormed ∧
      (M'.functions.map (fun F => F.blocks.map (fun B => wellFormedInstrs B.instrs)))
        = [[true], [true, true, true], [], []] ∧
      M'.BlocksWellFormed :=
  ⟨_, rfl, sampleArg_blocksWellFormed, rfl,
    blocks_stay_well_formed 5 sampleArg _ false rfl sampleArg_blocksWellFormed⟩

end LoadChecker

namespace LoadChecker

/-- Where the functions of the module come from after a load has been
instrumented. -/
theorem instrumentLoad_functions_mem {M M1 : Module} {L : Instr} {addr : Value}
    {pre : List Instr} (h : instrumentLoad M L addr = .ok (M1, pre)) :
    ∀ F ∈ M1.functions,
      (∃ G ∈ M.functions, F = G ∨ (G.name = "printf" ∧ F = printfAttrs G)) ∨
      F.name = funcName L.dbg ∨ F = printfAttrs ⟨"printf", printfTy, [], [], []⟩ ∨
      F = ⟨"exit", exitTy, [], [], []⟩ := by
  obtain ⟨pty, Mg, _, rfl, _, hc⟩ := instrumentLoad_cases h
  rcases hc with ⟨_, rfl⟩ | ⟨_, Mr, g, hr, _, rfl⟩
  · intro F hF
    exact Or.inl ⟨F, hF, Or.inl rfl⟩
  · intro F hF
    simp only [] at hF
    rcases getOrInsertFunction_mem hF with hF | hF
    · simp only [Module.setInitializer] at hF
      rw [getOrInsertGlobal_functions hr] at hF
      simp only [withPrintf, Module.updateFunction, List.mem_map] at hF
      obtain ⟨G, hG, rfl⟩ := hF
      rcases getOrInsertFunction_mem hG with hG | hG
      · simp only [withGuard, List.mem_append, List.mem_singleton] at hG
        rcases hG with hG | hG
        · left
          refine ⟨G, hG, ?_⟩
          by_cases hn : G.name = "printf"
          · exact Or.inr ⟨hn, by simp [hn]⟩
          · exact Or.inl (by simp [hn])
        · right; left
          subst hG
          have hne : funcName L.dbg ≠ "printf" := funcName_ne_printf _
          simp [guardFn, hne]
      · right; right; left
        subst hG
        simp
    · exact Or.inr (Or.inr (Or.inr hF))

theorem instrumentLoad_declAttrs (M0 : Module) (M M1 : Module) (L : Instr) (addr : Value)
    (pre : List Instr) (hinv : DeclAttrs M0 M) (h : instrumentLoad M L addr = .ok (M1, pre)) :
    DeclAttrs M0 M1 := by
  have hmem := instrumentLoad_functions_mem h
  constructor
  · intro F hF hn h0
    rcases hmem F hF with ⟨G, hG, rfl | ⟨hGn, rfl⟩⟩ | hF | rfl | rfl
    · exact hinv.1 F hG hn h0
    · obtain ⟨a1, a2⟩ := hinv.1 G hG hGn h0
      simp only [printfAttrs, a1, a2]
      exact ⟨by decide, by decide⟩
    · exact absurd (hF.symm.trans hn) (funcName_ne_printf _)
    · exact ⟨by decide, by decide⟩
    · exact absurd hn (by decide)
  · intro F hF hn h0
    rcases hmem F hF with ⟨G, hG, rfl | ⟨hGn, rfl⟩⟩ | hF | rfl | rfl
    · exact hinv.2 F hG hn h0
    · exact absurd (hGn.symm.trans hn) (by decide)
    · exact absurd (hF.symm.trans hn) (funcName_ne_exit _)
    · exact absurd hn (by decide)
    · exact ⟨rfl, rfl⟩

theorem setBlocks_declAttrs (M0 : Module) (M : Module) (i : Nat) (bs : List BasicBlock)
    (h : DeclAttrs M0 M) : DeclAttrs M0 (M.setBlocks i bs) := by
  have hm : ∀ F ∈ (M.setBlocks i bs).functions,
      ∃ G ∈ M.functions, F.name = G.name ∧ F.fnAttrs = G.fnAttrs ∧ F.paramAttrs = G.paramAttrs := by
    intro F hF
    rcases mem_setBlocksAt i M.functions hF with hF | ⟨G, hG, rfl⟩
    · exact ⟨F, hF, rfl, rfl, rfl⟩
    · exact ⟨G, List.get?_mem hG, rfl, rfl, rfl⟩
  constructor
  · intro F hF hn h0
    obtain ⟨G, hG, e1, e2, e3⟩ := hm F hF
    rw [e2, e3]
    exact h.1 G hG (e1.symm.trans hn) h0
  · intro F hF hn h0
    obtain ⟨G, hG, e1, e2, e3⟩ := hm F hF
    rw [e2, e3]
    exact h.2 G hG (e1.symm.trans hn) h0

theorem reach_declAttrs {M0 M : Module} (h : Reach M0 M) : DeclAttrs M0 M :=
  reach_invariant (P := DeclAttrs M0) (instrumentLoad_declAttrs M0) (setBlocks_declAttrs M0) h
    ⟨fun F hF hn h0 => absurd (List.mem_map.2 ⟨F, hF, hn⟩) h0,
     fun F hF hn h0 => absurd (List.mem_map.2 ⟨F, hF, hn⟩) h0⟩

end LoadChecker

namespace LoadChecker

/-- C15, counterexample: the claim says that `exit` is declared as never
returning.  The declaration the pass creates for `sampleArg` has no attribute
at all, the no-return attribute included; `printf` has the attributes the claim
states. -/
theorem c15_counterexample :
    ∃ M' F, runOnModule 5 sampleArg = .ok (M', false) ∧ M'.functions.get? 3 = some F ∧
      F = ⟨"exit", ⟨.void, [.int 32], false⟩, [], [], []⟩ ∧ Attr.noReturn ∉ F.fnAttrs ∧
      M'.functions.get? 2
        = some ⟨"printf", ⟨.int 32, [.ptr (.int 8) 0], true⟩, [.noUnwind],
            [(0, .noCapture), (0, .readOnly)], []⟩ :=
  ⟨_, _, rfl, rfl, rfl, by decide, rfl⟩

/-- C15, amended: the declarations the pass creates have this shape.  When the
input module has no function `printf`, a function `printf` of the output is a
declaration (no block) of type variadic `i32 (i8*)`, marked as not throwing,
its parameter 0 marked as not captured and read-only, without any other
attribute.  When the input has no function `exit`, a function `exit` of the
output is a declaration of type `void (i32)`, not variadic, without any
attribute: it is not marked as never returning. -/
theorem declarations_shape (fuel : Nat) (M M' : Module) (b : Bool)
    (h : runOnModule fuel M = .ok (M', b)) :
    (∀ F ∈ M'.functions, F.name = "printf" → "printf" ∉ M.functions.map (fun F => F.name) →
      F.type = ⟨.int 32, [.ptr (.int 8) 0], true⟩ ∧ F.blocks = [] ∧
        F.fnAttrs = [.noUnwind] ∧ F.paramAttrs = [(0, .noCapture), (0, .readOnly)]) ∧
    (∀ F ∈ M'.functions, F.name = "exit" → "exit" ∉ M.functions.map (fun F => F.name) →
      F.type = ⟨.void, [.int 32], false⟩ ∧ F.blocks = [] ∧ F.fnAttrs = [] ∧
        F.paramAttrs = [] ∧ Attr.noReturn ∉ F.fnAttrs) := by
  obtain ⟨_, hreach, _⟩ := runOnModule_spec h
  obtain ⟨ha1, ha2⟩ := reach_declAttrs hreach
  constructor
  · intro F hF hn h0
    obtain ⟨a1, a2⟩ := ha1 F hF hn h0
    refine ⟨?_, ?_, a1, a2⟩
    all_goals
      rcases output_new_function h hF (by rw [hn]; exact h0) with
        ⟨k, _, _, h1, _, _⟩ | ⟨_, h2, h3⟩ | ⟨h1, _, _⟩
      · exact absurd (h1.symm.trans hn) (funcName_ne_printf k)
      · first | exact h2 | exact h3
      · exact absurd (h1.symm.trans hn) (by decide)
  · intro F hF hn h0
    obtain ⟨a1, a2⟩ := ha2 F hF hn h0
    refine ⟨?_, ?_, a1, a2, by rw [a1]; exact List.not_mem_nil _⟩
    all_goals
      rcases output_new_function h hF (by rw [hn]; exact h0) with
        ⟨k, _, _, h1, _, _⟩ | ⟨h1, _, _⟩ | ⟨_, h2, h3⟩
      · exact absurd (h1.symm.trans hn) (funcName_ne_exit k)
      · exact absurd (h1.symm.trans hn) (by decide)
      · first | exact h2 | exact h3

/-- C15, witness: the declarations created for `sampleArg`, which has neither
`printf` nor `exit`. -/
theorem declarations_shape_witness :
    ∃ M', runOnModule 5 sampleArg = .ok (M', false) ∧
      M'.functions.map (fun F => F.name) = ["f", "nullChecker_3_7", "printf", "exit"] ∧
      (∀ F ∈ M'.functions, F.name = "printf" →
        "printf" ∉ sampleArg.functions.map (fun F => F.name) →
        F.type = ⟨.int 32, [.ptr (.int 8) 0], true⟩ ∧ F.blocks = [] ∧
          F.fnAttrs = [.noUnwind] ∧ F.paramAttrs = [(0, .noCapture), (0, .readOnly)]) ∧
      (∀ F ∈ M'.functions, F.name = "exit" →
        "exit" ∉ sampleArg.functions.map (fun F => F.name) →
        F.type = ⟨.void, [.int 32], false⟩ ∧ F.blocks = [] ∧ F.fnAttrs = [] ∧
          F.paramAttrs = [] ∧ Attr.noReturn ∉ F.fnAttrs) :=
  ⟨_, rfl, rfl, declarations_shape 5 sampleArg _ false rfl⟩

end LoadChecker

namespace LoadChecker

theorem funcName_guardName (k : Option DebugLoc) :
    funcName k = "nullChecker" ∨ startsWith "nullChecker_" (funcName k) = true := by
  cases k with
  | none => exact Or.inl rfl
  | some d =>
    right
    unfold startsWith
    rw [funcName_data]
    simp only [List.isPrefixOf_iff_prefix]
    exact ⟨Nat.toDigits 10 d.line ++ '_' :: Nat.toDigits 10 d.col, by simp⟩

theorem funcName_not_mem_of_noGuardNames {M : Module} (hno : M.NoGuardNames)
    (k : Option DebugLoc) : funcName k ∉ M.functions.map (fun F => F.name) := by
  intro hm
  obtain ⟨F, hF, hn⟩ := List.mem_map.1 hm
  obtain ⟨h1, h2⟩ := hno F hF
  rcases funcName_guardName k with e | e
  · exact h1 (hn.trans e)
  · rw [hn, e] at h2; cases h2

/-- C16: let no function of the input module be named `nullChecker` or have a
name that starts with `nullChecker_`.  The map from a location key to the name
of the guard function is injective, and a located key never gets the unlocated
name `nullChecker`; so loads with different keys never share a guard function.
For every load `L` of the input, the call right before it in the output calls
the function named after the key of `L`, and that call resolves to a function
`Fg` of the output with a body, which is exactly this: the block `enter`
branches on the parameter to `is_null` when it is true and to `ret` otherwise;
the block `is_null` calls `printf` with the address of a global variable `g` as
only argument, then `exit` with 1; the block `ret` returns.  The variable `g` is
a global variable of the output, every global variable of that name holds the
text with exactly the line and column of `L` (the text without location when
`L` has none), and so does the string at the address of `g`; `g` is named
`ErrorMsg...` after the key of `L` unless a function of the input has that name.
Run with `printf` and `exit` external, the callee entered with a true argument
makes exactly two external calls, `printf` on the address of `g` and `exit`
with 1.  Every function of the output with the name of the callee has such a
body, printing a variable that holds the text of `L`. -/
theorem guard_prints_own_location (fuel : Nat) (M M' : Module) (b : Bool)
    (h : runOnModule fuel M = .ok (M', b)) (hno : M.NoGuardNames) :
    (∀ k k' : Option DebugLoc, funcName k = funcName k' → k = k') ∧
    (∀ d : DebugLoc, funcName (some d) ≠ "nullChecker") ∧
    ∀ (i j k : Nat) (F : Function) (BB : BasicBlock) (L : Instr) (addr : Value),
      M.functions.get? i = some F → F.blocks.get? j = some BB →
      BB.instrs.get? k = some L → L.kind = .load addr →
      ∃ F' BB' p call args gi Fg n g,
        M'.functions.get? i = some F' ∧ F'.blocks.get? j = some BB' ∧
        BB'.instrs.get? p = some call ∧ BB'.instrs.get? (p + 1) = some L ∧
        call.kind = .call (funcName L.dbg) args ∧
        M'.definedFunction (funcName L.dbg) = some gi ∧ M'.functions.get? gi = some Fg ∧
        Fg.blocks =
          [ ⟨"enter", [⟨n, .void, .condBr (.arg (.int 1) 0) "is_null" "ret", none⟩]⟩,
            ⟨"is_null",
              [ ⟨n + 1, .int 32,
                  .call "printf" [.cast (.global (.ptr (errorMsgTy L.dbg) 0) g) i8Ptr],
                  none⟩,
                ⟨n + 2, .void, .call "exit" [.constInt 32 1], none⟩,
                ⟨n + 3, .void, .br "ret", none⟩ ]⟩,
            ⟨"ret", [⟨n + 4, .void, .ret none, none⟩]⟩ ] ∧
        (∃ G ∈ M'.globals, G.name = g) ∧
        (∀ G ∈ M'.globals, G.name = g →
          G.initializer = some (.cstring
            (match L.dbg with
             | some d => "Trying to load a NULL pointer at line " ++ toString d.line ++ ", col "
                 ++ toString d.col ++ ". Exiting early.\n"
             | none => "Trying to load a NULL pointer. Exiting early.\n"))) ∧
        M'.textAt (.addrOf g) = some
          (match L.dbg with
           | some d => "Trying to load a NULL pointer at line " ++ toString d.line ++ ", col "
               ++ toString d.col ++ ". Exiting early.\n"
           | none => "Trying to load a NULL pointer. Exiting early.\n") ∧
        (gblVarName L.dbg ∉ M.functions.map (fun F => F.name) → g = gblVarName L.dbg) ∧
        (gblVarName L.dbg ∈ M.functions.map (fun F => F.name) →
          ∃ u : Nat, g = gblVarName L.dbg ++ "." ++ toString u) ∧
        (M'.definedFunction "printf" = none → M'.definedFunction "exit" = none →
          ∀ {σ : Type} (H : Host σ) (rest : List Frame) (mem : σ) (trace : List Event),
            (∀ args mem, H.external "exit" args mem = none) →
            (∀ args mem, H.external "printf" args mem ≠ none) →
            (exec H M' 3 ⟨Frame.entry gi [.int 1] :: rest, mem, trace, .running⟩).status
              = .stopped ∧
            (exec H M' 3 ⟨Frame.entry gi [.int 1] :: rest, mem, trace, .running⟩).trace
              = trace ++ [.external "printf" [.addrOf g], .external "exit" [.int 1]]) ∧
        ∀ Fh ∈ M'.functions, Fh.name = funcName L.dbg →
          ∃ m v,
            Fh.blocks =
              [ ⟨"enter", [⟨m, .void, .condBr (.arg (.int 1) 0) "is_null" "ret", none⟩]⟩,
                ⟨"is_null",
                  [ ⟨m + 1, .int 32,
                      .call "printf" [.cast (.global (.ptr (errorMsgTy L.dbg) 0) v) i8Ptr],
                      none⟩,
                    ⟨m + 2, .void, .call "exit" [.constInt 32 1], none⟩,
                    ⟨m + 3, .void, .br "ret", none⟩ ]⟩,
                ⟨"ret", [⟨m + 4, .void, .ret none, none⟩]⟩ ] ∧
            M'.textAt (.addrOf v) = some
              (match L.dbg with
               | some d => "Trying to load a NULL pointer at line " ++ toString d.line ++ ", col "
                   ++ toString d.col ++ ". Exiting early.\n"
               | none => "Trying to load a NULL pointer. Exiting early.\n") := by
  refine ⟨fun k k' e => funcName_injective e,
    fun d e => Option.noConfusion (@funcName_injective (some d) none e), ?_⟩
  intro i j k F BB L addr hF hB hI hk
  have hnew := funcName_not_mem_of_noGuardNames hno L.dbg
  obtain ⟨F', BB', p, call, args, c1, c2, c3, c4, c5, c6⟩ := call_before_load h hF hB hI hk
  have hin : funcName L.dbg ∈ M'.functions.map (fun F => F.name) := by
    obtain ⟨G, hG, hn⟩ := c6
    exact List.mem_map.2 ⟨G, hG, hn⟩
  obtain ⟨_, hreach, _⟩ := runOnModule_spec h
  obtain ⟨gi, Fg, n, g, hdef, hget, hb, hd, ⟨G, hG, hGn, _, _⟩, hall⟩ :=
    guard_function_lookup h hin hnew
  have htext := textAt_of_all ⟨G, hG, hGn⟩ hall
  rw [errorMsg_text] at htext
  refine ⟨F', BB', p, call, args, gi, Fg, n, g, c1, c2, c3, c4, c5, hdef, hget, hb,
    ⟨G, hG, hGn⟩, ?_, htext, hd.1, hd.2, ?_, ?_⟩
  · intro G' hG' hn'
    have ht := hall G' hG' hn'
    rw [errorMsg_text] at ht
    exact ht
  · intro hprintf hexit σ H rest mem trace hnoret hret
    obtain ⟨c', hc, hs, ht⟩ := guard_fails H hget hb hprintf hexit hnoret hret rest mem trace
    rw [hc]
    exact ⟨hs, ht⟩
  · intro Fh hFh hn
    obtain ⟨m, v, hb', _, ⟨G', hG', hGn', _, _⟩, hall'⟩ :=
      (reach_guardLinked hreach).2.2 L.dbg hnew Fh hFh hn
    have ht := textAt_of_all ⟨G', hG', hGn'⟩ hall'
    rw [errorMsg_text] at ht
    exact ⟨m, v, hb', ht⟩

theorem sampleTwo_noGuardNames : sampleTwo.NoGuardNames := by
  simp [Module.NoGuardNames, sampleTwo]
  decide

/-- C16, witness: `sampleTwo`, whose only function is named `f` and whose two
loads are at 3:7 and 4:2.  The two guard functions print different variables,
which hold the texts for 3:7 and for 4:2; run on the sample host with a null
first argument the program prints the variable for 3:7, and with a null second
argument only, the one for 4:2. -/
theorem guard_prints_own_location_witness :
    ∃ M', runOnModule 6 sampleTwo = .ok (M', false) ∧ sampleTwo.NoGuardNames ∧
      M'.functions.map (fun F => F.name)
        = ["f", "nullChecker_3_7", "printf", "exit", "nullChecker_4_2"] ∧
      M'.textAt (.addrOf "ErrorMsg_3_7")
        = some "Trying to load a NULL pointer at line 3, col 7. Exiting early.\n" ∧
      M'.textAt (.addrOf "ErrorMsg_4_2")
        = some "Trying to load a NULL pointer at line 4, col 2. Exiting early.\n" ∧
      (exec sampleHost M' 12 (enter 0 [.null, .null] ())).trace
        = [.external "printf" [.addrOf "ErrorMsg_3_7"], .external "exit" [.int 1]] ∧
      (exec sampleHost M' 12 (enter 0 [.ptr 1, .null] ())).trace
        = [.load 0 (.ptr 1) (.int 42), .external "printf" [.addrOf "ErrorMsg_4_2"],
            .external "exit" [.int 1]] ∧
      ((∀ k k' : Option DebugLoc, funcName k = funcName k' → k = k') ∧
      (∀ d : DebugLoc, funcName (some d) ≠ "nullChecker") ∧
      ∀ (i j k : Nat) (F : Function) (BB : BasicBlock) (L : Instr) (addr : Value),
        sampleTwo.functions.get? i = some F → F.blocks.get? j = some BB →
        BB.instrs.get? k = some L → L.kind = .load addr →
        ∃ F' BB' p call args gi Fg n g,
          M'.functions.get? i = some F' ∧ F'.blocks.get? j = some BB' ∧
          BB'.instrs.get? p = some call ∧ BB'.instrs.get? (p + 1) = some L ∧
          call.kind = .call (funcName L.dbg) args ∧
          M'.definedFunction (funcName L.dbg) = some gi ∧ M'.functions.get? gi = some Fg ∧
          Fg.blocks =
            [ ⟨"enter", [⟨n, .void, .condBr (.arg (.int 1) 0) "is_null" "ret", none⟩]⟩,
              ⟨"is_null",
                [ ⟨n + 1, .int 32,
                    .call "printf" [.cast (.global (.ptr (errorMsgTy L.dbg) 0) g) i8Ptr],
                    none⟩,
                  ⟨n + 2, .void, .call "exit" [.constInt 32 1], none⟩,
                  ⟨n + 3, .void, .br "ret", none⟩ ]⟩,
              ⟨"ret", [⟨n + 4, .void, .ret none, none⟩]⟩ ] ∧
          (∃ G ∈ M'.globals, G.name = g) ∧
          (∀ G ∈ M'.globals, G.name = g →
            G.initializer = some (.cstring
              (match L.dbg with
               | some d => "Trying to load a NULL pointer at line " ++ toString d.line ++ ", col "
                   ++ toString d.col ++ ". Exiting early.\n"
               | none => "Trying to load a NULL pointer. Exiting early.\n"))) ∧
          M'.textAt (.addrOf g) = some
            (match L.dbg with
             | some d => "Trying to load a NULL pointer at line " ++ toString d.line ++ ", col "
                 ++ toString d.col ++ ". Exiting early.\n"
             | none => "Trying to load a NULL pointer. Exiting early.\n") ∧
          (gblVarName L.dbg ∉ sampleTwo.functions.map (fun F => F.name) → g = gblVarName L.dbg) ∧
          (gblVarName L.dbg ∈ sampleTwo.functions.map (fun F => F.name) →
            ∃ u : Nat, g = gblVarName L.dbg ++ "." ++ toString u) ∧
          (M'.definedFunction "printf" = none → M'.definedFunction "exit" = none →
            ∀ {σ : Type} (H : Host σ) (rest : List Frame) (mem : σ) (trace : List Event),
              (∀ args mem, H.external "exit" args mem = none) →
              (∀ args mem, H.external "printf" args mem ≠ none) →
              (exec H M' 3 ⟨Frame.entry gi [.int 1] :: rest, mem, trace, .running⟩).status
                = .stopped ∧
              (exec H M' 3 ⟨Frame.entry gi [.int 1] :: rest, mem, trace, .running⟩).trace
                = trace ++ [.external "printf" [.addrOf g], .external "exit" [.int 1]]) ∧
          ∀ Fh ∈ M'.functions, Fh.name = funcName L.dbg →
            ∃ m v,
              Fh.blocks =
                [ ⟨"enter", [⟨m, .void, .condBr (.arg (.int 1) 0) "is_null" "ret", none⟩]⟩,
                  ⟨"is_null",
                    [ ⟨m + 1, .int 32,
                        .call "printf" [.cast (.global (.ptr (errorMsgTy L.dbg) 0) v) i8Ptr],
                        none⟩,
                      ⟨m + 2, .void, .call "exit" [.constInt 32 1], none⟩,
                      ⟨m + 3, .void, .br "ret", none⟩ ]⟩,
                  ⟨"ret", [⟨m + 4, .void, .ret none, none⟩]⟩ ] ∧
              M'.textAt (.addrOf v) = some
                (match L.dbg with
                 | some d => "Trying to load a NULL pointer at line " ++ toString d.line ++ ", col "
                     ++ toString d.col ++ ". Exiting early.\n"
                 | none => "Trying to load a NULL pointer. Exiting early.\n")) :=
  ⟨_, rfl, sampleTwo_noGuardNames, rfl, rfl, rfl, rfl, rfl,
    guard_prints_own_location 6 sampleTwo _ false rfl sampleTwo_noGuardNames⟩

end LoadChecker

namespace LoadChecker

theorem getOrInsertGlobal_ne_outOfFuel (M : Module) (name : String) (ty : Ty) :
    M.getOrInsertGlobal name ty ≠ .error .outOfFuel := by
  unfold Module.getOrInsertGlobal
  split
  · simp
  · split <;> simp
  · simp

theorem buildGuard_ne_outOfFuel (M : Module) (cmp : Value) (k : Option DebugLoc) :
    buildGuard M cmp k ≠ .error .outOfFuel := by
  unfold buildGuard
  split
  · simp
  · simp only []
    split
    · simp
    · split
      · rename_i e he
        intro h
        injection h with h
        subst h
        exact getOrInsertGlobal_ne_outOfFuel _ _ _ he
      · simp

theorem instrumentLoad_ne_outOfFuel (M : Module) (L : Instr) (addr : Value) :
    instrumentLoad M L addr ≠ .error .outOfFuel := by
  unfold instrumentLoad
  split
  · simp
  · simp only []
    split
    · rename_i e he
      split at he
      · cases he
      · intro h
        injection h with h
        subst h
        exact buildGuard_ne_outOfFuel _ _ _ he
    · simp

end LoadChecker

namespace LoadChecker

theorem instrumentInstrs_ne_outOfFuel :
    ∀ (is : List Instr) (M : Module), instrumentInstrs M is ≠ .error .outOfFuel
  | [], M => by simp [instrumentInstrs]
  | I :: rest, M => by
    unfold instrumentInstrs
    cases hk : I.kind with
    | load addr =>
      simp only []
      cases hi : instrumentLoad M I addr with
      | error e =>
        simp only []
        intro h
        injection h with h
        subst h
        exact instrumentLoad_ne_outOfFuel _ _ _ hi
      | ok r =>
        obtain ⟨M1, pre⟩ := r
        simp only []
        cases hr : instrumentInstrs M1 rest with
        | error e =>
          simp only []
          intro h
          injection h with h
          subst h
          exact instrumentInstrs_ne_outOfFuel rest M1 hr
        | ok r2 => simp
    | icmpEq _ _ | call _ _ | condBr _ _ _ | br _ | ret _ | other _ _ _ =>
      simp only []
      cases hr : instrumentInstrs M rest with
      | error e =>
        simp only []
        intro h
        injection h with h
        subst h
        exact instrumentInstrs_ne_outOfFuel rest M hr
      | ok r2 => simp

theorem instrumentBlocks_ne_outOfFuel :
    ∀ (bs : List BasicBlock) (M : Module), instrumentBlocks M bs ≠ .error .outOfFuel
  | [], M => by simp [instrumentBlocks]
  | BB :: rest, M => by
    unfold instrumentBlocks
    cases hi : instrumentInstrs M BB.instrs with
    | error e =>
      simp only []
      intro h
      injection h with h
      subst h
      exact instrumentInstrs_ne_outOfFuel _ _ hi
    | ok r =>
      obtain ⟨M1, instrs'⟩ := r
      simp only []
      cases hr : instrumentBlocks M1 rest with
      | error e =>
        simp only []
        intro h
        injection h with h
        subst h
        exact instrumentBlocks_ne_outOfFuel rest M1 hr
      | ok r2 => simp

theorem getOrInsertFunction_length_le (M : Module) (name : String) (ty : FunctionType) :
    (M.getOrInsertFunction name ty).functions.length ≤ M.functions.length + 1 := by
  unfold Module.getOrInsertFunction
  split
  · omega
  · simp

/-- One load adds at most three functions: its guard and the two
declarations. -/
theorem instrumentLoad_length_le {M M1 : Module} {L : Instr} {addr : Value} {pre : List Instr}
    (h : instrumentLoad M L addr = .ok (M1, pre)) :
    M1.functions.length ≤ M.functions.length + 3 := by
  obtain ⟨pty, Mg, _, rfl, _, hc⟩ := instrumentLoad_cases h
  rcases hc with ⟨_, rfl⟩ | ⟨_, Mr, g, hr, _, rfl⟩
  · simp
  · simp only []
    have h1 := getOrInsertFunction_length_le
      (Mr.setInitializer g (.cstring (errorMsg L.dbg))) "exit" exitTy
    have h2 : (Mr.setInitializer g (.cstring (errorMsg L.dbg))).functions.length
        = Mr.functions.length := rfl
    have h3 := getOrInsertGlobal_functions hr
    have h4 : ∀ N : Module, (withPrintf N).functions.length ≤ N.functions.length + 1 := by
      intro N
      simp only [withPrintf, Module.updateFunction, List.length_map]
      exact getOrInsertFunction_length_le N "printf" printfTy
    have h5 := h4 (withGuard { M with nextId := (cmpOf M L addr pty).2.2 }
      (cmpOf M L addr pty).1 L.dbg g)
    have h6 : (withGuard { M with nextId := (cmpOf M L addr pty).2.2 }
        (cmpOf M L addr pty).1 L.dbg g).functions.length = M.functions.length + 1 := by
      simp [withGuard]
    rw [h2, h3] at h1
    omega

theorem instrumentInstrs_length_le :
    ∀ (is : List Instr) {M M' : Module} {os : List Instr},
      instrumentInstrs M is = .ok (M', os) →
      M'.functions.length ≤ M.functions.length + 3 * is.countP Instr.isLoad
  | [], M, M', os, h => by
    simp only [instrumentInstrs] at h
    injection h with h
    injection h with h1 h2
    subst h1
    simp
  | I :: rest, M, M', os, h => by
    unfold instrumentInstrs at h
    cases hk : I.kind with
    | load addr =>
      simp only [hk] at h
      cases hi : instrumentLoad M I addr with
      | error e => simp [hi] at h
      | ok r =>
        obtain ⟨M1, pre⟩ := r
        simp only [hi] at h
        cases hr : instrumentInstrs M1 rest with
        | error e => simp [hr] at h
        | ok r2 =>
          obtain ⟨M2, rest'⟩ := r2
          simp only [hr] at h
          injection h with h
          injection h with h1 h2
          subst h1
          have hIl : I.isLoad = true := by simp [Instr.isLoad, hk]
          have l1 := instrumentLoad_length_le hi
          have l2 := instrumentInstrs_length_le rest hr
          rw [List.countP_cons_of_pos _ _ hIl]
          omega
    | icmpEq _ _ | call _ _ | condBr _ _ _ | br _ | ret _ | other _ _ _ =>
      simp only [hk] at h
      cases hr : instrumentInstrs M rest with
      | error e => simp [hr] at h
      | ok r2 =>
        obtain ⟨M2, rest'⟩ := r2
        simp only [hr] at h
        injection h with h
        injection h with h1 h2
        subst h1
        have hIl : ¬ (I.isLoad = true) := by simp [Instr.isLoad, hk]
        have l2 := instrumentInstrs_length_le rest hr
        rw [List.countP_cons_of_neg _ _ hIl]
        exact l2

theorem instrumentBlocks_length_le :
    ∀ (bs : List BasicBlock) {M M' : Module} {bs' : List BasicBlock},
      instrumentBlocks M bs = .ok (M', bs') →
      M'.functions.length ≤ M.functions.length + 3 * (bs.map BasicBlock.loadCount).sum
  | [], M, M', bs', h => by
    simp only [instrumentBlocks] at h
    injection h with h
    injection h with h1 h2
    subst h1
    simp
  | BB :: rest, M, M', bs', h => by
    unfold instrumentBlocks at h
    cases hi : instrumentInstrs M BB.instrs with
    | error e => simp [hi] at h
    | ok r =>
      obtain ⟨M1, instrs'⟩ := r
      simp only [hi] at h
      cases hr : instrumentBlocks M1 rest with
      | error e => simp [hr] at h
      | ok r2 =>
        obtain ⟨M2, rest'⟩ := r2
        simp only [hr] at h
        injection h with h
        injection h with h1 h2
        subst h1
        have l1 := instrumentInstrs_length_le BB.instrs hi
        have l2 := instrumentBlocks_length_le rest hr
        simp only [List.map_cons, List.sum_cons, BasicBlock.loadCount] at l2 ⊢
        omega

end LoadChecker

namespace LoadChecker

theorem runLoop_more_fuel :
    ∀ (fuel i : Nat) (M : Module) (r : Except Fault Module), runLoop fuel i M = r →
      r ≠ .error .outOfFuel → ∀ d, runLoop (fuel + d) i M = r
  | 0, i, M, r, h, hr, d => by
    simp only [runLoop] at h
    exact absurd h.symm hr
  | fuel + 1, i, M, r, h, hr, d => by
    rw [show fuel + 1 + d = (fuel + d) + 1 by omega]
    unfold runLoop at h ⊢
    cases hF : M.functions.get? i with
    | none => simp only [hF] at h ⊢; exact h
    | some F =>
      simp only [hF] at h ⊢
      cases hb : instrumentBlocks M F.blocks with
      | error e => simp only [hb] at h ⊢; exact h
      | ok q =>
        obtain ⟨M1, bs'⟩ := q
        simp only [hb] at h ⊢
        exact runLoop_more_fuel fuel (i + 1) _ r h hr d

theorem loadCount_append (as bs : List Function) :
    loadCount (as ++ bs) = loadCount as + loadCount bs := by
  simp [loadCount]

theorem loadCount_sameFn {as bs : List Function} (h : List.Forall₂ SameFn as bs) :
    loadCount bs = loadCount as := by
  induction h with
  | nil => rfl
  | @cons F F' l l' hab _ ih =>
    simp only [loadCount, List.map_cons, List.sum_cons] at ih ⊢
    rw [ih]
    simp only [Function.loadCount, hab.2.2]

theorem countP_isLoad_of_noLoad {is : List Instr} (h : ∀ I ∈ is, I.isLoad = false) :
    is.countP Instr.isLoad = 0 := by
  rw [List.countP_eq_zero]
  intro I hI
  rw [h I hI]
  exact Bool.false_ne_true

theorem function_loadCount_of_noLoad {F : Function}
    (h : ∀ B ∈ F.blocks, ∀ I ∈ B.instrs, I.isLoad = false) : F.loadCount = 0 := by
  unfold Function.loadCount
  apply List.sum_eq_zero
  intro n hn
  obtain ⟨B, hB, rfl⟩ := List.mem_map.1 hn
  exact countP_isLoad_of_noLoad (h B hB)

theorem loadCount_newFn {new : List Function} (h : ∀ F ∈ new, NewFn F) : loadCount new = 0 := by
  unfold loadCount
  apply List.sum_eq_zero
  intro n hn
  obtain ⟨F, hF, rfl⟩ := List.mem_map.1 hn
  exact function_loadCount_of_noLoad (newFn_noLoad (h F hF))

theorem setBlocksAt_length (bs : List BasicBlock) :
    ∀ (i : Nat) (fs : List Function), (setBlocksAt i bs fs).length = fs.length
  | 0, [] => rfl
  | _ + 1, [] => rfl
  | 0, _ :: _ => rfl
  | i + 1, _ :: fs => by simp [setBlocksAt, setBlocksAt_length bs i fs]

theorem setBlocksAt_drop (bs : List BasicBlock) :
    ∀ (i : Nat) (fs : List Function), (setBlocksAt i bs fs).drop (i + 1) = fs.drop (i + 1)
  | 0, [] => rfl
  | _ + 1, [] => rfl
  | 0, _ :: _ => rfl
  | i + 1, _ :: fs => by simp [setBlocksAt, setBlocksAt_drop bs i fs]

theorem forall₂_drop {α β : Type} {R : α → β → Prop} {as : List α} {bs : List β}
    (h : List.Forall₂ R as bs) : ∀ n, List.Forall₂ R (as.drop n) (bs.drop n) := by
  induction h with
  | nil => intro n; simp
  | cons hab hrest ih =>
    intro n
    cases n with
    | zero => exact List.Forall₂.cons hab hrest
    | succ n => exact ih n

theorem drop_of_get? {α : Type} {a : α} :
    ∀ {l : List α} {i : Nat}, l.get? i = some a → l.drop i = a :: l.drop (i + 1)
  | [], _, h => by simp at h
  | b :: l, 0, h => by
    simp only [List.get?_cons_zero, Option.some.injEq] at h
    subst h
    rfl
  | b :: l, i + 1, h => by
    simp only [List.get?_cons_succ] at h
    simpa using drop_of_get? h

end LoadChecker

namespace LoadChecker

/-- The traversal from position `i` ends (with a module or a fault of the host)
when the fuel exceeds the number of functions left plus three per load left. -/
theorem runLoop_terminates :
    ∀ (fuel i : Nat) (M : Module), i ≤ M.functions.length →
      (M.functions.length - i) + 3 * loadCount (M.functions.drop i) < fuel →
      runLoop fuel i M ≠ .error .outOfFuel
  | 0, _, _, _, hlt => by omega
  | fuel + 1, i, M, hi, hlt => by
    unfold runLoop
    cases hF : M.functions.get? i with
    | none => simp
    | some F =>
      simp only []
      cases hb : instrumentBlocks M F.blocks with
      | error e =>
        simp only []
        intro h
        injection h with h
        subst h
        exact instrumentBlocks_ne_outOfFuel _ _ hb
      | ok q =>
        obtain ⟨M1, bs'⟩ := q
        simp only []
        obtain ⟨_, ⟨old', new, hM1, hsame, hnew⟩, _⟩ :=
          instrumentBlocks_spec F.blocks hb (Reach.refl M)
        have hlen := instrumentBlocks_length_le F.blocks hb
        have hilt : i < M.functions.length := by
          rcases Nat.lt_or_ge i M.functions.length with h | h
          · exact h
          · rw [List.get?_eq_none.2 h] at hF; cases hF
        have hold : old'.length = M.functions.length := hsame.length_eq.symm
        have hdrop : loadCount (M.functions.drop i)
            = F.loadCount + loadCount (M.functions.drop (i + 1)) := by
          rw [drop_of_get? hF]
          simp [loadCount]
        have hdrop' : loadCount ((M1.setBlocks i bs').functions.drop (i + 1))
            = loadCount (M.functions.drop (i + 1)) := by
          simp only [Module.setBlocks, setBlocksAt_drop, hM1]
          rw [List.drop_append_of_le_length (by omega), loadCount_append, loadCount_newFn hnew,
            loadCount_sameFn (forall₂_drop hsame (i + 1))]
          rfl
        have hlen' : (M1.setBlocks i bs').functions.length = M1.functions.length := by
          simp only [Module.setBlocks, setBlocksAt_length]
        have hge : M.functions.length ≤ M1.functions.length := by
          rw [hM1, List.length_append]; omega
        apply runLoop_terminates fuel (i + 1) (M1.setBlocks i bs')
        · rw [hlen']; omega
        · rw [hlen', hdrop']
          rw [hdrop] at hlt
          have : (F.blocks.map BasicBlock.loadCount).sum = F.loadCount := rfl
          rw [this] at hlen
          omega

/-- With at least `fuelBound` loop tests the pass ends, and with the same
result whatever the fuel. -/
theorem runOnModule_terminates (M : Module) :
    ∃ r, r ≠ .error .outOfFuel ∧ ∀ fuel, M.fuelBound ≤ fuel → runOnModule fuel M = r := by
  have hne : runLoop M.fuelBound 0 M ≠ .error .outOfFuel :=
    runLoop_terminates M.fuelBound 0 M (Nat.zero_le _) (by
      simp only [Module.fuelBound, List.drop_zero, Nat.sub_zero]; omega)
  refine ⟨runOnModule M.fuelBound M, ?_, ?_⟩
  · unfold runOnModule
    cases hr : runLoop M.fuelBound 0 M with
    | error e =>
      simp only []
      intro h
      injection h with h
      subst h
      exact hne hr
    | ok M' => simp
  · intro fuel hf
    obtain ⟨d, rfl⟩ := Nat.exists_eq_add_of_le hf
    unfold runOnModule
    rw [runLoop_more_fuel M.fuelBound 0 M _ rfl hne d]

end LoadChecker

namespace LoadChecker

theorem guardSeq_callCount {L : Instr} {addr : Value} {lo hi : Nat} {pre : List Instr}
    (h : GuardSeq L addr lo hi pre) : pre.countP Instr.isCall = 1 := by
  obtain ⟨pty, g, _, _, _, hpre⟩ := h
  rcases hpre with ⟨_, rfl⟩ | ⟨_, c, _, _, _, rfl⟩ <;> rfl

/-- What the traversal of a block does to the numbers of loads and calls. -/
theorem expanded_load_call_counts {M0 Mfin : Module} {is os : List Instr}
    (h : Expanded M0 Mfin is os) :
    os.countP Instr.isLoad = is.countP Instr.isLoad ∧
      os.countP Instr.isCall = is.countP Instr.isCall + is.countP Instr.isLoad := by
  induction h with
  | nil => exact ⟨rfl, rfl⟩
  | @keep I is os hl _ ih =>
    obtain ⟨i1, i2⟩ := ih
    have hc : (I :: os).countP Instr.isCall = os.countP Instr.isCall
        + (if I.isCall = true then 1 else 0) := List.countP_cons _ _ _
    have hc' : (I :: is).countP Instr.isCall = is.countP Instr.isCall
        + (if I.isCall = true then 1 else 0) := List.countP_cons _ _ _
    have hnl : ¬ (I.isLoad = true) := by rw [hl]; exact Bool.false_ne_true
    rw [List.countP_cons_of_neg _ _ hnl, List.countP_cons_of_neg _ _ hnl, hc, hc', i1, i2]
    exact ⟨rfl, by omega⟩
  | @guard L addr M1 M2 pre is os hk _ hi _ _ ih =>
    obtain ⟨i1, i2⟩ := ih
    have hg := guardSeq_of_instrumentLoad hi
    have hLl : L.isLoad = true := by simp [Instr.isLoad, hk]
    have hLc : ¬ (L.isCall = true) := by simp [Instr.isCall, hk]
    rw [List.countP_append, List.countP_append, countP_isLoad_of_noLoad (guardSeq_noLoad hg),
      guardSeq_callCount hg, List.countP_cons_of_pos _ _ hLl, List.countP_cons_of_pos _ _ hLl,
      List.countP_cons_of_neg _ _ hLc, List.countP_cons_of_neg _ _ hLc, i1, i2]
    exact ⟨by omega, by omega⟩

theorem forall₂_instrumentedBlock_counts {M0 Mfin : Module} {bs bs' : List BasicBlock}
    (h : List.Forall₂ (InstrumentedBlock M0 Mfin) bs bs') :
    (bs'.map BasicBlock.loadCount).sum = (bs.map BasicBlock.loadCount).sum ∧
      (bs'.map (fun B => B.instrs.countP Instr.isCall)).sum
        = (bs.map (fun B => B.instrs.countP Instr.isCall)).sum
          + (bs.map BasicBlock.loadCount).sum := by
  induction h with
  | nil => exact ⟨rfl, rfl⟩
  | @cons B B' l l' hb _ ih =>
    obtain ⟨i1, i2⟩ := ih
    obtain ⟨e1, e2⟩ := expanded_load_call_counts hb.2
    simp only [List.map_cons, List.sum_cons, BasicBlock.loadCount] at i1 i2 ⊢
    rw [i1, i2, e1, e2]
    exact ⟨rfl, by omega⟩

theorem instrumentedFn_counts {M0 Mfin : Module} {F F' : Function}
    (h : InstrumentedFn M0 Mfin F F') :
    F'.loadCount = F.loadCount ∧ F'.callCount = F.callCount + F.loadCount :=
  forall₂_instrumentedBlock_counts h.2.2

theorem forall₂_instrumentedFn_counts {M0 Mfin : Module} {as bs : List Function}
    (h : List.Forall₂ (InstrumentedFn M0 Mfin) as bs) :
    loadCount bs = loadCount as ∧ callCount bs = callCount as + loadCount as := by
  unfold loadCount callCount
  induction h with
  | nil => exact ⟨rfl, rfl⟩
  | @cons F F' l l' hab _ ih =>
    obtain ⟨i1, i2⟩ := ih
    obtain ⟨e1, e2⟩ := instrumentedFn_counts hab
    simp only [List.map_cons, List.sum_cons] at i1 i2 ⊢
    rw [i1, i2, e1, e2]
    exact ⟨rfl, by omega⟩

/-- C17: the pass terminates on every module: with at least `fuelBound` loop
tests (one per function, three per load, and the final test) it ends, with a
module or with a fault of the host, and with the same result whatever the fuel
above that bound.  When it ends with a module, every function appended to the
function list (the functions after the input's) contains no load, so visiting
it instruments nothing; the functions of the input gain exactly one call per
load of the input; and the output has exactly as many loads as the input. -/
theorem traversal_terminates_and_counts (M : Module) :
    (∃ r, r ≠ .error .outOfFuel ∧ ∀ fuel, M.fuelBound ≤ fuel → runOnModule fuel M = r) ∧
    ∀ (fuel : Nat) (M' : Module) (b : Bool), runOnModule fuel M = .ok (M', b) →
      (∀ F ∈ M'.functions.drop M.functions.length, F.noLoads) ∧
      callCount (M'.functions.take M.functions.length)
        = callCount M.functions + loadCount M.functions ∧
      loadCount M'.functions = loadCount M.functions := by
  refine ⟨runOnModule_terminates M, ?_⟩
  intro fuel M' b h
  obtain ⟨_, _, fs', new, hM', hfs, hnew⟩ := runOnModule_spec h
  have hlen : fs'.length = M.functions.length := hfs.length_eq.symm
  obtain ⟨c1, c2⟩ := forall₂_instrumentedFn_counts hfs
  refine ⟨?_, ?_, ?_⟩
  · intro F hF
    rw [hM', ← hlen, List.drop_left'] at hF
    · exact newFn_noLoad (hnew F hF)
    · rfl
  · rw [hM', ← hlen, List.take_left']
    · exact c2
    · rfl
  · rw [hM', loadCount_append, loadCount_newFn hnew, c1]
    rfl

/-- C17, witness: `sampleTwo` has one function and two loads; eight loop tests
are enough, the output has two more calls in `f`, still two loads, and the
four appended functions have none. -/
theorem traversal_terminates_and_counts_witness :
    sampleTwo.fuelBound = 8 ∧ loadCount sampleTwo.functions = 2 ∧
      ∃ M', runOnModule 8 sampleTwo = .ok (M', false) ∧ M'.functions.length = 5 ∧
        (∀ F ∈ M'.functions.drop sampleTwo.functions.length, F.noLoads) ∧
        callCount (M'.functions.take sampleTwo.functions.length)
          = callCount sampleTwo.functions + loadCount sampleTwo.functions ∧
        loadCount M'.functions = loadCount sampleTwo.functions :=
  ⟨rfl, rfl, _, rfl, rfl, (traversal_terminates_and_counts sampleTwo).2 8 _ false rfl⟩

end LoadChecker

namespace LoadChecker

/-! ## C12: running the pass where the guard functions exist -/

theorem loadCount_pos_of_not_noLoads {F : Function} (h : ¬ F.noLoads) : 0 < F.loadCount := by
  unfold Function.noLoads at h
  simp only [not_forall] at h
  obtain ⟨B, hB, I, hI, hl⟩ := h
  have hl' : I.isLoad = true := by simpa using hl
  have h1 : 0 < B.loadCount := List.countP_pos_iff.2 ⟨I, hI, hl'⟩
  have h2 : B.loadCount ≤ F.loadCount :=
    List.single_le_sum (fun _ _ => Nat.zero_le _) _ (List.mem_map.2 ⟨B, hB, rfl⟩)
  omega

/-- A run of the pass on a module in which every load has a function of its
guard's name already: no function and no global variable is added, no
declaration changes, a function without loads is kept as it is, and a function
with loads gains one call per load. -/
theorem allGuarded_run {fuel : Nat} {N N' : Module} {b : Bool} (hg : N.AllGuarded)
    (h : runOnModule fuel N = .ok (N', b)) :
    N'.globals = N.globals ∧ List.Forall₂ SameDecl N.functions N'.functions ∧
    ∀ n F, N.functions.get? n = some F →
      ∃ F', N'.functions.get? n = some F' ∧ (F.noLoads → F' = F) ∧
        F'.loadCount = F.loadCount ∧ F'.callCount = F.callCount + F.loadCount := by
  have hloop : runLoop fuel 0 N = .ok N' := by
    unfold runOnModule at h
    cases hr : runLoop fuel 0 N with
    | error e => simp [hr] at h
    | ok Mr =>
      simp only [hr] at h
      injection h with h
      injection h with h _
      rw [h]
  obtain ⟨hglob, hdecl⟩ := runLoop_existing fuel 0 hg hloop
  obtain ⟨_, _, fs', new, hM', hfs, _⟩ := runOnModule_spec h
  have hnil : new = [] := by
    have l1 := hdecl.length_eq
    have l2 := hfs.length_eq
    rw [hM', List.length_append] at l1
    exact List.length_eq_zero.1 (by omega)
  subst hnil
  rw [List.append_nil] at hM'
  refine ⟨hglob, hdecl, ?_⟩
  intro n F hF
  obtain ⟨F', hF', hrel⟩ := forall₂_get? hfs hF
  rw [← hM'] at hF'
  obtain ⟨c1, c2⟩ := instrumentedFn_counts hrel
  refine ⟨F', hF', ?_, c1, c2⟩
  intro hno
  obtain ⟨F'', hF'', hn, ht, ha, hp⟩ := forall₂_get? hdecl hF
  rw [hF'] at hF''
  injection hF'' with hF''
  subst hF''
  have hb : F'.blocks = F.blocks := forall₂_instrumentedBlock_eq hrel.2.2 hno
  obtain ⟨_, _, _, _, _⟩ := F
  obtain ⟨_, _, _, _, _⟩ := F'
  simp only at hn ht ha hp hb
  rw [hn, ht, ha, hp, hb]

/-- C12, counterexample: the claim says that a function which has the name of a
guard when the pass starts comes back unchanged, and that a second run leaves
the bodies of the guard functions as they were after the first.  In
`sampleGuardLoad` the only function is named `nullChecker` and loads a global
variable without debug location, so it is the guard function of its own load.
The first run puts a call of `nullChecker` in front of that load (instruction
identities 2, 0, 1), and the second run puts one more call between that call
and the load (identities 2, 3, 0, 1): the function differs from the input's
after the first run, and from the first run's after the second. -/
theorem c12_counterexample :
    ∃ M1 M2 F0 F1 F2, runOnModule 2 sampleGuardLoad = .ok (M1, false) ∧
      runOnModule 2 M1 = .ok (M2, false) ∧
      sampleGuardLoad.functions = [F0] ∧ M1.functions = [F1] ∧ M2.functions = [F2] ∧
      F0.name = funcName none ∧ F1.name = funcName none ∧ F2.name = funcName none ∧
      F0.blocks.map (fun B => B.instrs.map (fun I => I.id)) = [[0, 1]] ∧
      F1.blocks.map (fun B => B.instrs.map (fun I => I.id)) = [[2, 0, 1]] ∧
      F2.blocks.map (fun B => B.instrs.map (fun I => I.id)) = [[2, 3, 0, 1]] ∧
      F1.blocks =
        [⟨"entry",
          [⟨2, .void, .call "nullChecker" [.icmpEq (.global i32Ptr "g") (.nullPtr i32Ptr)], none⟩,
           ⟨0, .int 32, .load (.global i32Ptr "g"), none⟩,
           ⟨1, .void, .ret none, none⟩]⟩] ∧
      F2.blocks =
        [⟨"entry",
          [⟨2, .void, .call "nullChecker" [.icmpEq (.global i32Ptr "g") (.nullPtr i32Ptr)], none⟩,
           ⟨3, .void, .call "nullChecker" [.icmpEq (.global i32Ptr "g") (.nullPtr i32Ptr)], none⟩,
           ⟨0, .int 32, .load (.global i32Ptr "g"), none⟩,
           ⟨1, .void, .ret none, none⟩]⟩] ∧
      F1 ≠ F0 ∧ F2 ≠ F1 :=
  ⟨_, _, _, _, _, rfl, rfl, rfl, rfl, rfl, rfl, rfl, rfl, rfl, rfl, rfl, rfl, rfl,
    by decide, by decide⟩

/-- C12, amended: what the pass creates is created once.  (1) In the step for a
load whose guard function name is already that of a function of the module,
the function list and the global variables of the module come back as they
were: no guard function, no diagnostic global and no declaration is created;
all the step produces is the guard (the call, after the comparison when the
address is not a constant) that goes in front of the load.  (2) A run on a
module in which every load has a function of its guard's name adds no function
and no global variable, leaves the global variables and the name, type and
attributes of every function as they were, keeps every function without loads
as it is, and adds one call per load to a function with loads.  (3) The output
of a first run is such a module; so a second run leaves the global variables
as they are and the functions the same in number, order, name, type and
attributes; a function is the same after the second run when it contains no
load, which holds for every function the first run built (the guard functions
with their three blocks, and the declarations), while a function with loads
(among them a function of the input that has the name of a guard and contains
a load) gains one call per load and so is not the same. -/
theorem guard_creation_idempotent (fuel1 fuel2 : Nat) (M M1 M2 : Module) (b1 b2 : Bool)
    (h1 : runOnModule fuel1 M = .ok (M1, b1)) (h2 : runOnModule fuel2 M1 = .ok (M2, b2)) :
    (∀ (Mx My : Module) (L : Instr) (addr : Value) (pre : List Instr),
        funcName L.dbg ∈ Mx.functions.map (fun F => F.name) →
        instrumentLoad Mx L addr = .ok (My, pre) →
        My.functions = Mx.functions ∧ My.globals = Mx.globals ∧
          GuardSeq L addr Mx.nextId My.nextId pre) ∧
      (∀ (fuel : Nat) (N N' : Module) (b : Bool), N.AllGuarded →
        runOnModule fuel N = .ok (N', b) →
        N'.globals = N.globals ∧ List.Forall₂ SameDecl N.functions N'.functions ∧
        ∀ n F, N.functions.get? n = some F →
          ∃ F', N'.functions.get? n = some F' ∧ (F.noLoads → F' = F) ∧
            F'.loadCount = F.loadCount ∧ F'.callCount = F.callCount + F.loadCount) ∧
      M1.AllGuarded ∧
      M2.globals = M1.globals ∧
      List.Forall₂ SameDecl M1.functions M2.functions ∧
      (∀ n F, M1.functions.get? n = some F → F.noLoads → M2.functions.get? n = some F) ∧
      (∀ n F, M1.functions.get? n = some F → ¬ F.noLoads →
        ∃ F', M2.functions.get? n = some F' ∧ F' ≠ F ∧
          F'.callCount = F.callCount + F.loadCount) ∧
      (∀ n F, M1.functions.get? n = some F → F.name ∉ M.functions.map (fun F => F.name) →
        F.noLoads ∧ M2.functions.get? n = some F) := by
  obtain ⟨hglob, hdecl, hfn⟩ := allGuarded_run (output_allGuarded h1) h2
  have hkeep : ∀ n F, M1.functions.get? n = some F → F.noLoads →
      M2.functions.get? n = some F := by
    intro n F hF hno
    obtain ⟨F', hF', he, _⟩ := hfn n F hF
    rw [hF', he hno]
  refine ⟨fun Mx My L addr pre hn h =>
      ⟨(instrumentLoad_existing hn h).1, (instrumentLoad_existing hn h).2,
        guardSeq_of_instrumentLoad h⟩,
    fun fuel N N' b hg h => allGuarded_run hg h, output_allGuarded h1, hglob, hdecl, hkeep,
    ?_, ?_⟩
  · intro n F hF hno
    obtain ⟨F', hF', _, _, hc⟩ := hfn n F hF
    refine ⟨F', hF', ?_, hc⟩
    intro e
    have hpos := loadCount_pos_of_not_noLoads hno
    rw [e] at hc
    omega
  · intro n F hF hname
    obtain ⟨_, _, gs', new1, hM1, hgs, hnew1⟩ := runOnModule_spec h1
    have hFm : F ∈ M1.functions := List.get?_mem hF
    rw [hM1] at hFm
    have hno : F.noLoads := by
      rcases List.mem_append.1 hFm with hFm | hFm
      · exfalso
        apply hname
        obtain ⟨m, hm⟩ := List.get?_of_mem hFm
        obtain ⟨F0, hF0, hn0, _⟩ := forall₂_get?_right hgs hm
        rw [hn0]
        exact List.mem_map.2 ⟨F0, List.get?_mem hF0, rfl⟩
      · exact newFn_noLoad (hnew1 F hFm)
    exact ⟨hno, hkeep n F hF hno⟩

/-- C12, witness: `sampleArg` run twice; the second run changes neither the
globals nor the guard function built by the first, and adds one call to the
function `f`, which has one load. -/
theorem guard_creation_idempotent_witness :
    ∃ M1 M2, runOnModule 5 sampleArg = .ok (M1, false) ∧ runOnModule 5 M1 = .ok (M2, false) ∧
      M1.functions.map (fun F => F.name) = ["f", "nullChecker_3_7", "printf", "exit"] ∧
      M2.functions.get? 1 = M1.functions.get? 1 ∧
      M1.functions.map Function.callCount = [1, 2, 0, 0] ∧
      M2.functions.map Function.callCount = [2, 2, 0, 0] ∧
      ((∀ (Mx My : Module) (L : Instr) (addr : Value) (pre : List Instr),
          funcName L.dbg ∈ Mx.functions.map (fun F => F.name) →
          instrumentLoad Mx L addr = .ok (My, pre) →
          My.functions = Mx.functions ∧ My.globals = Mx.globals ∧
            GuardSeq L addr Mx.nextId My.nextId pre) ∧
        (∀ (fuel : Nat) (N N' : Module) (b : Bool), N.AllGuarded →
          runOnModule fuel N = .ok (N', b) →
          N'.globals = N.globals ∧ List.Forall₂ SameDecl N.functions N'.functions ∧
          ∀ n F, N.functions.get? n = some F →
            ∃ F', N'.functions.get? n = some F' ∧ (F.noLoads → F' = F) ∧
              F'.loadCount = F.loadCount ∧ F'.callCount = F.callCount + F.loadCount) ∧
        M1.AllGuarded ∧
        M2.globals = M1.globals ∧
        List.Forall₂ SameDecl M1.functions M2.functions ∧
        (∀ n F, M1.functions.get? n = some F → F.noLoads → M2.functions.get? n = some F) ∧
        (∀ n F, M1.functions.get? n = some F → ¬ F.noLoads →
          ∃ F', M2.functions.get? n = some F' ∧ F' ≠ F ∧
            F'.callCount = F.callCount + F.loadCount) ∧
        (∀ n F, M1.functions.get? n = some F →
          F.name ∉ sampleArg.functions.map (fun F => F.name) →
          F.noLoads ∧ M2.functions.get? n = some F)) :=
  ⟨_, _, rfl, rfl, rfl, rfl, rfl, rfl,
    guard_creation_idempotent 5 5 sampleArg _ _ false false rfl rfl⟩

end LoadChecker

